import Mathlib

/-!
# Verification of the `data_structures::Graph` engine (graph.hpp)

Shallow embedding of the weighted directed-graph class from
`src/data_structures/graph.hpp`.  C++ `int` is modelled as unbounded `Int`
(signed overflow is undefined behaviour in the source, so the model covers
exactly the overflow-free executions); `std::vector` indexing is modelled with
`List.getD` / `List.set`.  The `int`-indexed public entry points are modelled
separately (`addEdgeInt`, `removeEdgeInt`) returning `Option`, where `none`
marks an execution that performs an out-of-bounds vector access (undefined
behaviour).  Loops whose termination depends on data (the priority-queue
driven loops and the recursive DFS helpers) are modelled with explicit fuel;
the fuel baked into each top-level definition is proven (or, for concrete
inputs, computed) to be sufficient, so the model agrees with every terminating
execution of the source.
-/

/-- `const int INF = numeric_limits<int>::max();` -/
def INF : Int := 2 ^ 31 - 1

/-- Read `d[i][j]` of a 2-dimensional `vector<vector<int>>`. -/
def mget (d : List (List Int)) (i j : Nat) : Int := (d.getD i []).getD j 0

/-- Write `d[i][j] = x` of a 2-dimensional `vector<vector<int>>`. -/
def mset (d : List (List Int)) (i j : Nat) (x : Int) : List (List Int) :=
  d.set i ((d.getD i []).set j x)

/-- The weight of the most recently inserted adjacency-list entry with target
`v` (later entries shadow earlier ones), `none` if no entry targets `v`. -/
def lastWeight : List (Nat × Int) → Nat → Option Int
| [], _ => none
| e :: t, v =>
  match lastWeight t v with
  | some w => some w
  | none => if e.1 = v then some e.2 else none

/-- The `Graph` class state: vertex count, adjacency list and adjacency
matrix, exactly the three data members of the C++ class. -/
structure Graph where
  V : Nat
  adjList : List (List (Nat × Int))
  adjMatrix : List (List Int)
deriving DecidableEq

namespace Graph

/-- `Graph::Graph(int vertices)`: `adjList.resize(V)`,
`adjMatrix.resize(V, vector<int>(V, 0))`. -/
def mkGraph (vertices : Nat) : Graph :=
  ⟨vertices, List.replicate vertices [], List.replicate vertices (List.replicate vertices 0)⟩

/-- Read `adjList[u]`. -/
def adj (g : Graph) (u : Nat) : List (Nat × Int) := g.adjList.getD u []

/-- Read `adjMatrix[u][v]`. -/
def mat (g : Graph) (u v : Nat) : Int := (g.adjMatrix.getD u []).getD v 0

/-- `Graph::addEdge(u, v, weight)` for non-negative indices: the guard
`if (u >= V || v >= V) return;` followed by
`adjList[u].push_back({v, weight}); adjMatrix[u][v] = weight;`. -/
def addEdge (g : Graph) (u v : Nat) (w : Int) : Graph :=
  if u ≥ g.V ∨ v ≥ g.V then g
  else { g with
    adjList := g.adjList.set u (g.adj u ++ [(v, w)]),
    adjMatrix := g.adjMatrix.set u ((g.adjMatrix.getD u []).set v w) }

/-- `Graph::addEdge` on arbitrary `int` indices.  The C++ guard checks only
`u >= V || v >= V`; a negative index passes the guard and reaches
`adjList[u]` / `adjMatrix[u][v]`, an out-of-bounds access (undefined
behaviour), modelled as `none`. -/
def addEdgeInt (g : Graph) (u v w : Int) : Option Graph :=
  if u ≥ (g.V : Int) ∨ v ≥ (g.V : Int) then some g
  else if u < 0 ∨ v < 0 then none
  else some (g.addEdge u.toNat v.toNat w)

/-- `Graph::removeEdge(u, v)` for non-negative indices: guard
`if (u >= V || v >= V) return;`, then erase/remove_if of every list entry of
`u` whose target is `v`, then `adjMatrix[u][v] = 0;`. -/
def removeEdge (g : Graph) (u v : Nat) : Graph :=
  if u ≥ g.V ∨ v ≥ g.V then g
  else { g with
    adjList := g.adjList.set u ((g.adj u).filter (fun e => e.1 ≠ v)),
    adjMatrix := g.adjMatrix.set u ((g.adjMatrix.getD u []).set v 0) }

/-- `Graph::removeEdge` on arbitrary `int` indices; as with `addEdgeInt`, a
negative index passes the `u >= V || v >= V` guard and ends in an
out-of-bounds vector access (`adjList[u]` for `u < 0`, `adjMatrix[u][v]` for
`v < 0`), modelled as `none`. -/
def removeEdgeInt (g : Graph) (u v : Int) : Option Graph :=
  if u ≥ (g.V : Int) ∨ v ≥ (g.V : Int) then some g
  else if u < 0 ∨ v < 0 then none
  else some (g.removeEdge u.toNat v.toNat)

/-- `Graph::removeVertex(v)`: guard `v >= V`, clear `adjList[v]`, zero-fill
row `adjMatrix[v]`, then `removeEdge(i, v)` for every `i` in `0..V-1`. -/
def removeVertex (g : Graph) (v : Nat) : Graph :=
  if v ≥ g.V then g
  else
    (List.range g.V).foldl (fun h i => h.removeEdge i v)
      { g with
        adjList := g.adjList.set v [],
        adjMatrix := g.adjMatrix.set v (List.replicate (g.adjMatrix.getD v []).length 0) }

/-- `Graph::clear()`: for every `i`, clear `adjList[i]` and zero-fill
`adjMatrix[i]`. -/
def clear (g : Graph) : Graph :=
  (List.range g.V).foldl (fun h i =>
    { h with
      adjList := h.adjList.set i [],
      adjMatrix := h.adjMatrix.set i (List.replicate (h.adjMatrix.getD i []).length 0) }) g

/-- `Graph::edgeExists(u, v)`: guard, then `adjMatrix[u][v] != 0`. -/
def edgeExists (g : Graph) (u v : Nat) : Bool :=
  if u ≥ g.V ∨ v ≥ g.V then false else g.mat u v ≠ 0

/-- `Graph::getNeighbors(u)`: guard `u >= V`, else the targets of `u`'s
adjacency list, in list order. -/
def getNeighbors (g : Graph) (u : Nat) : List Nat :=
  if u ≥ g.V then [] else (g.adj u).map (·.1)

/-- `Graph::outDegree(u)`: guard `u >= V`, else `adjList[u].size()`. -/
def outDegree (g : Graph) (u : Nat) : Nat :=
  if u ≥ g.V then 0 else (g.adj u).length

/-- `Graph::getTranspose()`: a fresh `Graph(V)`, then for `u` ascending and
edges in list order, `transposed.addEdge(edge.first, u, edge.second)`. -/
def getTranspose (g : Graph) : Graph :=
  (List.range g.V).foldl
    (fun t u => (g.adj u).foldl (fun t' e => t'.addEdge e.1 u e.2) t)
    (mkGraph g.V)

/-- `Graph::makeUndirected()`: for `u` ascending, iterate over the entries of
`adjList[u]` as they stand when `u`'s loop begins (the C++ range-for caches
the sequence; the appends performed by the body target other vertices' lists
in every well-defined execution) and `addEdge(v, u, w)` whenever
`!edgeExists(v, u)` in the current state. -/
def makeUndirected (g : Graph) : Graph :=
  (List.range g.V).foldl
    (fun h u =>
      (h.adj u).foldl
        (fun h' e => if h'.edgeExists e.1 u then h' else h'.addEdge e.1 u e.2) h)
    g

/-- The strict-weak order `std::greater<pair<int,int>>` induces on the
min-heap: the popped element is the lexicographic minimum. -/
def pairLe (a b : Int × Nat) : Prop := a.1 < b.1 ∨ (a.1 = b.1 ∧ a.2 ≤ b.2)

instance : DecidablePred fun p : (Int × Nat) × (Int × Nat) => pairLe p.1 p.2 := by
  intro p; unfold pairLe; infer_instance

instance (a b : Int × Nat) : Decidable (pairLe a b) := by
  unfold pairLe; infer_instance

/-- The element `std::priority_queue<pii, vector<pii>, greater<pii>>::top()`
returns: the lexicographic minimum of the stored multiset. -/
def findMin : List (Int × Nat) → Option (Int × Nat)
| [] => none
| x :: xs =>
  match findMin xs with
  | none => some x
  | some m => if pairLe x m then some x else some m

/-- `top()` followed by `pop()`: the minimum plus the remaining multiset. -/
def popMin (pq : List (Int × Nat)) : Option ((Int × Nat) × List (Int × Nat)) :=
  match findMin pq with
  | none => none
  | some m => some (m, pq.erase m)

/-- One relaxation step of `Graph::dijkstra`'s inner `for` over `adjList[u]`:
`if (dist[u] != INF && dist[u] + weight < dist[v]) { dist[v] = dist[u] +
weight; pq.push({dist[v], v}); }`. -/
def dijkstraRelax (u : Nat) (s : List Int × List (Int × Nat)) (e : Nat × Int) :
    List Int × List (Int × Nat) :=
  if s.1.getD u 0 ≠ INF ∧ s.1.getD u 0 + e.2 < s.1.getD e.1 0 then
    (s.1.set e.1 (s.1.getD u 0 + e.2), s.2 ++ [(s.1.getD u 0 + e.2, e.1)])
  else s

/-- The `while (!pq.empty())` loop of `Graph::dijkstra`, with explicit fuel. -/
def dijkstraLoop (g : Graph) : Nat → List Int → List (Int × Nat) → List Int
| 0, dist, _ => dist
| fuel + 1, dist, pq =>
  match popMin pq with
  | none => dist
  | some ((d, u), pq') =>
    if d > dist.getD u 0 then dijkstraLoop g fuel dist pq'
    else
      let s := (g.adj u).foldl (dijkstraRelax u) (dist, pq')
      dijkstraLoop g fuel s.1 s.2

/-- `Graph::dijkstra(start)`.  The fuel `2 * V * INF.toNat + 2` dominates the
measure `2 * Σ dist[v].toNat + |pq|` which strictly decreases at every
iteration of any terminating source execution. -/
def dijkstra (g : Graph) (start : Nat) : List Int :=
  dijkstraLoop g (2 * g.V * INF.toNat + 2) ((List.replicate g.V INF).set start 0)
    [(0, start)]

/-- The `while (!pq.empty())` loop of `Graph::primMST`, with explicit fuel.
State: `key`, `inMST`, the queue, and the running `totalWeight`. -/
def primLoop (g : Graph) :
    Nat → List Int → List Bool → List (Int × Nat) → Int → Int
| 0, _, _, _, total => total
| fuel + 1, key, inMST, pq, total =>
  match popMin pq with
  | none => total
  | some ((_, u), pq') =>
    if inMST.getD u false then primLoop g fuel key inMST pq' total
    else
      let inMST' := inMST.set u true
      let total' := total + key.getD u 0
      let s := (g.adj u).foldl
        (fun (s : List Int × List (Int × Nat)) e =>
          if ¬(inMST'.getD e.1 false = true) ∧ e.2 < s.1.getD e.1 0 then
            (s.1.set e.1 e.2, s.2 ++ [(e.2, e.1)])
          else s)
        (key, pq')
      primLoop g fuel s.1 inMST' s.2 total'

/-- `Graph::primMST()`: `key` all `INF` except `key[0] = 0`, `inMST` all
false, queue seeded with `{0, 0}`, returns the accumulated `totalWeight`. -/
def primMST (g : Graph) : Int :=
  primLoop g (2 * g.V * INF.toNat + 2) ((List.replicate g.V INF).set 0 0)
    (List.replicate g.V false) [(0, 0)] 0

/-- The initialisation phase of `Graph::floydWarshall()`: a `V×V` matrix of
`INF`, then `dist[i][i] = 0`, then `dist[u][edge.first] = edge.second` for
every list entry (in order, so a later parallel edge overwrites an earlier
one). -/
def fwInit (g : Graph) : List (List Int) :=
  (List.range g.V).foldl
    (fun d u => (g.adj u).foldl (fun d' e => mset d' u e.1 e.2) d)
    ((List.range g.V).foldl (fun d i => mset d i i 0)
      (List.replicate g.V (List.replicate g.V INF)))

/-- `Graph::floydWarshall()`: the initialisation phase followed by the triple
`k`/`i`/`j` loop relaxing `dist[i][j]` via `dist[i][k] + dist[k][j]` when
neither operand is `INF`. -/
def floydWarshall (g : Graph) : List (List Int) :=
  (List.range g.V).foldl
    (fun d k =>
      (List.range g.V).foldl
        (fun d' i =>
          (List.range g.V).foldl
            (fun d'' j =>
              if mget d'' i k ≠ INF ∧ mget d'' k j ≠ INF then
                mset d'' i j (min (mget d'' i j) (mget d'' i k + mget d'' k j))
              else d'') d') d) (fwInit g)

end Graph

/-- Convenience: build a graph from a vertex count and an edge list via
`addEdge`, in order. -/
def buildGraph (v : Nat) (es : List (Nat × Nat × Int)) : Graph :=
  es.foldl (fun g e => g.addEdge e.1 e.2.1 e.2.2) (Graph.mkGraph v)

/-- The 6-vertex graph of the spec's concrete scenario. -/
def g6 : Graph :=
  buildGraph 6 [(0, 1, 4), (0, 2, 2), (1, 2, 5), (1, 3, 10), (2, 4, 3), (4, 3, 4), (3, 5, 11)]

/-- Structural well-formedness of the dual representation: both containers
have `V` rows, matrix rows have `V` columns, and all adjacency-list targets
are in range (all of which `Graph(V)` establishes and every public mutation
maintains). -/
def Graph.WFS (g : Graph) : Prop :=
  g.adjList.length = g.V ∧ g.adjMatrix.length = g.V ∧
  (∀ row ∈ g.adjMatrix, row.length = g.V) ∧
  ∀ u < g.V, ∀ e ∈ g.adj u, e.1 < g.V

/-- The dual-representation consistency invariant of C2: each matrix cell
`(u,v)` holds the weight of the most recently inserted surviving list entry
`u→v`, and 0 if no such entry exists. -/
def Graph.MatListInv (g : Graph) : Prop :=
  ∀ u < g.V, ∀ v < g.V, g.mat u v = (lastWeight (g.adj u) v).getD 0

/-- One public mutation of the `Graph` class. -/
inductive Mutation where
| addE (u v : Nat) (w : Int)
| removeE (u v : Nat)
| removeV (v : Nat)
| clearAll
| makeUndir

/-- Apply one public mutation. -/
def Mutation.apply (m : Mutation) (g : Graph) : Graph :=
  match m with
  | .addE u v w => g.addEdge u v w
  | .removeE u v => g.removeEdge u v
  | .removeV v => g.removeVertex v
  | .clearAll => g.clear
  | .makeUndir => g.makeUndirected

/-- The state reached from a freshly constructed `Graph(V)` by a sequence of
public mutations. -/
def applyAll (V : Nat) (ms : List Mutation) : Graph :=
  ms.foldl (fun g m => m.apply g) (Graph.mkGraph V)

/-- All `(u, v, w)` edge triples of the adjacency list, source ascending,
insertion order within one source. -/
def Graph.edges (g : Graph) : List (Nat × Nat × Int) :=
  (List.range g.V).flatMap (fun u => (g.adj u).map (fun e => (u, e.1, e.2)))

/-- Fold `addEdge` over a list of `(u, v, w)` triples. -/
def addEdges (t : Graph) (es : List (Nat × Nat × Int)) : Graph :=
  es.foldl (fun t' e => t'.addEdge e.1 e.2.1 e.2.2) t

/-- Reverse one edge triple, keeping the weight. -/
def swapT (e : Nat × Nat × Int) : Nat × Nat × Int := (e.2.1, e.1, e.2.2)

/-- Collect the adjacency-list entries a triple list contributes to vertex
`x` when folded through `addEdge`, in order. -/
def bucket (es : List (Nat × Nat × Int)) (x : Nat) : List (Nat × Int) :=
  es.filterMap (fun e => if e.1 = x then some (e.2.1, e.2.2) else none)

/-- One edge inspection of `Graph::isBipartite`'s inner BFS: colour an
uncoloured neighbour `1 - color[u]` and enqueue it; `none` models the
`return false` taken when the neighbour already carries `u`'s colour, and
propagates. -/
def bipEdgeStep (u : Nat) (s : Option (List Int × List Nat)) (e : Nat × Int) :
    Option (List Int × List Nat) :=
  match s with
  | none => none
  | some (color, q) =>
    if color.getD e.1 0 = -1 then
      some (color.set e.1 (1 - color.getD u 0), q ++ [e.1])
    else if color.getD e.1 0 = color.getD u 0 then none
    else some (color, q)

/-- The `while (!q.empty())` loop of `Graph::isBipartite`, with fuel (each
iteration pops one vertex; at most `V` vertices are ever enqueued per
component, so fuel `V + 1` is never exhausted). -/
def bipBFS (g : Graph) : Nat → List Int → List Nat → Option (List Int)
| 0, color, _ => some color
| fuel + 1, color, q =>
  match q with
  | [] => some color
  | u :: q' =>
    match (g.adj u).foldl (bipEdgeStep u) (some (color, q')) with
    | none => none
    | some s' => bipBFS g fuel s'.1 s'.2

/-- The body of `Graph::isBipartite`'s outer `for` loop: seed an uncoloured
vertex `i` with colour 0 and run the BFS on it; a detected conflict
(`none`) propagates. -/
def bipSeed (g : Graph) (s : Option (List Int)) (i : Nat) : Option (List Int) :=
  match s with
  | none => none
  | some color =>
    if color.getD i 0 = -1 then bipBFS g (g.V + 1) (color.set i 0) [i]
    else some color

/-- `Graph::isBipartite()`: all colours `-1`, then for each uncoloured seed
`i` in ascending order colour it 0 and run the BFS; `false` as soon as an
edge joins two same-coloured vertices, `true` otherwise. -/
def isBipartite (g : Graph) : Bool :=
  ((List.range g.V).foldl (bipSeed g) (some (List.replicate g.V (-1)))).isSome

/-- The number of uncoloured vertices. -/
def unc (g : Graph) (color : List Int) : Nat :=
  (List.range g.V).countP (fun v => color.getD v 0 = -1)

/-- One edge processed by `Graph::topologicalSort`'s inner `for`: decrement
the target's in-degree and enqueue it when the decrement reaches zero
(`if (--inDegree[v] == 0) q.push(v);`). -/
def kahnStep (s : List Int × List Nat) (e : Nat × Int) : List Int × List Nat :=
  (s.1.set e.1 (s.1.getD e.1 0 - 1),
    if s.1.getD e.1 0 - 1 = 0 then s.2 ++ [e.1] else s.2)

/-- The `while (!q.empty())` loop of `Graph::topologicalSort` (Kahn's
algorithm): pop `u` (FIFO), emit it, process its out-edges. -/
def kahnLoop (g : Graph) : Nat → List Nat → List Int → List Nat → List Nat
| 0, _, _, topo => topo
| fuel + 1, q, inDeg, topo =>
  match q with
  | [] => topo
  | u :: q' =>
    let s := (g.adj u).foldl kahnStep (inDeg, q')
    kahnLoop g fuel s.2 s.1 (topo ++ [u])

/-- `Graph::topologicalSort()`: in-degrees from the adjacency list, queue
seeded with the zero-in-degree vertices in ascending order, Kahn's loop,
and the full order iff every vertex was emitted (else the empty vector).
Each vertex is enqueued at most once, so fuel `V + 1` is never exhausted. -/
def topologicalSort (g : Graph) : List Nat :=
  let inDeg := (List.range g.V).foldl
    (fun d u => (g.adj u).foldl (fun d' e => d'.set e.1 (d'.getD e.1 0 + 1)) d)
    (List.replicate g.V (0 : Int))
  let topo := kahnLoop g (g.V + 1)
    ((List.range g.V).filter (fun i => inDeg.getD i 0 = 0)) inDeg []
  if topo.length = g.V then topo else []

/-- The directed-edge relation of the adjacency list. -/
def Estep (g : Graph) (a b : Nat) : Prop := ∃ w, (b, w) ∈ g.adj a

/-- `a` occurs strictly before `b` in `l`. -/
def Before (l : List Nat) (a b : Nat) : Prop :=
  ∃ i j : Nat, i < j ∧ l[i]? = some a ∧ l[j]? = some b

/-- Number of entries of an adjacency list with target `v` (counted with
multiplicity). -/
def ct (l : List (Nat × Int)) (v : Nat) : Nat := l.countP (fun e => e.1 = v)

/-- Total in-degree of `v` (with multiplicity). -/
def inCount (g : Graph) (v : Nat) : Nat := (g.edges).countP (fun t => t.2.1 = v)

/-- In-degree of `v` restricted to edges whose source lies in `S`. -/
def inCountFrom (g : Graph) (S : List Nat) (v : Nat) : Nat :=
  (g.edges).countP (fun t => t.2.1 = v ∧ t.1 ∈ S)

/-- Witness graph for C10: a two-vertex graph with a self-loop at 0. -/
def gSL : Graph := buildGraph 2 [(0, 0, 1), (0, 1, 2)]

/-- Counterexample graph for C7: a negative two-cycle on `{0,1}` (drives a
diagonal entry of `floydWarshall` negative), parallel edges `2→3` of weights
3 then 5 (the matrix seed keeps only the later weight 5), and a positive
self-loop at 4 (overwrites the diagonal seed `dist[4][4] = 0` with 7). -/
def gFW : Graph :=
  buildGraph 5 [(0, 1, -1), (1, 0, -1), (2, 3, 3), (2, 3, 5), (4, 4, 7)]

/-- One relaxation of the edge `e` out of `u` in `Graph::bellmanFord`:
`if (dist[u] != INF && dist[u] + weight < dist[v]) dist[v] = dist[u] + weight;`. -/
def bfRelaxEdge (u : Nat) (d : List Int) (e : Nat × Int) : List Int :=
  if d.getD u 0 ≠ INF ∧ d.getD u 0 + e.2 < d.getD e.1 0
  then d.set e.1 (d.getD u 0 + e.2) else d

/-- One full pass of `Graph::bellmanFord` over all adjacency-list edges,
sources in increasing order. -/
def bfPass (g : Graph) (d : List Int) : List Int :=
  (List.range g.V).foldl (fun d' u => (g.adj u).foldl (bfRelaxEdge u) d') d

/-- `Graph::bellmanFord(start)`: `V - 1` relaxation passes followed by the
negative-cycle check. -/
def bellmanFord (g : Graph) (start : Nat) : List Int × Bool :=
  let d := (List.range (g.V - 1)).foldl (fun x _ => bfPass g x)
    ((List.replicate g.V INF).set start 0)
  (d, (List.range g.V).any (fun u => (g.adj u).any (fun e =>
    decide (d.getD u 0 ≠ INF ∧ d.getD u 0 + e.2 < d.getD e.1 0))))

/-- `isWalk g s l t`: the edge list `l` is a directed walk from `s` to `t`
along adjacency-list entries. -/
def isWalk (g : Graph) : Nat → List (Nat × Int) → Nat → Prop
| s, [], t => s = t
| s, e :: rest, t => e ∈ g.adj s ∧ isWalk g e.1 rest t

/-- Total weight of a walk's edge list. -/
def wt (l : List (Nat × Int)) : Int := (l.map Prod.snd).sum

/-- The vertex sequence of a walk starting at `s`. -/
def wvs (s : Nat) (l : List (Nat × Int)) : List Nat := s :: l.map Prod.fst

/-- Invariant core of `Graph::dijkstra`'s loop state `(dist, pq)`: row
length, value bounds, the start entry, soundness of every finite entry as a
walk weight, and the queue-entry bound. -/
def DCore (g : Graph) (s : Nat) (st : List Int × List (Int × Nat)) : Prop :=
  st.1.length = g.V ∧
  (∀ v, v < g.V → 0 ≤ st.1.getD v 0 ∧ st.1.getD v 0 ≤ INF) ∧
  st.1.getD s 0 ≤ 0 ∧
  (∀ v, v < g.V → st.1.getD v 0 = INF ∨ ∃ l, isWalk g s l v ∧ wt l = st.1.getD v 0) ∧
  (∀ p ∈ st.2, p.2 < g.V ∧ st.1.getD p.2 0 ≤ p.1)

/-- Per-vertex progress invariant of the Dijkstra loop: the vertex is
untouched, or its current entry is still queued, or all its out-edges are
relaxed. -/
def EAt (g : Graph) (st : List Int × List (Int × Nat)) (x : Nat) : Prop :=
  st.1.getD x 0 = INF ∨ (st.1.getD x 0, x) ∈ st.2 ∨
    ∀ e ∈ g.adj x, st.1.getD e.1 0 ≤ st.1.getD x 0 + e.2

/-- Termination measure of the Dijkstra loop. -/
def dMeasure (st : List Int × List (Int × Nat)) : Nat :=
  2 * (st.1.map Int.toNat).sum + st.2.length

/-- `dfsFillOrder(u, visited, Stack, adjList)`: mark `u`, recurse into each
unvisited adjacency-list target, then push `u`.  The stack is a list whose
head is the top; `fuel` bounds the recursion depth (any value at least the
number of unvisited vertices is enough). -/
def dfsFillOrder (g : Graph) : Nat → Nat → List Bool → List Nat → List Bool × List Nat
| 0, _, visited, stack => (visited, stack)
| fuel + 1, u, visited, stack =>
  let s := (g.adj u).foldl
    (fun st e => if st.1.getD e.1 false then st
      else dfsFillOrder g fuel e.1 st.1 st.2)
    (visited.set u true, stack)
  (s.1, u :: s.2)

/-- Phase 1 of `Graph::getSCCs`: run `dfsFillOrder` from every still
unvisited vertex in index order. -/
def fillOrderAll (g : Graph) : List Bool × List Nat :=
  (List.range g.V).foldl
    (fun st i => if st.1.getD i false then st else dfsFillOrder g g.V i st.1 st.2)
    (List.replicate g.V false, [])

/-- `dfsCollect(u, visited, component, revGraph)`: mark `u`, append it to the
component, and recurse into each unvisited vertex of `getNeighbors(u)`. -/
def dfsCollect (g : Graph) : Nat → Nat → List Bool → List Nat → List Bool × List Nat
| 0, _, visited, comp => (visited, comp)
| fuel + 1, u, visited, comp =>
  (g.getNeighbors u).foldl
    (fun st v => if st.1.getD v false then st else dfsCollect g fuel v st.1 st.2)
    (visited.set u true, comp ++ [u])

/-- `Graph::getSCCs()`: fill the finish stack, transpose, and collect
components in stack order. -/
def Graph.getSCCs (g : Graph) : List (List Nat) :=
  ((fillOrderAll g).2.foldl
    (fun acc u => if acc.1.getD u false then acc
      else ((dfsCollect g.getTranspose g.V u acc.1 []).1,
            acc.2 ++ [(dfsCollect g.getTranspose g.V u acc.1 []).2]))
    (List.replicate g.V false, ([] : List (List Nat)))).2

/-- `u` reaches `v` along adjacency-list edges. -/
def ReachW (g : Graph) (u v : Nat) : Prop := ∃ l, isWalk g u l v

/-- `u` and `v` lie in the same strongly connected component. -/
def SameSCC (g : Graph) (u v : Nat) : Prop := ReachW g u v ∧ ReachW g v u

/-- One edge step whose target additionally satisfies `A`. -/
def StepIn (g : Graph) (A : Nat → Prop) (a b : Nat) : Prop := Estep g a b ∧ A b

/-- The visited flag of vertex `v`. -/
def visSet (vis : List Bool) (v : Nat) : Prop := vis.getD v false = true

/-- The finish-stack property that drives phase 2: a constrained path into
`r` through the part of the stack at or below `r` forces reachability from
`r`. -/
def Wstack (g : Graph) (stk : List Nat) : Prop :=
  ∀ (S1 : List Nat) (r : Nat) (S2 : List Nat), stk = S1 ++ r :: S2 →
  ∀ v, v ∈ r :: S2 →
  Relation.ReflTransGen (StepIn g (fun x => x ∈ r :: S2)) v r →
  ReachW g r v

/-! ## Generic list and fold lemmas -/

theorem getD_set_self {α : Type} {l : List α} {i : Nat} (a d : α) (h : i < l.length) :
    (l.set i a).getD i d = a := by
  simp [List.getD, List.getElem?_set, h]

theorem getD_set_ne {α : Type} {l : List α} {i j : Nat} (a d : α) (h : i ≠ j) :
    (l.set i a).getD j d = l.getD j d := by
  simp [List.getD, List.getElem?_set, h]

theorem foldl_inv {α β : Type} (P : α → Prop) (f : α → β → α) (l : List β) (init : α)
    (h0 : P init) (hstep : ∀ s x, x ∈ l → P s → P (f s x)) : P (l.foldl f init) := by
  induction l generalizing init with
  | nil => exact h0
  | cons a t ih =>
    exact ih (f init a) (hstep init a (by simp) h0)
      (fun s x hx hP => hstep s x (by simp [hx]) hP)

theorem mget_mset_self {d : List (List Int)} {i j : Nat} (x : Int)
    (hi : i < d.length) (hj : j < (d.getD i []).length) :
    mget (mset d i j x) i j = x := by
  unfold mget mset
  rw [getD_set_self _ _ hi, getD_set_self _ _ hj]

theorem mget_mset_ne {d : List (List Int)} {i j i' j' : Nat} (x : Int)
    (h : i ≠ i' ∨ j ≠ j') : mget (mset d i j x) i' j' = mget d i' j' := by
  unfold mget mset
  rcases h with h | h
  · rw [getD_set_ne _ _ h]
  · rcases eq_or_ne i i' with rfl | hne
    · by_cases hlen : i < d.length
      · rw [getD_set_self _ _ hlen, getD_set_ne _ _ h]
      · rw [List.set_eq_of_length_le (by omega)]
    · rw [getD_set_ne _ _ hne]

theorem mget_mset_or (d : List (List Int)) (i j i' j' : Nat) (x : Int) :
    mget (mset d i j x) i' j' = x ∨ mget (mset d i j x) i' j' = mget d i' j' := by
  rcases eq_or_ne i i' with rfl | hne
  · rcases eq_or_ne j j' with rfl | hne'
    · by_cases hi : i < d.length
      · by_cases hj : j < (d.getD i []).length
        · exact Or.inl (mget_mset_self x hi hj)
        · refine Or.inr ?_
          unfold mget mset
          by_cases hii : i < d.length
          · rw [getD_set_self _ _ hii, List.set_eq_of_length_le (by omega)]
          · omega
      · refine Or.inr ?_
        unfold mget mset
        rw [List.set_eq_of_length_le (by omega)]
    · exact Or.inr (mget_mset_ne x (Or.inr hne'))
  · exact Or.inr (mget_mset_ne x (Or.inl hne))

theorem mset_dims {d : List (List Int)} {V i j : Nat} (x : Int)
    (h1 : d.length = V) (h2 : ∀ row ∈ d, row.length = V) :
    (mset d i j x).length = V ∧ ∀ row ∈ mset d i j x, row.length = V := by
  by_cases hi : i < d.length
  · constructor
    · simpa [mset] using h1
    · intro row hrow
      rcases List.mem_or_eq_of_mem_set hrow with h | rfl
      · exact h2 _ h
      · have hmem : d.getD i [] ∈ d := by
          have heq : d.getD i [] = d[i] := by
            simp [List.getD, List.getElem?_eq_getElem hi]
          rw [heq]; exact List.getElem_mem hi
        simpa using h2 _ hmem
  · have heq : mset d i j x = d := by
      unfold mset; exact List.set_eq_of_length_le (by omega)
    rw [heq]; exact ⟨h1, h2⟩

/-- C5: on the 6-vertex scenario graph, `dijkstra(0)` returns
`[0, 4, 2, 9, 5, 20]`. -/
theorem C5_dijkstra_concrete : g6.dijkstra 0 = [0, 4, 2, 9, 5, 20] := by decide

/-- C6 counterexample: on the scenario graph made undirected, `primMST()`
does not return 26 (it returns the true minimum-spanning-tree weight 24; the
spec's claimed edge selection `4+2+5+4+11` is not minimal). -/
theorem C6_counterexample : ¬(g6.makeUndirected.primMST = 26) := by decide

/-- C6 amended: on the scenario graph made undirected, `primMST()` returns
total weight 24 (edges of weight 2, 3, 4, 4, 11). -/
theorem C6_prim_concrete : g6.makeUndirected.primMST = 24 := by decide

/-! ## C9: out-of-range indices in addEdge / removeEdge -/

/-- C9 (code bug): the spec requires `addEdge`/`removeEdge` to be silent
no-ops for every index outside `[0, V)` including negative ones, but the
source guard checks only `u >= V || v >= V`; a negative index passes the
guard and performs an out-of-bounds vector access (undefined behaviour,
modelled as `none`) instead of a no-op.  Indices `≥ V` are indeed no-ops. -/
theorem C9_negative_index_not_noop :
    (Graph.mkGraph 2).addEdgeInt (-1) 0 5 = none ∧
    (Graph.mkGraph 2).removeEdgeInt (-1) 0 = none ∧
    (Graph.mkGraph 2).addEdgeInt 0 (-1) 5 = none ∧
    (Graph.mkGraph 2).addEdgeInt 2 0 5 = some (Graph.mkGraph 2) ∧
    (Graph.mkGraph 2).removeEdgeInt 0 7 = some (Graph.mkGraph 2) := by decide

/-! ## C7: floydWarshall diagonal and edge bounds -/

theorem getD_row_length {d : List (List Int)} {V i : Nat} (h1 : d.length = V)
    (h2 : ∀ row ∈ d, row.length = V) (hi : i < V) : (d.getD i []).length = V := by
  have hi' : i < d.length := by omega
  have heq : d.getD i [] = d[i] := by simp [List.getD, List.getElem?_eq_getElem hi']
  rw [heq]; exact h2 _ (List.getElem_mem hi')

theorem diag_fold_zero (V : Nat) (l : List Nat) :
    ∀ d : List (List Int), d.length = V → (∀ row ∈ d, row.length = V) →
    (∀ i ∈ l, i < V) → (∀ i, i ∈ l ∨ mget d i i = 0) →
    ∀ i, mget (l.foldl (fun d i => mset d i i 0) d) i i = 0 := by
  induction l with
  | nil =>
    intro d _ _ _ hcov i
    rcases hcov i with h | h
    · cases h
    · exact h
  | cons a t ih =>
    intro d hd hrows hmem hcov i
    simp only [List.foldl_cons]
    have ha : a < V := hmem a (by simp)
    refine ih (mset d a a 0) (mset_dims 0 hd hrows).1 (mset_dims 0 hd hrows).2
      (fun x hx => hmem x (by simp [hx])) ?_ i
    intro x
    rcases hcov x with hx | hx
    · rcases List.mem_cons.mp hx with rfl | hx'
      · right
        exact mget_mset_self 0 (by omega) (by rw [getD_row_length hd hrows ha]; omega)
      · left; exact hx'
    · right
      rcases mget_mset_or d a a x x 0 with h | h
      · rw [h]
      · rw [h, hx]

theorem getD_replicate' {α : Type} (n i : Nat) (a d : α) :
    (List.replicate n a).getD i d = if i < n then a else d := by
  by_cases h : i < n
  · rw [List.getD_eq_getElem _ _ (by simpa using h)]
    simp [h]
  · rw [List.getD_eq_default _ _ (by simpa using h)]
    simp [h]

theorem mget_replicate (V i j : Nat) (a : Int) :
    mget (List.replicate V (List.replicate V a)) i j =
      if i < V ∧ j < V then a else 0 := by
  unfold mget
  rw [getD_replicate']
  by_cases hi : i < V
  · rw [if_pos hi, getD_replicate']
    by_cases hj : j < V
    · rw [if_pos hj, if_pos ⟨hi, hj⟩]
    · rw [if_neg hj, if_neg (by tauto)]
  · rw [if_neg hi, if_neg (by tauto)]
    simp

theorem fwInit_props (g : Graph)
    (hnn : ∀ u < g.V, ∀ e ∈ g.adj u, 0 ≤ e.2)
    (hnsl : ∀ u < g.V, ∀ e ∈ g.adj u, e.1 ≠ u) :
    (g.fwInit.length = g.V ∧ ∀ row ∈ g.fwInit, row.length = g.V) ∧
    (∀ i, mget g.fwInit i i = 0) ∧ ∀ i j, 0 ≤ mget g.fwInit i j := by
  have hINF : (0 : Int) ≤ INF := by unfold INF; omega
  set d0 : List (List Int) := List.replicate g.V (List.replicate g.V INF) with hd0
  have hd0len : d0.length = g.V := by simp [hd0]
  have hd0rows : ∀ row ∈ d0, row.length = g.V := by
    intro row hrow
    rw [List.eq_of_mem_replicate hrow]; simp
  have hd0nn : ∀ i j, 0 ≤ mget d0 i j := by
    intro i j
    rw [hd0, mget_replicate]
    split
    · exact hINF
    · exact le_refl 0
  set d1 : List (List Int) := (List.range g.V).foldl (fun d i => mset d i i 0) d0 with hd1
  have hd1dims : (d1.length = g.V ∧ ∀ row ∈ d1, row.length = g.V) ∧
      ∀ i j, 0 ≤ mget d1 i j := by
    rw [hd1]
    refine foldl_inv
      (fun d => (d.length = g.V ∧ ∀ row ∈ d, row.length = g.V) ∧ ∀ i j, 0 ≤ mget d i j)
      _ _ _ ⟨⟨hd0len, hd0rows⟩, hd0nn⟩ ?_
    rintro d x _ ⟨⟨hl, hr⟩, hnn'⟩
    refine ⟨⟨(mset_dims 0 hl hr).1, (mset_dims 0 hl hr).2⟩, ?_⟩
    intro i j
    rcases mget_mset_or d x x i j 0 with h | h
    · rw [h]
    · rw [h]; exact hnn' i j
  have hd1diag : ∀ i, mget d1 i i = 0 := by
    rw [hd1]
    refine diag_fold_zero g.V (List.range g.V) d0 hd0len hd0rows (by simp) ?_
    intro i
    by_cases hi : i < g.V
    · exact Or.inl (List.mem_range.mpr hi)
    · refine Or.inr ?_
      rw [hd0, mget_replicate, if_neg (by tauto)]
  have key : (g.fwInit.length = g.V ∧ ∀ row ∈ g.fwInit, row.length = g.V) ∧
      (∀ i, mget g.fwInit i i = 0) ∧ ∀ i j, 0 ≤ mget g.fwInit i j := by
    rw [show g.fwInit = (List.range g.V).foldl
      (fun d u => (g.adj u).foldl (fun d' e => mset d' u e.1 e.2) d) d1 from rfl]
    refine foldl_inv (fun d => (d.length = g.V ∧ ∀ row ∈ d, row.length = g.V) ∧
      (∀ i, mget d i i = 0) ∧ ∀ i j, 0 ≤ mget d i j) _ _ _
      ⟨hd1dims.1, hd1diag, hd1dims.2⟩ ?_
    rintro d u hu ⟨⟨hl, hr⟩, hdiag, hnn'⟩
    have hu' : u < g.V := List.mem_range.mp hu
    refine foldl_inv (fun d => (d.length = g.V ∧ ∀ row ∈ d, row.length = g.V) ∧
      (∀ i, mget d i i = 0) ∧ ∀ i j, 0 ≤ mget d i j) _ _ _ ⟨⟨hl, hr⟩, hdiag, hnn'⟩ ?_
    rintro d' e he ⟨⟨hl', hr'⟩, hdiag', hnn''⟩
    refine ⟨⟨(mset_dims e.2 hl' hr').1, (mset_dims e.2 hl' hr').2⟩, ?_, ?_⟩
    · intro i
      rw [mget_mset_ne]
      · exact hdiag' i
      · rcases eq_or_ne u i with rfl | hne
        · exact Or.inr (hnsl u hu' e he)
        · exact Or.inl hne
    · intro i j
      rcases mget_mset_or d' u e.1 i j e.2 with h | h
      · rw [h]; exact hnn u hu' e he
      · rw [h]; exact hnn'' i j
  exact key

theorem fw_row_untouched (g : Graph) (l : List Nat) (u : Nat) (hul : u ∉ l)
    (d : List (List Int)) (v : Nat) :
    mget (l.foldl (fun d u' => (g.adj u').foldl (fun d' e => mset d' u' e.1 e.2) d) d) u v
      = mget d u v := by
  refine foldl_inv (fun dd : List (List Int) => mget dd u v = mget d u v) _ _ _ rfl ?_
  intro s x hx hP
  refine foldl_inv (fun dd : List (List Int) => mget dd u v = mget d u v) _ _ _ hP ?_
  intro s' e _ hP'
  have hxu : x ≠ u := fun h => hul (h ▸ hx)
  rw [mget_mset_ne e.2 (Or.inl hxu), hP']

theorem fw_row_fold (V : Nat) (es : List (Nat × Int)) :
    ∀ (d : List (List Int)) (u v : Nat), d.length = V → (∀ row ∈ d, row.length = V) →
    u < V → (∀ e ∈ es, e.1 < V) →
    mget (es.foldl (fun d' e => mset d' u e.1 e.2) d) u v
      = (lastWeight es v).getD (mget d u v) := by
  induction es with
  | nil => intro d u v _ _ _ _; rfl
  | cons e t ih =>
    intro d u v hl hr hu hes
    simp only [List.foldl_cons]
    rw [ih (mset d u e.1 e.2) u v (mset_dims e.2 hl hr).1 (mset_dims e.2 hl hr).2 hu
      (fun x hx => hes x (by simp [hx]))]
    show _ = (lastWeight (e :: t) v).getD (mget d u v)
    rcases hlw : lastWeight t v with _ | w
    · rcases eq_or_ne e.1 v with rfl | hne
      · rw [mget_mset_self e.2 (by omega)
          (by rw [getD_row_length hl hr hu]; exact hes e (by simp))]
        simp [lastWeight, hlw]
      · rw [mget_mset_ne e.2 (Or.inr hne)]
        simp [lastWeight, hlw, hne]
    · simp [lastWeight, hlw]

theorem fwInit_last (g : Graph)
    (hwf : ∀ u < g.V, ∀ e ∈ g.adj u, e.1 < g.V)
    (u : Nat) (hu : u < g.V) (v : Nat) (w : Int)
    (hlw : lastWeight (g.adj u) v = some w) : mget g.fwInit u v = w := by
  obtain ⟨s, t, hst⟩ := List.append_of_mem (List.mem_range.mpr hu)
  have hnd : (s ++ u :: t).Nodup := hst ▸ List.nodup_range g.V
  have hus : u ∉ s := fun h =>
    (List.disjoint_of_nodup_append hnd) h (by simp)
  have hut : u ∉ t :=
    (List.nodup_cons.mp (List.Nodup.of_append_right hnd)).1
  set d1 : List (List Int) := (List.range g.V).foldl (fun d i => mset d i i 0)
    (List.replicate g.V (List.replicate g.V INF)) with hd1
  have hd1dims : d1.length = g.V ∧ ∀ row ∈ d1, row.length = g.V := by
    rw [hd1]
    refine foldl_inv
      (fun d : List (List Int) => d.length = g.V ∧ ∀ row ∈ d, row.length = g.V) _ _ _
      ⟨by simp, ?_⟩ ?_
    · intro row hrow; rw [List.eq_of_mem_replicate hrow]; simp
    · rintro d x _ ⟨hl, hr⟩; exact mset_dims 0 hl hr
  have hfw : g.fwInit = (s ++ u :: t).foldl
      (fun d u' => (g.adj u').foldl (fun d' e => mset d' u' e.1 e.2) d) d1 := by
    rw [← hst]; rfl
  rw [hfw, List.foldl_append, List.foldl_cons]
  have hsd : ((s.foldl (fun d u' => (g.adj u').foldl (fun d' e => mset d' u' e.1 e.2) d)
      d1).length = g.V ∧
      ∀ row ∈ s.foldl (fun d u' => (g.adj u').foldl (fun d' e => mset d' u' e.1 e.2) d) d1,
        row.length = g.V) := by
    refine foldl_inv
      (fun d : List (List Int) => d.length = g.V ∧ ∀ row ∈ d, row.length = g.V) _ _ _
      hd1dims ?_
    rintro d x _ ⟨hl, hr⟩
    refine foldl_inv
      (fun d : List (List Int) => d.length = g.V ∧ ∀ row ∈ d, row.length = g.V) _ _ _
      ⟨hl, hr⟩ ?_
    rintro d' e _ ⟨hl', hr'⟩
    exact mset_dims e.2 hl' hr'
  rw [fw_row_untouched g t u hut]
  rw [fw_row_fold g.V (g.adj u) _ u v hsd.1 hsd.2 hu (fun e he => hwf u hu e he)]
  rw [hlw]
  rfl

set_option maxRecDepth 100000 in
/-- C7 counterexample: on `gFW` (negative two-cycle, parallel edges, positive
self-loop) the claimed properties of `floydWarshall()` fail: the diagonal is
not all zero and the matrix entry for a (non-last) parallel edge exceeds that
edge's weight. -/
theorem C7_counterexample :
    ¬((∀ i < gFW.V, mget gFW.floydWarshall i i = 0) ∧
      ∀ u < gFW.V, ∀ e ∈ gFW.adj u, mget gFW.floydWarshall u e.1 ≤ e.2) := by decide

/-- C7 amended: for every graph whose adjacency list has only in-range
targets, non-negative weights and no self-loop entries, `floydWarshall()`
has a zero diagonal, and each entry `(u,v)` with at least one list edge
`u→v` is bounded by the weight of the *last* such edge in the list (the
matrix seed is last-write-wins, so earlier parallel edges impose no bound). -/
theorem C7_floydWarshall_amended (g : Graph)
    (hwf : ∀ u < g.V, ∀ e ∈ g.adj u, e.1 < g.V)
    (hnn : ∀ u < g.V, ∀ e ∈ g.adj u, 0 ≤ e.2)
    (hnsl : ∀ u < g.V, ∀ e ∈ g.adj u, e.1 ≠ u) :
    (∀ i < g.V, mget g.floydWarshall i i = 0) ∧
    ∀ u < g.V, ∀ e ∈ g.adj u, ∀ w, lastWeight (g.adj u) e.1 = some w →
      mget g.floydWarshall u e.1 ≤ w := by
  obtain ⟨hdims, hdiag, hnn0⟩ := fwInit_props g hnn hnsl
  have main : ((g.floydWarshall.length = g.V ∧ ∀ row ∈ g.floydWarshall, row.length = g.V) ∧
      (∀ i, mget g.floydWarshall i i = 0) ∧ (∀ i j, 0 ≤ mget g.floydWarshall i j)) ∧
      ∀ i j, mget g.floydWarshall i j ≤ mget g.fwInit i j := by
    rw [show g.floydWarshall = (List.range g.V).foldl
      (fun d k =>
        (List.range g.V).foldl
          (fun d' i =>
            (List.range g.V).foldl
              (fun d'' j =>
                if mget d'' i k ≠ INF ∧ mget d'' k j ≠ INF then
                  mset d'' i j (min (mget d'' i j) (mget d'' i k + mget d'' k j))
                else d'') d') d) g.fwInit from rfl]
    refine foldl_inv (fun d : List (List Int) =>
      ((d.length = g.V ∧ ∀ row ∈ d, row.length = g.V) ∧
        (∀ i, mget d i i = 0) ∧ (∀ i j, 0 ≤ mget d i j)) ∧
      ∀ i j, mget d i j ≤ mget g.fwInit i j) _ _ _
      ⟨⟨hdims, hdiag, hnn0⟩, fun i j => le_refl _⟩ ?_
    rintro d k _ hP
    refine foldl_inv (fun d : List (List Int) =>
      ((d.length = g.V ∧ ∀ row ∈ d, row.length = g.V) ∧
        (∀ i, mget d i i = 0) ∧ (∀ i j, 0 ≤ mget d i j)) ∧
      ∀ i j, mget d i j ≤ mget g.fwInit i j) _ _ _ hP ?_
    rintro d' i hi hP'
    refine foldl_inv (fun d : List (List Int) =>
      ((d.length = g.V ∧ ∀ row ∈ d, row.length = g.V) ∧
        (∀ i, mget d i i = 0) ∧ (∀ i j, 0 ≤ mget d i j)) ∧
      ∀ i j, mget d i j ≤ mget g.fwInit i j) _ _ _ hP' ?_
    rintro d'' j hj ⟨⟨⟨hl, hr⟩, hdg, hpos⟩, hmono⟩
    by_cases hguard : mget d'' i k ≠ INF ∧ mget d'' k j ≠ INF
    · rw [if_pos hguard]
      have hiV : i < g.V := List.mem_range.mp hi
      have hjV : j < g.V := List.mem_range.mp hj
      have hrow : j < (d''.getD i []).length := by
        rw [getD_row_length hl hr hiV]; omega
      have hsetval : mget (mset d'' i j (min (mget d'' i j) (mget d'' i k + mget d'' k j)))
          i j = min (mget d'' i j) (mget d'' i k + mget d'' k j) :=
        mget_mset_self _ (by omega) hrow
      refine ⟨⟨⟨(mset_dims _ hl hr).1, (mset_dims _ hl hr).2⟩, ?_, ?_⟩, ?_⟩
      · intro x
        by_cases hij : i = x ∧ j = x
        · obtain ⟨h1, h2⟩ := hij
          have hji : j = i := h2.trans h1.symm
          have hxx : mget (mset d'' i j (min (mget d'' i j) (mget d'' i k + mget d'' k j)))
              x x = mget (mset d'' i j (min (mget d'' i j) (mget d'' i k + mget d'' k j)))
              i j := by rw [h1, h2]
          rw [hxx, hsetval]
          have h0 : mget d'' i j = 0 := by rw [hji]; exact hdg i
          rw [h0]
          refine min_eq_left (add_nonneg (hpos i k) (hpos k j))
        · rw [mget_mset_ne _ (by tauto)]
          exact hdg x
      · intro x y
        by_cases hxy : i = x ∧ j = y
        · obtain ⟨rfl, rfl⟩ := hxy
          rw [hsetval]
          exact le_min (hpos i j) (add_nonneg (hpos i k) (hpos k j))
        · rw [mget_mset_ne _ (by tauto)]
          exact hpos x y
      · intro x y
        by_cases hxy : i = x ∧ j = y
        · obtain ⟨rfl, rfl⟩ := hxy
          rw [hsetval]
          exact le_trans (min_le_left _ _) (hmono i j)
        · rw [mget_mset_ne _ (by tauto)]
          exact hmono x y
    · rw [if_neg hguard]
      exact ⟨⟨⟨hl, hr⟩, hdg, hpos⟩, hmono⟩
  refine ⟨fun i _ => main.1.2.1 i, ?_⟩
  intro u hu e he w hlw
  exact le_trans (main.2 u e.1) (le_of_eq (fwInit_last g hwf u hu e.1 w hlw))

/-- C7 amended, witnessed on the concrete scenario graph `g6`. -/
theorem C7_amended_witness :
    ((∀ u < g6.V, ∀ e ∈ g6.adj u, e.1 < g6.V) ∧
     (∀ u < g6.V, ∀ e ∈ g6.adj u, 0 ≤ e.2) ∧
     (∀ u < g6.V, ∀ e ∈ g6.adj u, e.1 ≠ u)) ∧
    ((∀ i < g6.V, mget g6.floydWarshall i i = 0) ∧
     ∀ u < g6.V, ∀ e ∈ g6.adj u, ∀ w, lastWeight (g6.adj u) e.1 = some w →
       mget g6.floydWarshall u e.1 ≤ w) :=
  ⟨⟨by decide, by decide, by decide⟩,
    C7_floydWarshall_amended g6 (by decide) (by decide) (by decide)⟩

/-! ## C2: dual-representation consistency under all public mutations -/

theorem lastWeight_append (l : List (Nat × Int)) (e : Nat × Int) (v : Nat) :
    lastWeight (l ++ [e]) v = if e.1 = v then some e.2 else lastWeight l v := by
  induction l with
  | nil => simp [lastWeight]
  | cons x t ih =>
    show lastWeight (x :: (t ++ [e])) v = _
    by_cases he : e.1 = v
    · simp only [lastWeight, ih, if_pos he]
    · simp only [lastWeight, ih, if_neg he]

theorem lastWeight_filter_self (l : List (Nat × Int)) (v : Nat) :
    lastWeight (l.filter (fun e => e.1 ≠ v)) v = none := by
  induction l with
  | nil => rfl
  | cons e t ih =>
    rw [List.filter_cons]
    by_cases he : e.1 = v
    · rw [if_neg (by simp [he])]
      exact ih
    · rw [if_pos (by simp [he])]
      show (match lastWeight (t.filter fun e => e.1 ≠ v) v with
        | some w => some w
        | none => if e.1 = v then some e.2 else none) = none
      rw [ih, if_neg he]

theorem lastWeight_filter_ne (l : List (Nat × Int)) (v y : Nat) (hne : y ≠ v) :
    lastWeight (l.filter (fun e => e.1 ≠ v)) y = lastWeight l y := by
  induction l with
  | nil => rfl
  | cons e t ih =>
    by_cases he : e.1 = v
    · rw [List.filter_cons, if_neg (by simp [he])]
      rw [ih]
      show _ = lastWeight (e :: t) y
      have : lastWeight (e :: t) y = match lastWeight t y with
        | some w => some w
        | none => if e.1 = y then some e.2 else none := rfl
      rw [this]
      rcases h : lastWeight t y with _ | w
      · rw [if_neg (fun hc : e.1 = y => hne (hc ▸ he))]
      · rfl
    · rw [List.filter_cons, if_pos (by simp [he])]
      show (match lastWeight (t.filter fun e => e.1 ≠ v) y with
        | some w => some w
        | none => if e.1 = y then some e.2 else none) = _
      rw [ih]
      rfl

theorem addEdge_preserves (g : Graph) (u v : Nat) (w : Int)
    (hwfs : g.WFS) (hinv : g.MatListInv) :
    (g.addEdge u v w).V = g.V ∧ (g.addEdge u v w).WFS ∧ (g.addEdge u v w).MatListInv := by
  obtain ⟨hal, ham, hrows, htgt⟩ := hwfs
  unfold Graph.addEdge
  by_cases hg : u ≥ g.V ∨ v ≥ g.V
  · rw [if_pos hg]; exact ⟨rfl, ⟨hal, ham, hrows, htgt⟩, hinv⟩
  · rw [if_neg hg]
    push_neg at hg
    obtain ⟨hu, hv⟩ := hg
    have huL : u < g.adjList.length := by omega
    have huM : u < g.adjMatrix.length := by omega
    have hrowlen : (g.adjMatrix.getD u []).length = g.V :=
      getD_row_length ham hrows hu
    refine ⟨rfl, ⟨by simpa using hal, by simpa using ham, ?_, ?_⟩, ?_⟩
    · intro row hrow
      rcases List.mem_or_eq_of_mem_set hrow with h | rfl
      · exact hrows _ h
      · simpa using hrowlen
    · intro x hx e he
      have hx' : x < g.V := hx
      show e.1 < g.V
      have he' : e ∈ (g.adjList.set u (g.adj u ++ [(v, w)])).getD x [] := he
      rcases eq_or_ne x u with rfl | hne
      · rw [getD_set_self _ _ huL] at he'
        rcases List.mem_append.mp he' with h | h
        · exact htgt x hx' e h
        · have hev : e = (v, w) := List.mem_singleton.mp h
          rw [hev]
          exact hv
      · rw [getD_set_ne _ _ (fun h => hne (h.symm))] at he'
        exact htgt x hx' e he'
    · intro x hx y hy
      have hx' : x < g.V := hx
      have hy' : y < g.V := hy
      show (((g.adjMatrix.set u ((g.adjMatrix.getD u []).set v w)).getD x []).getD y 0) =
        (lastWeight (((g.adjList.set u (g.adj u ++ [(v, w)])).getD x [])) y).getD 0
      rcases eq_or_ne x u with rfl | hne
      · rw [getD_set_self _ _ huM, getD_set_self _ _ huL, lastWeight_append]
        rcases eq_or_ne v y with rfl | hvy
        · rw [getD_set_self _ _ (by omega), if_pos rfl]
          rfl
        · rw [getD_set_ne _ _ hvy, if_neg hvy]
          exact hinv x hx' y hy'
      · rw [getD_set_ne _ _ (fun h => hne h.symm), getD_set_ne _ _ (fun h => hne h.symm)]
        exact hinv x hx' y hy'

theorem removeEdge_preserves (g : Graph) (u v : Nat)
    (hwfs : g.WFS) (hinv : g.MatListInv) :
    (g.removeEdge u v).V = g.V ∧ (g.removeEdge u v).WFS ∧
      (g.removeEdge u v).MatListInv := by
  obtain ⟨hal, ham, hrows, htgt⟩ := hwfs
  unfold Graph.removeEdge
  by_cases hg : u ≥ g.V ∨ v ≥ g.V
  · rw [if_pos hg]; exact ⟨rfl, ⟨hal, ham, hrows, htgt⟩, hinv⟩
  · rw [if_neg hg]
    push_neg at hg
    obtain ⟨hu, hv⟩ := hg
    have huL : u < g.adjList.length := by omega
    have huM : u < g.adjMatrix.length := by omega
    have hrowlen : (g.adjMatrix.getD u []).length = g.V := getD_row_length ham hrows hu
    refine ⟨rfl, ⟨by simpa using hal, by simpa using ham, ?_, ?_⟩, ?_⟩
    · intro row hrow
      rcases List.mem_or_eq_of_mem_set hrow with h | rfl
      · exact hrows _ h
      · simpa using hrowlen
    · intro x hx e he
      have hx' : x < g.V := hx
      show e.1 < g.V
      have he' : e ∈ (g.adjList.set u ((g.adj u).filter (fun e => e.1 ≠ v))).getD x [] := he
      rcases eq_or_ne x u with rfl | hne
      · rw [getD_set_self _ _ huL] at he'
        exact htgt x hx' e (List.mem_of_mem_filter he')
      · rw [getD_set_ne _ _ (fun h => hne h.symm)] at he'
        exact htgt x hx' e he'
    · intro x hx y hy
      have hx' : x < g.V := hx
      have hy' : y < g.V := hy
      show (((g.adjMatrix.set u ((g.adjMatrix.getD u []).set v 0)).getD x []).getD y 0) =
        (lastWeight
          (((g.adjList.set u ((g.adj u).filter (fun e => e.1 ≠ v))).getD x [])) y).getD 0
      rcases eq_or_ne x u with rfl | hne
      · rw [getD_set_self _ _ huM, getD_set_self _ _ huL]
        rcases eq_or_ne v y with rfl | hvy
        · rw [getD_set_self _ _ (by omega), lastWeight_filter_self]
          rfl
        · rw [getD_set_ne _ _ hvy, lastWeight_filter_ne _ _ _ (fun h => hvy h.symm)]
          exact hinv x hx' y hy'
      · rw [getD_set_ne _ _ (fun h => hne h.symm), getD_set_ne _ _ (fun h => hne h.symm)]
        exact hinv x hx' y hy'

theorem zeroRow_preserves (g : Graph) (v : Nat)
    (hwfs : g.WFS) (hinv : g.MatListInv) :
    ({ g with
        adjList := g.adjList.set v [],
        adjMatrix := g.adjMatrix.set v (List.replicate (g.adjMatrix.getD v []).length 0) }
      : Graph).V = g.V ∧
    ({ g with
        adjList := g.adjList.set v [],
        adjMatrix := g.adjMatrix.set v (List.replicate (g.adjMatrix.getD v []).length 0) }
      : Graph).WFS ∧
    ({ g with
        adjList := g.adjList.set v [],
        adjMatrix := g.adjMatrix.set v (List.replicate (g.adjMatrix.getD v []).length 0) }
      : Graph).MatListInv := by
  obtain ⟨hal, ham, hrows, htgt⟩ := hwfs
  by_cases hv : v < g.V
  · have hvL : v < g.adjList.length := by omega
    refine ⟨rfl, ⟨by simpa using hal, by simpa using ham, ?_, ?_⟩, ?_⟩
    · intro row hrow
      rcases List.mem_or_eq_of_mem_set hrow with h | rfl
      · exact hrows _ h
      · rw [List.length_replicate]
        exact getD_row_length ham hrows hv
    · intro x hx e he
      have hx' : x < g.V := hx
      show e.1 < g.V
      have he' : e ∈ (g.adjList.set v []).getD x [] := he
      rcases eq_or_ne x v with rfl | hne
      · rw [getD_set_self _ _ hvL] at he'
        cases he'
      · rw [getD_set_ne _ _ (fun h => hne h.symm)] at he'
        exact htgt x hx' e he'
    · intro x hx y hy
      have hx' : x < g.V := hx
      have hy' : y < g.V := hy
      show ((g.adjMatrix.set v (List.replicate (g.adjMatrix.getD v []).length 0)).getD x
          []).getD y 0 = (lastWeight ((g.adjList.set v []).getD x []) y).getD 0
      rcases eq_or_ne x v with rfl | hne
      · rw [getD_set_self _ _ (by omega), getD_set_self _ _ hvL]
        rw [getD_replicate']
        split
        · rfl
        · rfl
      · rw [getD_set_ne _ _ (fun h => hne h.symm), getD_set_ne _ _ (fun h => hne h.symm)]
        exact hinv x hx' y hy'
  · have h1 : g.adjList.set v [] = g.adjList := List.set_eq_of_length_le (by omega)
    have h2 : g.adjMatrix.set v (List.replicate (g.adjMatrix.getD v []).length 0) =
        g.adjMatrix := List.set_eq_of_length_le (by omega)
    rw [h1, h2]
    exact ⟨rfl, ⟨hal, ham, hrows, htgt⟩, hinv⟩

theorem removeVertex_preserves (g : Graph) (v : Nat)
    (hwfs : g.WFS) (hinv : g.MatListInv) :
    (g.removeVertex v).V = g.V ∧ (g.removeVertex v).WFS ∧
      (g.removeVertex v).MatListInv := by
  unfold Graph.removeVertex
  by_cases hg : v ≥ g.V
  · rw [if_pos hg]; exact ⟨rfl, hwfs, hinv⟩
  · rw [if_neg hg]
    refine foldl_inv (fun h : Graph => h.V = g.V ∧ h.WFS ∧ h.MatListInv) _ _ _
      (zeroRow_preserves g v hwfs hinv) ?_
    rintro h i _ ⟨hV, hw, hi⟩
    obtain ⟨h1, h2, h3⟩ := removeEdge_preserves h i v hw hi
    exact ⟨h1.trans hV, h2, h3⟩

theorem clear_preserves (g : Graph) (hwfs : g.WFS) (hinv : g.MatListInv) :
    g.clear.V = g.V ∧ g.clear.WFS ∧ g.clear.MatListInv := by
  unfold Graph.clear
  refine foldl_inv (fun h : Graph => h.V = g.V ∧ h.WFS ∧ h.MatListInv) _ _ _
    ⟨rfl, hwfs, hinv⟩ ?_
  rintro h i _ ⟨hV, hw, hi⟩
  obtain ⟨h1, h2, h3⟩ := zeroRow_preserves h i hw hi
  exact ⟨h1.trans hV, h2, h3⟩

theorem makeUndirected_preserves (g : Graph) (hwfs : g.WFS) (hinv : g.MatListInv) :
    g.makeUndirected.V = g.V ∧ g.makeUndirected.WFS ∧ g.makeUndirected.MatListInv := by
  unfold Graph.makeUndirected
  refine foldl_inv (fun h : Graph => h.V = g.V ∧ h.WFS ∧ h.MatListInv) _ _ _
    ⟨rfl, hwfs, hinv⟩ ?_
  rintro h u _ ⟨hV, hw, hi⟩
  refine foldl_inv (fun h : Graph => h.V = g.V ∧ h.WFS ∧ h.MatListInv) _ _ _
    ⟨hV, hw, hi⟩ ?_
  rintro h' e _ ⟨hV', hw', hi'⟩
  by_cases hex : h'.edgeExists e.1 u
  · rw [if_pos hex]; exact ⟨hV', hw', hi'⟩
  · rw [if_neg hex]
    obtain ⟨h1, h2, h3⟩ := addEdge_preserves h' e.1 u e.2 hw' hi'
    exact ⟨h1.trans hV', h2, h3⟩

theorem mkGraph_WFS (V : Nat) : (Graph.mkGraph V).WFS := by
  refine ⟨by simp [Graph.mkGraph], by simp [Graph.mkGraph], ?_, ?_⟩
  · intro row hrow
    have hrow' : row ∈ List.replicate V (List.replicate V (0 : Int)) := hrow
    show row.length = V
    rw [List.eq_of_mem_replicate hrow']
    simp
  · intro u _ e he
    have : (Graph.mkGraph V).adj u = [] := by
      show (List.replicate V ([] : List (Nat × Int))).getD u [] = []
      rw [getD_replicate']
      split <;> rfl
    rw [this] at he
    cases he

theorem mkGraph_MatListInv (V : Nat) : (Graph.mkGraph V).MatListInv := by
  intro u _ v _
  have h1 : (Graph.mkGraph V).adj u = [] := by
    show (List.replicate V ([] : List (Nat × Int))).getD u [] = []
    rw [getD_replicate']
    split <;> rfl
  have h2 : (Graph.mkGraph V).mat u v = 0 := by
    show mget (List.replicate V (List.replicate V 0)) u v = 0
    rw [mget_replicate]
    split <;> rfl
  rw [h1, h2]
  rfl

/-- C2: in every state reachable from `Graph(V)` by any sequence of public
mutations, each adjacency-matrix cell `(u,v)` (for `u,v < V`) equals the
weight of the most recently inserted surviving list entry `u→v`, and 0 when
`u`'s list has no entry targeting `v`. -/
theorem C2_dual_representation (V : Nat) (ms : List Mutation) (u v : Nat)
    (hu : u < V) (hv : v < V) :
    (applyAll V ms).mat u v = (lastWeight ((applyAll V ms).adj u) v).getD 0 := by
  have h : (applyAll V ms).V = V ∧ (applyAll V ms).WFS ∧ (applyAll V ms).MatListInv := by
    unfold applyAll
    refine foldl_inv (fun g : Graph => g.V = V ∧ g.WFS ∧ g.MatListInv) _ _ _
      ⟨rfl, mkGraph_WFS V, mkGraph_MatListInv V⟩ ?_
    rintro g m _ ⟨hV, hwfs, hinv⟩
    rcases m with ⟨u', v', w'⟩ | ⟨u', v'⟩ | v' | _ | _
    · obtain ⟨h1, h2, h3⟩ := addEdge_preserves g u' v' w' hwfs hinv
      exact ⟨h1.trans hV, h2, h3⟩
    · obtain ⟨h1, h2, h3⟩ := removeEdge_preserves g u' v' hwfs hinv
      exact ⟨h1.trans hV, h2, h3⟩
    · obtain ⟨h1, h2, h3⟩ := removeVertex_preserves g v' hwfs hinv
      exact ⟨h1.trans hV, h2, h3⟩
    · obtain ⟨h1, h2, h3⟩ := clear_preserves g hwfs hinv
      exact ⟨h1.trans hV, h2, h3⟩
    · obtain ⟨h1, h2, h3⟩ := makeUndirected_preserves g hwfs hinv
      exact ⟨h1.trans hV, h2, h3⟩
  exact h.2.2 u (by rw [h.1]; exact hu) v (by rw [h.1]; exact hv)

/-- C2 witnessed on a concrete mutation sequence with parallel edges, a
removal and a symmetrisation. -/
theorem C2_witness :
    1 < 2 ∧ 0 < 2 ∧
    (applyAll 2 [Mutation.addE 0 1 5, Mutation.addE 0 1 7, Mutation.removeE 0 1,
      Mutation.addE 1 0 3, Mutation.makeUndir]).mat 1 0 =
      (lastWeight ((applyAll 2 [Mutation.addE 0 1 5, Mutation.addE 0 1 7,
        Mutation.removeE 0 1, Mutation.addE 1 0 3, Mutation.makeUndir]).adj 1) 0).getD 0 :=
  ⟨by decide, by decide,
    C2_dual_representation 2 [Mutation.addE 0 1 5, Mutation.addE 0 1 7,
      Mutation.removeE 0 1, Mutation.addE 1 0 3, Mutation.makeUndir] 1 0
      (by decide) (by decide)⟩

/-! ## C8: transpose round trip -/

theorem foldl_flatMap {α β γ : Type} (l : List α) (f : α → List β) (step : γ → β → γ) :
    ∀ init, (l.flatMap f).foldl step init
      = l.foldl (fun acc a => (f a).foldl step acc) init := by
  induction l with
  | nil => intro init; rfl
  | cons a t ih =>
    intro init
    rw [List.flatMap_cons, List.foldl_append, List.foldl_cons, ih]

theorem addEdge_V (g : Graph) (u v : Nat) (w : Int) : (g.addEdge u v w).V = g.V := by
  unfold Graph.addEdge
  split <;> rfl

theorem addEdge_adjList_length (g : Graph) (u v : Nat) (w : Int) :
    (g.addEdge u v w).adjList.length = g.adjList.length := by
  unfold Graph.addEdge
  split
  · rfl
  · simp

theorem addEdge_adj (g : Graph) (u v : Nat) (w : Int) (hu : u < g.V) (hv : v < g.V)
    (hlen : g.adjList.length = g.V) (x : Nat) :
    (g.addEdge u v w).adj x = if u = x then g.adj u ++ [(v, w)] else g.adj x := by
  unfold Graph.addEdge
  rw [if_neg (by omega)]
  show (g.adjList.set u (g.adj u ++ [(v, w)])).getD x [] = _
  rcases eq_or_ne u x with rfl | hne
  · rw [getD_set_self _ _ (by omega), if_pos rfl]
  · rw [getD_set_ne _ _ hne, if_neg hne]
    rfl

theorem mkGraph_adj (V u : Nat) : (Graph.mkGraph V).adj u = [] := by
  show (List.replicate V ([] : List (Nat × Int))).getD u [] = []
  rw [getD_replicate']
  split <;> rfl

theorem addEdges_V (t : Graph) (es : List (Nat × Nat × Int)) :
    (addEdges t es).V = t.V := by
  unfold addEdges
  refine foldl_inv (fun h : Graph => h.V = t.V) _ _ _ rfl ?_
  intro s e _ hP
  rw [addEdge_V, hP]

theorem addEdges_adjList_length (t : Graph) (es : List (Nat × Nat × Int)) :
    (addEdges t es).adjList.length = t.adjList.length := by
  unfold addEdges
  refine foldl_inv (fun h : Graph => h.adjList.length = t.adjList.length) _ _ _ rfl ?_
  intro s e _ hP
  rw [addEdge_adjList_length, hP]

theorem bucket_cons (e : Nat × Nat × Int) (es : List (Nat × Nat × Int)) (x : Nat) :
    bucket (e :: es) x =
      if e.1 = x then (e.2.1, e.2.2) :: bucket es x else bucket es x := by
  unfold bucket
  rcases eq_or_ne e.1 x with h | h
  · rw [if_pos h, List.filterMap_cons, if_pos h]
  · rw [if_neg h, List.filterMap_cons, if_neg h]

theorem addEdges_adj (es : List (Nat × Nat × Int)) :
    ∀ t : Graph, t.adjList.length = t.V →
    (∀ e ∈ es, e.1 < t.V ∧ e.2.1 < t.V) →
    ∀ x, (addEdges t es).adj x = t.adj x ++ bucket es x := by
  induction es with
  | nil => intro t _ _ x; simp [addEdges, bucket]
  | cons e es ih =>
    intro t hlen hvalid x
    show (addEdges (t.addEdge e.1 e.2.1 e.2.2) es).adj x = _
    have h1 := hvalid e (by simp)
    rw [ih (t.addEdge e.1 e.2.1 e.2.2)
      (by rw [addEdge_adjList_length, addEdge_V]; exact hlen)
      (by intro e' he'; rw [addEdge_V]; exact hvalid e' (by simp [he']))
      x]
    rw [addEdge_adj t e.1 e.2.1 e.2.2 h1.1 h1.2 hlen x, bucket_cons]
    rcases eq_or_ne e.1 x with h | h
    · rw [if_pos h, if_pos h, h]
      simp
    · rw [if_neg h, if_neg h]

theorem flatMap_congr {α β : Type} (l : List α) (f g : α → List β)
    (h : ∀ a ∈ l, f a = g a) : l.flatMap f = l.flatMap g := by
  induction l with
  | nil => rfl
  | cons a t ih =>
    rw [List.flatMap_cons, List.flatMap_cons, h a (by simp),
      ih (fun x hx => h x (by simp [hx]))]

theorem getTranspose_eq_addEdges (g : Graph) :
    g.getTranspose = addEdges (Graph.mkGraph g.V) ((g.edges).map swapT) := by
  unfold Graph.getTranspose addEdges Graph.edges
  rw [List.map_flatMap, foldl_flatMap]
  congr 1
  funext t u
  rw [List.map_map, List.foldl_map]
  rfl

theorem flatMap_bucket_perm (V : Nat) :
    ∀ es : List (Nat × Nat × Int), (∀ e ∈ es, e.1 < V) →
    ((List.range V).flatMap (fun x => (bucket es x).map (fun p => (x, p.1, p.2)))).Perm es := by
  intro es
  induction es with
  | nil => intro _; simp [bucket]
  | cons e es ih =>
    intro hvalid
    have he1 : e.1 ∈ List.range V := List.mem_range.mpr (hvalid e (by simp))
    obtain ⟨s, t, hst⟩ := List.append_of_mem he1
    have hnd : (s ++ e.1 :: t).Nodup := hst ▸ List.nodup_range V
    have hes : e.1 ∉ s := fun h => (List.disjoint_of_nodup_append hnd) h (by simp)
    have hS : s.flatMap (fun x => (bucket (e :: es) x).map (fun p => (x, p.1, p.2)))
        = s.flatMap (fun x => (bucket es x).map (fun p => (x, p.1, p.2))) := by
      refine flatMap_congr _ _ _ ?_
      intro x hx
      rw [bucket_cons, if_neg (fun h : e.1 = x => hes (h.symm ▸ hx))]
    have het : e.1 ∉ t := (List.nodup_cons.mp (List.Nodup.of_append_right hnd)).1
    have hT : t.flatMap (fun x => (bucket (e :: es) x).map (fun p => (x, p.1, p.2)))
        = t.flatMap (fun x => (bucket es x).map (fun p => (x, p.1, p.2))) := by
      refine flatMap_congr _ _ _ ?_
      intro x hx
      rw [bucket_cons, if_neg (fun h : e.1 = x => het (h.symm ▸ hx))]
    have ihp := ih (fun x hx => hvalid x (by simp [hx]))
    rw [hst, List.flatMap_append, List.flatMap_cons] at ihp ⊢
    rw [hS, hT, bucket_cons, if_pos rfl]
    exact List.Perm.trans
      (@List.perm_middle _ e
        (s.flatMap (fun x => (bucket es x).map (fun p => (x, p.1, p.2))))
        ((bucket es e.1).map (fun p => (e.1, p.1, p.2)) ++
          t.flatMap (fun x => (bucket es x).map (fun p => (x, p.1, p.2)))))
      (ihp.cons e)

theorem edges_addEdges (V : Nat) (es : List (Nat × Nat × Int))
    (hvalid : ∀ e ∈ es, e.1 < V ∧ e.2.1 < V) :
    (addEdges (Graph.mkGraph V) es).edges
      = (List.range V).flatMap (fun x => (bucket es x).map (fun p => (x, p.1, p.2))) := by
  unfold Graph.edges
  rw [show (addEdges (Graph.mkGraph V) es).V = V from (addEdges_V _ _).trans rfl]
  refine flatMap_congr _ _ _ ?_
  intro x _
  rw [addEdges_adj es (Graph.mkGraph V) (by simp [Graph.mkGraph]) hvalid x, mkGraph_adj]
  rfl

theorem mem_edges {g : Graph} {d : Nat × Nat × Int} (hd : d ∈ g.edges) :
    d.1 < g.V ∧ (d.2.1, d.2.2) ∈ g.adj d.1 := by
  unfold Graph.edges at hd
  rw [List.mem_flatMap] at hd
  obtain ⟨u, hu, hmem⟩ := hd
  rw [List.mem_map] at hmem
  obtain ⟨e, he, heq⟩ := hmem
  rw [← heq]
  exact ⟨List.mem_range.mp hu, he⟩

theorem swap_edges_valid (g : Graph)
    (htgt : ∀ u < g.V, ∀ e ∈ g.adj u, e.1 < g.V) :
    ∀ e ∈ (g.edges).map swapT, e.1 < g.V ∧ e.2.1 < g.V := by
  intro e he
  rw [List.mem_map] at he
  obtain ⟨d, hd, heq⟩ := he
  obtain ⟨h1, h2⟩ := mem_edges hd
  rw [← heq]
  exact ⟨htgt d.1 h1 _ h2, h1⟩

theorem edges_transpose_perm (g : Graph)
    (htgt : ∀ u < g.V, ∀ e ∈ g.adj u, e.1 < g.V) :
    (g.getTranspose.edges).Perm ((g.edges).map swapT) := by
  rw [getTranspose_eq_addEdges, edges_addEdges g.V _ (swap_edges_valid g htgt)]
  exact flatMap_bucket_perm g.V _ (fun e he => (swap_edges_valid g htgt e he).1)

theorem getTranspose_V (g : Graph) : g.getTranspose.V = g.V := by
  rw [getTranspose_eq_addEdges, addEdges_V]
  rfl

theorem getTranspose_targets (g : Graph)
    (htgt : ∀ u < g.V, ∀ e ∈ g.adj u, e.1 < g.V) :
    ∀ u < g.getTranspose.V, ∀ e ∈ g.getTranspose.adj u, e.1 < g.getTranspose.V := by
  intro u hu e he
  rw [getTranspose_V] at hu ⊢
  rw [getTranspose_eq_addEdges] at he
  rw [addEdges_adj (List.map swapT g.edges) (Graph.mkGraph g.V)
    (by simp [Graph.mkGraph]) (swap_edges_valid g htgt) u, mkGraph_adj] at he
  rw [List.nil_append] at he
  unfold bucket at he
  rw [List.mem_filterMap] at he
  obtain ⟨d, hd, heq⟩ := he
  by_cases h : d.1 = u
  · rw [if_pos h] at heq
    obtain rfl := Option.some.inj heq
    exact (swap_edges_valid g htgt d hd).2
  · rw [if_neg h] at heq
    cases heq

/-- C8: `getTranspose()` keeps the vertex count and reverses every edge
with its weight (its `(u,v,w)` triple multiset is the swap-image of the
original's), and the round trip `getTranspose().getTranspose()` has the same
vertex count `V` and the same multiset of `(u,v,w)` edge triples as the
original graph (multisets stated as list permutations of the concatenated
edge lists).  The in-range-target hypothesis holds of every API-built graph
and is necessary: `addEdge` inside `getTranspose` silently drops an edge
whose target is out of range, so such an edge would not survive the round
trip. -/
theorem C8_transpose_roundtrip (g : Graph)
    (htgt : ∀ u < g.V, ∀ e ∈ g.adj u, e.1 < g.V) :
    g.getTranspose.V = g.V ∧
    (g.getTranspose.edges).Perm ((g.edges).map swapT) ∧
    g.getTranspose.getTranspose.V = g.V ∧
    (g.getTranspose.getTranspose.edges).Perm g.edges := by
  refine ⟨getTranspose_V g, edges_transpose_perm g htgt,
    by rw [getTranspose_V, getTranspose_V], ?_⟩
  have h2 := edges_transpose_perm g.getTranspose (getTranspose_targets g htgt)
  have h1 := (edges_transpose_perm g htgt).map swapT
  refine h2.trans (h1.trans ?_)
  rw [List.map_map]
  have hid : ∀ e : Nat × Nat × Int, (swapT ∘ swapT) e = e := fun e => rfl
  rw [show (swapT ∘ swapT) = fun e : Nat × Nat × Int => e from funext hid]
  rw [List.map_id']

/-- C8 witnessed on the concrete scenario graph `g6`: the hypothesis is
discharged by computation and the conclusion is obtained by applying the
theorem. -/
theorem C8_witness :
    (∀ u < g6.V, ∀ e ∈ g6.adj u, e.1 < g6.V) ∧
    (g6.getTranspose.V = g6.V ∧
      (g6.getTranspose.edges).Perm ((g6.edges).map swapT) ∧
      g6.getTranspose.getTranspose.V = g6.V ∧
      (g6.getTranspose.getTranspose.edges).Perm g6.edges) :=
  ⟨by decide, C8_transpose_roundtrip g6 (by decide)⟩

/-! ## C10: a self-loop forces isBipartite() = false -/

theorem unc_le (g : Graph) (c : List Int) : unc g c ≤ g.V := by
  unfold unc
  have hcl : ∀ (p : Nat → Bool), (List.range g.V).countP p ≤ (List.range g.V).length :=
    fun p => List.countP_le_length p
  simpa using hcl (fun v => decide (c.getD v 0 = -1))

theorem unc_set (g : Graph) (c : List Int) (v : Nat) (x : Int)
    (hv : v < g.V) (hlen : c.length = g.V) (hcv : c.getD v 0 = -1) (hx : x ≠ -1) :
    unc g (c.set v x) + 1 = unc g c := by
  obtain ⟨s, t, hst⟩ := List.append_of_mem (List.mem_range.mpr hv)
  have hnd : (s ++ v :: t).Nodup := hst ▸ List.nodup_range g.V
  have hvs : v ∉ s := fun h => (List.disjoint_of_nodup_append hnd) h (by simp)
  have hvt : v ∉ t := (List.nodup_cons.mp (List.Nodup.of_append_right hnd)).1
  unfold unc
  rw [hst, List.countP_append, List.countP_append, List.countP_cons, List.countP_cons]
  have hs : s.countP (fun w => decide ((c.set v x).getD w 0 = -1))
      = s.countP (fun w => decide (c.getD w 0 = -1)) := by
    refine List.countP_congr (fun a ha => ?_)
    rw [getD_set_ne _ _ (fun h : v = a => hvs (h ▸ ha))]
  have ht : t.countP (fun w => decide ((c.set v x).getD w 0 = -1))
      = t.countP (fun w => decide (c.getD w 0 = -1)) := by
    refine List.countP_congr (fun a ha => ?_)
    rw [getD_set_ne _ _ (fun h : v = a => hvt (h ▸ ha))]
  have h1 : (decide ((c.set v x).getD v 0 = -1)) = false := by
    rw [getD_set_self _ _ (by omega)]
    simpa using hx
  have h2 : (decide (c.getD v 0 = -1)) = true := by simpa using hcv
  rw [hs, ht, h1, h2]
  have e1 : (if false = true then 1 else 0) = 0 := rfl
  have e2 : (if true = true then 1 else 0) = 1 := rfl
  rw [e1, e2]
  omega

theorem bipFold_none (u : Nat) (l : List (Nat × Int)) :
    l.foldl (bipEdgeStep u) none = none := by
  induction l with
  | nil => rfl
  | cons e t ih => exact ih

theorem bipFold_spec (g : Graph) (u : Nat) (hu : u < g.V)
    (htgt : ∀ x < g.V, ∀ e ∈ g.adj x, e.1 < g.V)
    (c : List Int) (q : List Nat)
    (hlen : c.length = g.V)
    (hrange : ∀ v, c.getD v 0 = -1 ∨ c.getD v 0 = 0 ∨ c.getD v 0 = 1)
    (hqok : ∀ v ∈ q, c.getD v 0 ≠ -1 ∧ v < g.V)
    (hcu : c.getD u 0 ≠ -1) :
    ((g.adj u).foldl (bipEdgeStep u) (some (c, q)) = none) ∨
    ∃ c' q', (g.adj u).foldl (bipEdgeStep u) (some (c, q)) = some (c', q') ∧
      c'.length = g.V ∧
      (∀ v, c'.getD v 0 = -1 ∨ c'.getD v 0 = 0 ∨ c'.getD v 0 = 1) ∧
      (∀ v ∈ q', c'.getD v 0 ≠ -1 ∧ v < g.V) ∧
      unc g c' + q'.length = unc g c + q.length ∧
      (∀ v, c.getD v 0 ≠ -1 → c'.getD v 0 = c.getD v 0) ∧
      (∀ v, c'.getD v 0 ≠ -1 → c.getD v 0 ≠ -1 ∨ v ∈ q') ∧
      (∀ v ∈ q, v ∈ q') := by
  refine foldl_inv (fun s : Option (List Int × List Nat) =>
    s = none ∨ ∃ c' q', s = some (c', q') ∧
      c'.length = g.V ∧
      (∀ v, c'.getD v 0 = -1 ∨ c'.getD v 0 = 0 ∨ c'.getD v 0 = 1) ∧
      (∀ v ∈ q', c'.getD v 0 ≠ -1 ∧ v < g.V) ∧
      unc g c' + q'.length = unc g c + q.length ∧
      (∀ v, c.getD v 0 ≠ -1 → c'.getD v 0 = c.getD v 0) ∧
      (∀ v, c'.getD v 0 ≠ -1 → c.getD v 0 ≠ -1 ∨ v ∈ q') ∧
      (∀ v ∈ q, v ∈ q')) _ _ _ ?_ ?_
  · exact Or.inr ⟨c, q, rfl, hlen, hrange, hqok, rfl, fun v _ => rfl,
      fun v hv => Or.inl hv, fun v hv => hv⟩
  · rintro s e he (rfl | ⟨c', q', rfl, hlen', hrange', hqok', hmeas, hstay, hnew, hsub⟩)
    · exact Or.inl rfl
    · have he1 : e.1 < g.V := htgt u hu e he
      have hc'u : c'.getD u 0 = c.getD u 0 := hstay u hcu
      have hc'une : c'.getD u 0 ≠ -1 := by rw [hc'u]; exact hcu
      have hstepeq : bipEdgeStep u (some (c', q')) e =
          if c'.getD e.1 0 = -1 then some (c'.set e.1 (1 - c'.getD u 0), q' ++ [e.1])
          else if c'.getD e.1 0 = c'.getD u 0 then none
          else some (c', q') := rfl
      rw [hstepeq]
      by_cases h1 : c'.getD e.1 0 = -1
      · rw [if_pos h1]
        have hval : (1 - c'.getD u 0) ≠ -1 := by
          rcases hrange' u with h | h | h
          · exact absurd h hc'une
          · rw [h]; decide
          · rw [h]; decide
        refine Or.inr ⟨c'.set e.1 (1 - c'.getD u 0), q' ++ [e.1], rfl, by simpa using hlen',
          ?_, ?_, ?_, ?_, ?_, ?_⟩
        · intro v
          rcases eq_or_ne e.1 v with rfl | hne
          · rw [getD_set_self _ _ (by omega)]
            rcases hrange' u with h | h | h
            · exact absurd h hc'une
            · rw [h]; right; right; decide
            · rw [h]; right; left; decide
          · rw [getD_set_ne _ _ hne]
            exact hrange' v
        · intro v hv
          rcases List.mem_append.mp hv with hv' | hv'
          · have hvne : e.1 ≠ v := by
              intro h
              exact (hqok' v hv').1 (h ▸ h1)
            rw [getD_set_ne _ _ hvne]
            exact hqok' v hv'
          · have : v = e.1 := by simpa using hv'
            subst this
            rw [getD_set_self _ _ (by omega)]
            exact ⟨hval, he1⟩
        · rw [List.length_append]
          have := unc_set g c' e.1 (1 - c'.getD u 0) he1 hlen' h1 hval
          simp only [List.length_cons, List.length_nil]
          omega
        · intro v hv
          have h2 := hstay v hv
          have hvne : e.1 ≠ v := by
            intro h
            rw [h] at h1
            rw [h2] at h1
            exact hv h1
          rw [getD_set_ne _ _ hvne]
          exact h2
        · intro v hv
          rcases eq_or_ne e.1 v with rfl | hne
          · exact Or.inr (by simp)
          · rw [getD_set_ne _ _ hne] at hv
            rcases hnew v hv with h | h
            · exact Or.inl h
            · exact Or.inr (by simp [h])
        · intro v hv
          exact List.mem_append.mpr (Or.inl (hsub v hv))
      · rw [if_neg h1]
        by_cases h2 : c'.getD e.1 0 = c'.getD u 0
        · rw [if_pos h2]
          exact Or.inl rfl
        · rw [if_neg h2]
          exact Or.inr ⟨c', q', rfl, hlen', hrange', hqok', hmeas, hstay, hnew, hsub⟩

theorem bipFold_selfLoop (u : Nat) (w : Int) :
    ∀ l : List (Nat × Int), (u, w) ∈ l →
    ∀ (c : List Int) (q : List Nat), c.getD u 0 ≠ -1 →
    l.foldl (bipEdgeStep u) (some (c, q)) = none := by
  intro l
  induction l with
  | nil => intro h; cases h
  | cons e t ih =>
    intro hmem c q hcu
    rw [List.foldl_cons]
    rcases List.mem_cons.mp hmem with heq | hmem'
    · have hstep : bipEdgeStep u (some (c, q)) e = none := by
        rw [← heq]
        have h : bipEdgeStep u (some (c, q)) (u, w) =
            if c.getD u 0 = -1 then some (c.set u (1 - c.getD u 0), q ++ [u])
            else if c.getD u 0 = c.getD u 0 then none
            else some (c, q) := rfl
        rw [h, if_neg hcu, if_pos rfl]
      rw [hstep]
      exact bipFold_none u t
    · have h : bipEdgeStep u (some (c, q)) e =
          if c.getD e.1 0 = -1 then some (c.set e.1 (1 - c.getD u 0), q ++ [e.1])
          else if c.getD e.1 0 = c.getD u 0 then none
          else some (c, q) := rfl
      rw [h]
      by_cases h1 : c.getD e.1 0 = -1
      · rw [if_pos h1]
        refine ih hmem' _ _ ?_
        have hne : e.1 ≠ u := by
          intro hx
          rw [hx] at h1
          exact hcu h1
        rw [getD_set_ne _ _ hne]
        exact hcu
      · rw [if_neg h1]
        by_cases h2 : c.getD e.1 0 = c.getD u 0
        · rw [if_pos h2]
          exact bipFold_none u t
        · rw [if_neg h2]
          exact ih hmem' c q hcu

theorem bipBFS_selfLoop_none (g : Graph) (u₀ : Nat) (w : Int)
    (hself : (u₀, w) ∈ g.adj u₀)
    (htgt : ∀ x < g.V, ∀ e ∈ g.adj x, e.1 < g.V) :
    ∀ (fuel : Nat) (c : List Int) (q : List Nat),
    c.length = g.V →
    (∀ v, c.getD v 0 = -1 ∨ c.getD v 0 = 0 ∨ c.getD v 0 = 1) →
    (∀ v ∈ q, c.getD v 0 ≠ -1 ∧ v < g.V) →
    u₀ ∈ q → c.getD u₀ 0 ≠ -1 →
    q.length + unc g c < fuel →
    bipBFS g fuel c q = none := by
  intro fuel
  induction fuel with
  | zero =>
    intro c q _ _ _ _ _ hlt
    exact absurd hlt (Nat.not_lt_zero _)
  | succ fuel ih =>
    intro c q hlen hrange hqok hmem hcu hlt
    rcases q with _ | ⟨u, q'⟩
    · cases hmem
    · have hbfs : bipBFS g (fuel + 1) c (u :: q') =
          match (g.adj u).foldl (bipEdgeStep u) (some (c, q')) with
          | none => none
          | some s' => bipBFS g fuel s'.1 s'.2 := rfl
      rw [hbfs]
      rcases eq_or_ne u u₀ with rfl | hne
      · rw [bipFold_selfLoop u w (g.adj u) hself c q' hcu]
      · have hqu := hqok u (by simp)
        rcases bipFold_spec g u hqu.2 htgt c q' hlen hrange
          (fun v hv => hqok v (by simp [hv])) hqu.1 with hnone |
          ⟨c', q'', heq, hlen', hrange', hqok', hmeas, hstay, hnew, hsub⟩
        · rw [hnone]
        · rw [heq]
          show bipBFS g fuel c' q'' = none
          have hmem' : u₀ ∈ q' := by
            rcases List.mem_cons.mp hmem with h | h
            · exact absurd h.symm hne
            · exact h
          refine ih c' q'' hlen' hrange' hqok' (hsub u₀ hmem') ?_ ?_
          · rw [hstay u₀ hcu]
            exact hcu
          · simp only [List.length_cons] at hlt
            omega

theorem bipBFS_selfLoop_some (g : Graph) (u₀ : Nat) (w : Int)
    (hself : (u₀, w) ∈ g.adj u₀)
    (htgt : ∀ x < g.V, ∀ e ∈ g.adj x, e.1 < g.V) :
    ∀ (fuel : Nat) (c : List Int) (q : List Nat),
    c.length = g.V →
    (∀ v, c.getD v 0 = -1 ∨ c.getD v 0 = 0 ∨ c.getD v 0 = 1) →
    (∀ v ∈ q, c.getD v 0 ≠ -1 ∧ v < g.V) →
    c.getD u₀ 0 = -1 →
    q.length + unc g c < fuel →
    ∀ c'', bipBFS g fuel c q = some c'' →
    c''.getD u₀ 0 = -1 ∧ c''.length = g.V ∧
      (∀ v, c''.getD v 0 = -1 ∨ c''.getD v 0 = 0 ∨ c''.getD v 0 = 1) := by
  intro fuel
  induction fuel with
  | zero =>
    intro c q _ _ _ _ hlt
    exact absurd hlt (Nat.not_lt_zero _)
  | succ fuel ih =>
    intro c q hlen hrange hqok hcu hlt c'' hres
    rcases q with _ | ⟨u, q'⟩
    · have : bipBFS g (fuel + 1) c [] = some c := rfl
      rw [this] at hres
      obtain rfl := Option.some.inj hres
      exact ⟨hcu, hlen, hrange⟩
    · have hbfs : bipBFS g (fuel + 1) c (u :: q') =
          match (g.adj u).foldl (bipEdgeStep u) (some (c, q')) with
          | none => none
          | some s' => bipBFS g fuel s'.1 s'.2 := rfl
      rw [hbfs] at hres
      have hqu := hqok u (by simp)
      rcases bipFold_spec g u hqu.2 htgt c q' hlen hrange
        (fun v hv => hqok v (by simp [hv])) hqu.1 with hnone |
        ⟨c', q'', heq, hlen', hrange', hqok', hmeas, hstay, hnew, hsub⟩
      · rw [hnone] at hres
        cases hres
      · rw [heq] at hres
        have hres' : bipBFS g fuel c' q'' = some c'' := hres
        have hmeas' : q''.length + unc g c' < fuel := by
          simp only [List.length_cons] at hlt
          omega
        by_cases hc'u : c'.getD u₀ 0 = -1
        · exact ih c' q'' hlen' hrange' hqok' hc'u hmeas' c'' hres'
        · rcases hnew u₀ hc'u with h | h
          · exact absurd hcu h
          · have := bipBFS_selfLoop_none g u₀ w hself htgt fuel c' q''
              hlen' hrange' hqok' h hc'u hmeas'
            rw [this] at hres'
            cases hres'

theorem bipOuter_none (g : Graph) (u₀ : Nat) (w : Int)
    (hu : u₀ < g.V) (hself : (u₀, w) ∈ g.adj u₀)
    (htgt : ∀ x < g.V, ∀ e ∈ g.adj x, e.1 < g.V) :
    ∀ (l : List Nat) (c : List Int), (∀ i ∈ l, i < g.V) →
    c.length = g.V →
    (∀ v, c.getD v 0 = -1 ∨ c.getD v 0 = 0 ∨ c.getD v 0 = 1) →
    u₀ ∈ l → c.getD u₀ 0 = -1 →
    l.foldl (bipSeed g) (some c) = none := by
  have hnone_prop : ∀ t : List Nat, t.foldl (bipSeed g) none = none := by
    intro t
    induction t with
    | nil => rfl
    | cons a t' iht => exact iht
  intro l
  induction l with
  | nil => intro c _ _ _ hmem _; cases hmem
  | cons i l' ih =>
    intro c hml hlen hrange hmem hcu
    rw [List.foldl_cons]
    have hiV : i < g.V := hml i (by simp)
    rcases eq_or_ne i u₀ with rfl | hne
    · have hstep : bipSeed g (some c) i = bipBFS g (g.V + 1) (c.set i 0) [i] := by
        show (if c.getD i 0 = -1 then bipBFS g (g.V + 1) (c.set i 0) [i] else some c) = _
        rw [if_pos hcu]
      rw [hstep]
      have hset : (c.set i 0).getD i 0 = 0 := getD_set_self _ _ (by omega)
      have hbfs := bipBFS_selfLoop_none g i w hself htgt (g.V + 1) (c.set i 0) [i]
        (by simpa using hlen)
        (fun v => by
          rcases eq_or_ne i v with rfl | hnv
          · rw [hset]; right; left; rfl
          · rw [getD_set_ne _ _ hnv]; exact hrange v)
        (fun v hv => by
          have : v = i := by simpa using hv
          subst this
          exact ⟨by rw [hset]; decide, hiV⟩)
        (by simp) (by rw [hset]; decide)
        (by
          have := unc_set g c i 0 hiV hlen hcu (by decide)
          have h2 := unc_le g c
          simp only [List.length_cons, List.length_nil]
          omega)
      rw [hbfs]
      exact hnone_prop l'
    · have hml' : ∀ x ∈ l', x < g.V := fun x hx => hml x (by simp [hx])
      have hmem' : u₀ ∈ l' := by
        rcases List.mem_cons.mp hmem with h | h
        · exact absurd h.symm hne
        · exact h
      by_cases hci : c.getD i 0 = -1
      · have hstep : bipSeed g (some c) i = bipBFS g (g.V + 1) (c.set i 0) [i] := by
          show (if c.getD i 0 = -1 then bipBFS g (g.V + 1) (c.set i 0) [i] else some c) = _
          rw [if_pos hci]
        rw [hstep]
        have hset : (c.set i 0).getD i 0 = 0 := getD_set_self _ _ (by omega)
        rcases hbfs : bipBFS g (g.V + 1) (c.set i 0) [i] with _ | c'
        · exact hnone_prop l'
        · have hsome := bipBFS_selfLoop_some g u₀ w hself htgt (g.V + 1) (c.set i 0) [i]
            (by simpa using hlen)
            (fun v => by
              rcases eq_or_ne i v with rfl | hnv
              · rw [hset]; right; left; rfl
              · rw [getD_set_ne _ _ hnv]; exact hrange v)
            (fun v hv => by
              have : v = i := by simpa using hv
              subst this
              exact ⟨by rw [hset]; decide, hiV⟩)
            (by rw [getD_set_ne _ _ hne]; exact hcu)
            (by
              have := unc_set g c i 0 hiV hlen hci (by decide)
              have h2 := unc_le g c
              simp only [List.length_cons, List.length_nil]
              omega)
            c' hbfs
          exact ih c' hml' hsome.2.1 hsome.2.2 hmem' hsome.1
      · have hstep : bipSeed g (some c) i = some c := by
          show (if c.getD i 0 = -1 then bipBFS g (g.V + 1) (c.set i 0) [i] else some c) = _
          rw [if_neg hci]
        rw [hstep]
        exact ih c hml' hlen hrange hmem' hcu

/-- C10: if the adjacency list has a self-loop entry `(u,u,w)` at some
vertex `u < V`, `isBipartite()` returns false: when `u` is dequeued, the
self-loop edge finds `color[u] == color[u]` (or an earlier conflict has
already returned false). -/
theorem C10_selfLoop_not_bipartite (g : Graph) (u₀ : Nat) (w : Int)
    (hu : u₀ < g.V) (hself : (u₀, w) ∈ g.adj u₀)
    (htgt : ∀ x < g.V, ∀ e ∈ g.adj x, e.1 < g.V) :
    isBipartite g = false := by
  unfold isBipartite
  rw [bipOuter_none g u₀ w hu hself htgt (List.range g.V) (List.replicate g.V (-1))
    (fun i hi => List.mem_range.mp hi)
    (by simp)
    (fun v => by
      rw [getD_replicate']
      split
      · left; rfl
      · right; left; rfl)
    (List.mem_range.mpr hu)
    (by rw [getD_replicate', if_pos hu])]
  rfl

/-- C10 witnessed on the concrete two-vertex graph `gSL` with a self-loop
at vertex 0. -/
theorem C10_witness :
    (0 < gSL.V ∧ ((0 : Nat), (1 : Int)) ∈ gSL.adj 0 ∧
      ∀ x < gSL.V, ∀ e ∈ gSL.adj x, e.1 < gSL.V) ∧
    isBipartite gSL = false :=
  ⟨⟨by decide, by decide, by decide⟩,
    C10_selfLoop_not_bipartite gSL 0 1 (by decide) (by decide) (by decide)⟩

/-! ## C4: topological sort (Kahn's algorithm) -/

theorem countP_split {α : Type} (l : List α) (p q r : α → Bool)
    (hpq : ∀ a, p a = true ↔ (q a = true ∨ r a = true))
    (hdisj : ∀ a, ¬(q a = true ∧ r a = true)) :
    l.countP p = l.countP q + l.countP r := by
  induction l with
  | nil => rfl
  | cons a t ih =>
    rw [List.countP_cons, List.countP_cons, List.countP_cons, ih]
    by_cases hq : q a = true
    · have hp : p a = true := (hpq a).mpr (Or.inl hq)
      have hr : ¬ r a = true := fun hr => hdisj a ⟨hq, hr⟩
      rw [if_pos hp, if_pos hq, if_neg hr]
      omega
    · by_cases hr : r a = true
      · have hp : p a = true := (hpq a).mpr (Or.inr hr)
        rw [if_pos hp, if_neg hq, if_pos hr]
        omega
      · have hp : ¬ p a = true := fun hp => by
          rcases (hpq a).mp hp with h | h
          · exact hq h
          · exact hr h
        rw [if_neg hp, if_neg hq, if_neg hr]
        omega

theorem countP_flatMap {α β : Type} (l : List α) (f : α → List β) (p : β → Bool) :
    (l.flatMap f).countP p = (l.map (fun a => (f a).countP p)).sum := by
  induction l with
  | nil => rfl
  | cons a t ih =>
    rw [List.flatMap_cons, List.countP_append, List.map_cons, List.sum_cons, ih]

theorem countP_eq_zero_of {α : Type} (l : List α) (p : α → Bool)
    (h : ∀ a ∈ l, ¬ p a = true) : l.countP p = 0 := by
  induction l with
  | nil => rfl
  | cons a t ih =>
    rw [List.countP_cons, if_neg (h a (by simp)), ih (fun x hx => h x (by simp [hx]))]

theorem edges_countP_source (g : Graph) (u v : Nat) (hu : u < g.V) :
    (g.edges).countP (fun t => t.2.1 = v ∧ t.1 = u) = ct (g.adj u) v := by
  unfold Graph.edges
  rw [countP_flatMap]
  obtain ⟨s, t, hst⟩ := List.append_of_mem (List.mem_range.mpr hu)
  have hnd : (s ++ u :: t).Nodup := hst ▸ List.nodup_range g.V
  have hus : u ∉ s := fun h => (List.disjoint_of_nodup_append hnd) h (by simp)
  have hut : u ∉ t := (List.nodup_cons.mp (List.Nodup.of_append_right hnd)).1
  rw [hst, List.map_append, List.map_cons, List.sum_append, List.sum_cons]
  have hzero : ∀ x : Nat, x ≠ u →
      ((g.adj x).map (fun e => (x, e.1, e.2))).countP (fun t => t.2.1 = v ∧ t.1 = u) = 0 := by
    intro x hx
    refine countP_eq_zero_of _ _ ?_
    intro a ha
    rw [List.mem_map] at ha
    obtain ⟨e, _, rfl⟩ := ha
    simp [hx]
  have hs0 : (s.map (fun x => ((g.adj x).map (fun e => (x, e.1, e.2))).countP
      (fun t => t.2.1 = v ∧ t.1 = u))).sum = 0 := by
    refine List.sum_eq_zero ?_
    intro x hx
    rw [List.mem_map] at hx
    obtain ⟨y, hy, rfl⟩ := hx
    exact hzero y (fun h => hus (h ▸ hy))
  have ht0 : (t.map (fun x => ((g.adj x).map (fun e => (x, e.1, e.2))).countP
      (fun t => t.2.1 = v ∧ t.1 = u))).sum = 0 := by
    refine List.sum_eq_zero ?_
    intro x hx
    rw [List.mem_map] at hx
    obtain ⟨y, hy, rfl⟩ := hx
    exact hzero y (fun h => hut (h ▸ hy))
  rw [hs0, ht0, List.countP_map]
  unfold ct
  have : ((fun t : Nat × Nat × Int => decide (t.2.1 = v ∧ t.1 = u)) ∘
      (fun e : Nat × Int => (u, e.1, e.2))) = fun e : Nat × Int => decide (e.1 = v) := by
    funext e
    simp
  rw [this]
  omega

theorem inCountFrom_append_single (g : Graph) (S : List Nat) (u v : Nat)
    (hu : u ∉ S) (huV : u < g.V) :
    inCountFrom g (S ++ [u]) v = inCountFrom g S v + ct (g.adj u) v := by
  unfold inCountFrom
  rw [← edges_countP_source g u v huV]
  refine countP_split _ _ _ _ ?_ ?_
  · intro a
    simp only [decide_eq_true_eq, List.mem_append, List.mem_singleton]
    tauto
  · intro a
    simp only [decide_eq_true_eq]
    rintro ⟨⟨_, h1⟩, _, h2⟩
    exact hu (h2 ▸ h1)

theorem inCountFrom_le (g : Graph) (S : List Nat) (v : Nat) :
    inCountFrom g S v ≤ inCount g v := by
  unfold inCountFrom inCount
  refine List.countP_mono_left ?_
  intro a _
  simp only [decide_eq_true_eq]
  tauto

theorem inCountFrom_nil (g : Graph) (v : Nat) : inCountFrom g [] v = 0 := by
  unfold inCountFrom
  refine countP_eq_zero_of _ _ ?_
  intro a _
  simp

theorem incFold_getD (l : List (Nat × Int)) :
    ∀ (d : List Int) (v : Nat), (∀ e ∈ l, e.1 < d.length) → v < d.length →
    (l.foldl (fun d' e => d'.set e.1 (d'.getD e.1 0 + 1)) d).getD v 0
      = d.getD v 0 + (ct l v : Int) := by
  induction l with
  | nil =>
    intro d v _ _
    show d.getD v 0 = d.getD v 0 + ((ct [] v : Nat) : Int)
    unfold ct
    simp
  | cons e t ih =>
    intro d v hl hv
    rw [List.foldl_cons]
    rw [ih (d.set e.1 (d.getD e.1 0 + 1)) v
      (by simpa using fun e' he' => hl e' (by simp [he'])) (by simpa using hv)]
    have hct : (ct (e :: t) v : Int) = (ct t v : Int) + if e.1 = v then 1 else 0 := by
      unfold ct
      rw [List.countP_cons]
      by_cases h : e.1 = v
      · rw [if_pos h, if_pos (by simpa using h)]
        push_cast
        ring
      · rw [if_neg h, if_neg (by simpa using h)]
        push_cast
        ring
    rcases eq_or_ne e.1 v with heq | hne
    · rw [heq, getD_set_self _ _ (by omega), hct, if_pos heq]
      omega
    · rw [getD_set_ne _ _ hne, hct, if_neg hne]
      omega

theorem incFold_length (l : List (Nat × Int)) (d : List Int) :
    (l.foldl (fun d' e => d'.set e.1 (d'.getD e.1 0 + 1)) d).length = d.length := by
  refine foldl_inv (fun x : List Int => x.length = d.length) _ _ _ rfl ?_
  intro s e _ hP
  simpa using hP

theorem inCount_eq_sum (g : Graph) (v : Nat) :
    inCount g v = ((List.range g.V).map (fun u => ct (g.adj u) v)).sum := by
  unfold inCount Graph.edges
  rw [countP_flatMap]
  congr 1
  refine List.map_congr_left ?_
  intro u _
  rw [List.countP_map]
  unfold ct
  congr 1

theorem inDeg0_spec (g : Graph) (htgt : ∀ u < g.V, ∀ e ∈ g.adj u, e.1 < g.V) :
    ((List.range g.V).foldl
      (fun d u => (g.adj u).foldl (fun d' e => d'.set e.1 (d'.getD e.1 0 + 1)) d)
      (List.replicate g.V (0 : Int))).length = g.V ∧
    ∀ v < g.V, ((List.range g.V).foldl
      (fun d u => (g.adj u).foldl (fun d' e => d'.set e.1 (d'.getD e.1 0 + 1)) d)
      (List.replicate g.V (0 : Int))).getD v 0 = (inCount g v : Int) := by
  have main : ∀ (L : List Nat) (d : List Int), d.length = g.V →
      (∀ u ∈ L, u < g.V) →
      (L.foldl (fun d u => (g.adj u).foldl
        (fun d' e => d'.set e.1 (d'.getD e.1 0 + 1)) d) d).length = g.V ∧
      ∀ v < g.V, (L.foldl (fun d u => (g.adj u).foldl
        (fun d' e => d'.set e.1 (d'.getD e.1 0 + 1)) d) d).getD v 0
        = d.getD v 0 + ((L.map (fun u => ct (g.adj u) v)).sum : Int) := by
    intro L
    induction L with
    | nil =>
      intro d hd _
      exact ⟨hd, fun v _ => by simp⟩
    | cons u L' ih =>
      intro d hd hL
      have huV : u < g.V := hL u (by simp)
      have hlen1 : ((g.adj u).foldl (fun d' e => d'.set e.1 (d'.getD e.1 0 + 1)) d).length
          = g.V := by rw [incFold_length]; exact hd
      obtain ⟨ihl, ihv⟩ := ih ((g.adj u).foldl (fun d' e => d'.set e.1 (d'.getD e.1 0 + 1)) d)
        hlen1 (fun x hx => hL x (by simp [hx]))
      refine ⟨ihl, ?_⟩
      intro v hv
      rw [List.foldl_cons] at *
      rw [ihv v hv, incFold_getD (g.adj u) d v
        (fun e he => by rw [hd]; exact htgt u huV e he) (by omega)]
      rw [List.map_cons, List.sum_cons]
      push_cast
      ring
  obtain ⟨h1, h2⟩ := main (List.range g.V) (List.replicate g.V 0) (by simp)
    (fun u hu => List.mem_range.mp hu)
  refine ⟨h1, ?_⟩
  intro v hv
  rw [h2 v hv, inCount_eq_sum, getD_replicate', if_pos hv]
  simp

theorem kahnFold_spec (V0 : Nat) :
    ∀ (l : List (Nat × Int)) (d : List Int) (q : List Nat),
    d.length = V0 → (∀ e ∈ l, e.1 < V0) →
    ∃ Δ, (l.foldl kahnStep (d, q)).2 = q ++ Δ ∧
      (l.foldl kahnStep (d, q)).1.length = V0 ∧
      (∀ v, v < V0 → (l.foldl kahnStep (d, q)).1.getD v 0 = d.getD v 0 - (ct l v : Int)) ∧
      Δ.Nodup ∧
      (∀ v ∈ Δ, v < V0 ∧ 0 < d.getD v 0 ∧ d.getD v 0 ≤ (ct l v : Int)) ∧
      (∀ v, v < V0 → (l.foldl kahnStep (d, q)).1.getD v 0 = 0 →
        d.getD v 0 = 0 ∨ v ∈ Δ) := by
  intro l
  induction l with
  | nil =>
    intro d q hd _
    refine ⟨[], by simp, hd, ?_, List.nodup_nil, by simp, ?_⟩
    · intro v _
      show d.getD v 0 = d.getD v 0 - ((ct [] v : Nat) : Int)
      unfold ct
      simp
    · intro v _ h
      exact Or.inl h
  | cons e t ih =>
    intro d q hd hl
    have heV : e.1 < V0 := hl e (by simp)
    have hstep : kahnStep (d, q) e =
        (d.set e.1 (d.getD e.1 0 - 1),
          if d.getD e.1 0 - 1 = 0 then q ++ [e.1] else q) := rfl
    have hlen1 : (d.set e.1 (d.getD e.1 0 - 1)).length = V0 := by simpa using hd
    have hd1v : ∀ v, v ≠ e.1 →
        (d.set e.1 (d.getD e.1 0 - 1)).getD v 0 = d.getD v 0 :=
      fun v hv => getD_set_ne _ _ (fun h => hv h.symm)
    have hd1e : (d.set e.1 (d.getD e.1 0 - 1)).getD e.1 0 = d.getD e.1 0 - 1 :=
      getD_set_self _ _ (by omega)
    have hct : ∀ v, (ct (e :: t) v : Int) = (ct t v : Int) + if e.1 = v then 1 else 0 := by
      intro v
      unfold ct
      rw [List.countP_cons]
      by_cases h : e.1 = v
      · rw [if_pos h, if_pos (by simpa using h)]; push_cast; ring
      · rw [if_neg h, if_neg (by simpa using h)]; push_cast; ring
    rw [List.foldl_cons, hstep]
    by_cases henq : d.getD e.1 0 - 1 = 0
    · rw [if_pos henq]
      obtain ⟨Δ₁, hq, hlen, hval, hnd, hprops, hz⟩ :=
        ih (d.set e.1 (d.getD e.1 0 - 1)) (q ++ [e.1]) hlen1
          (fun e' he' => hl e' (by simp [he']))
      have he1notΔ : e.1 ∉ Δ₁ := by
        intro hmem
        have := (hprops e.1 hmem).2.1
        rw [hd1e] at this
        omega
      refine ⟨e.1 :: Δ₁, ?_, hlen, ?_, List.nodup_cons.mpr ⟨he1notΔ, hnd⟩, ?_, ?_⟩
      · rw [hq, List.append_assoc]
        rfl
      · intro v hv
        rw [hval v hv, hct v]
        rcases eq_or_ne v e.1 with rfl | hne
        · rw [hd1e, if_pos rfl]
          omega
        · rw [hd1v v hne, if_neg (fun h => hne h.symm)]
          omega
      · intro v hv
        rcases List.mem_cons.mp hv with rfl | hv'
        · refine ⟨heV, by omega, ?_⟩
          rw [hct e.1, if_pos rfl]
          have : (0 : Int) ≤ (ct t e.1 : Int) := by positivity
          omega
        · obtain ⟨h1, h2, h3⟩ := hprops v hv'
          have hne : v ≠ e.1 := by
            intro h
            rw [h, hd1e] at h2
            omega
          rw [hd1v v hne] at h2 h3
          refine ⟨h1, h2, ?_⟩
          rw [hct v, if_neg (fun h => hne h.symm)]
          omega
      · intro v hv hzero
        rcases hz v hv hzero with h | h
        · rcases eq_or_ne v e.1 with rfl | hne
          · exact Or.inr (by simp)
          · rw [hd1v v hne] at h
            exact Or.inl h
        · exact Or.inr (by simp [h])
    · rw [if_neg henq]
      obtain ⟨Δ₁, hq, hlen, hval, hnd, hprops, hz⟩ :=
        ih (d.set e.1 (d.getD e.1 0 - 1)) q hlen1
          (fun e' he' => hl e' (by simp [he']))
      refine ⟨Δ₁, hq, hlen, ?_, hnd, ?_, ?_⟩
      · intro v hv
        rw [hval v hv, hct v]
        rcases eq_or_ne v e.1 with rfl | hne
        · rw [hd1e, if_pos rfl]
          omega
        · rw [hd1v v hne, if_neg (fun h => hne h.symm)]
          omega
      · intro v hv
        obtain ⟨h1, h2, h3⟩ := hprops v hv
        rcases eq_or_ne v e.1 with rfl | hne
        · rw [hd1e] at h2 h3
          refine ⟨h1, by omega, ?_⟩
          rw [hct e.1, if_pos rfl]
          omega
        · rw [hd1v v hne] at h2 h3
          refine ⟨h1, h2, ?_⟩
          rw [hct v, if_neg (fun h => hne h.symm)]
          omega
      · intro v hv hzero
        rcases hz v hv hzero with h | h
        · rcases eq_or_ne v e.1 with rfl | hne
          · rw [hd1e] at h
            exact absurd h henq
          · rw [hd1v v hne] at h
            exact Or.inl h
        · exact Or.inr h

theorem countP_eq_of_imp {α : Type} :
    ∀ (l : List α) (p q : α → Bool),
    (∀ a ∈ l, p a = true → q a = true) →
    l.countP p = l.countP q →
    ∀ a ∈ l, q a = true → p a = true := by
  intro l
  induction l with
  | nil => intro p q _ _ a ha; cases ha
  | cons x t ih =>
    intro p q himp hcount a ha hqa
    have hmono : t.countP p ≤ t.countP q :=
      List.countP_mono_left (fun b hb => himp b (by simp [hb]))
    rw [List.countP_cons, List.countP_cons] at hcount
    by_cases hpx : p x = true
    · have hqx : q x = true := himp x (by simp) hpx
      rw [if_pos hpx, if_pos hqx] at hcount
      have hcount' : t.countP p = t.countP q := by omega
      rcases List.mem_cons.mp ha with rfl | ha'
      · exact hpx
      · exact ih p q (fun b hb => himp b (by simp [hb])) hcount' a ha' hqa
    · by_cases hqx : q x = true
      · rw [if_neg hpx, if_pos hqx] at hcount
        omega
      · rw [if_neg hpx, if_neg hqx] at hcount
        have hcount' : t.countP p = t.countP q := by omega
        rcases List.mem_cons.mp ha with rfl | ha'
        · exact absurd hqa hqx
        · exact ih p q (fun b hb => himp b (by simp [hb])) hcount' a ha' hqa

theorem mem_edges_of (g : Graph) (a : Nat) (e : Nat × Int)
    (ha : a < g.V) (he : e ∈ g.adj a) : (a, e.1, e.2) ∈ g.edges := by
  unfold Graph.edges
  rw [List.mem_flatMap]
  exact ⟨a, List.mem_range.mpr ha, List.mem_map.mpr ⟨e, he, rfl⟩⟩

theorem before_append (l l' : List Nat) (a b : Nat) (h : Before l a b) :
    Before (l ++ l') a b := by
  obtain ⟨i, j, hij, hi, hj⟩ := h
  have hjlen : j < l.length := by
    by_contra hc
    rw [List.getElem?_eq_none (by omega)] at hj
    cases hj
  refine ⟨i, j, hij, ?_, ?_⟩
  · rw [List.getElem?_append, if_pos (by omega)]
    exact hi
  · rw [List.getElem?_append, if_pos hjlen]
    exact hj

theorem before_snoc (l : List Nat) (a u : Nat) (ha : a ∈ l) :
    Before (l ++ [u]) a u := by
  obtain ⟨i, hi⟩ := List.mem_iff_getElem?.mp ha
  have hilen : i < l.length := by
    by_contra hc
    rw [List.getElem?_eq_none (by omega)] at hi
    cases hi
  refine ⟨i, l.length, hilen, ?_, ?_⟩
  · rw [List.getElem?_append, if_pos hilen]
    exact hi
  · simp

theorem nodup_lt_length_le (V : Nat) (l : List Nat) (hnd : l.Nodup)
    (hlt : ∀ v ∈ l, v < V) : l.length ≤ V := by
  have h := (List.subperm_of_subset hnd
    (fun x hx => List.mem_range.mpr (hlt x hx))).length_le
  simpa using h

theorem kahnLoop_spec (g : Graph)
    (htgt : ∀ u < g.V, ∀ e ∈ g.adj u, e.1 < g.V) :
    ∀ (fuel : Nat) (q : List Nat) (inDeg : List Int) (topo : List Nat),
    inDeg.length = g.V →
    (topo ++ q).Nodup →
    (∀ v ∈ topo ++ q, v < g.V) →
    (∀ v ∈ topo ++ q, inDeg.getD v 0 ≤ 0) →
    (∀ v, v < g.V → inDeg.getD v 0 = 0 → v ∈ topo ++ q) →
    (∀ v, v < g.V → inDeg.getD v 0 = (inCount g v : Int) - (inCountFrom g topo v : Int)) →
    (∀ b ∈ q, ∀ a, a < g.V → ∀ e ∈ g.adj a, e.1 = b → a ∈ topo) →
    (∀ b ∈ topo, ∀ a, a < g.V → ∀ e ∈ g.adj a, e.1 = b →
      a ∈ topo ∧ Before topo a b) →
    g.V < fuel + topo.length →
    (kahnLoop g fuel q inDeg topo).Nodup ∧
    (∀ v ∈ kahnLoop g fuel q inDeg topo, v < g.V) ∧
    (∀ b ∈ kahnLoop g fuel q inDeg topo, ∀ a, a < g.V → ∀ e ∈ g.adj a, e.1 = b →
      a ∈ kahnLoop g fuel q inDeg topo ∧ Before (kahnLoop g fuel q inDeg topo) a b) ∧
    (∀ v, v < g.V → inCount g v = inCountFrom g (kahnLoop g fuel q inDeg topo) v →
      v ∈ kahnLoop g fuel q inDeg topo) ∧
    (∀ v ∈ topo, v ∈ kahnLoop g fuel q inDeg topo) := by
  intro fuel
  induction fuel with
  | zero =>
    intro q inDeg topo _ hnd hrange _ _ _ _ _ hfuel
    exfalso
    have h1 : topo.length ≤ g.V :=
      nodup_lt_length_le g.V topo (List.Nodup.of_append_left hnd)
        (fun v hv => hrange v (List.mem_append.mpr (Or.inl hv)))
    omega
  | succ fuel ih =>
    intro q inDeg topo hlen hnd hrange hN hZ hQ hR1 hR2 hfuel
    rcases q with _ | ⟨u, q'⟩
    · have hres : kahnLoop g (fuel + 1) [] inDeg topo = topo := rfl
      rw [hres]
      rw [List.append_nil] at hnd hrange hN hZ
      refine ⟨hnd, hrange, hR2, ?_, fun v hv => hv⟩
      intro v hv hcnt
      refine hZ v hv ?_
      rw [hQ v hv, hcnt]
      ring
    · have hres : kahnLoop g (fuel + 1) (u :: q') inDeg topo =
          kahnLoop g fuel ((g.adj u).foldl kahnStep (inDeg, q')).2
            ((g.adj u).foldl kahnStep (inDeg, q')).1 (topo ++ [u]) := rfl
      rw [hres]
      have huV : u < g.V := hrange u (by simp)
      have hutopo : u ∉ topo := by
        have hdisj := List.disjoint_of_nodup_append hnd
        intro hc
        exact hdisj hc (by simp)
      have huq' : u ∉ q' :=
        (List.nodup_cons.mp (List.Nodup.of_append_right hnd)).1
      obtain ⟨Δ, hq2, hlen1, hval, hndΔ, hprops, hz⟩ :=
        kahnFold_spec g.V (g.adj u) inDeg q' hlen (htgt u huV)
      rw [hq2]
      have hmemold : ∀ v, v ∈ topo ++ u :: q' → v ∈ (topo ++ [u]) ++ (q' ++ Δ) := by
        intro v hv
        simp only [List.mem_append, List.mem_cons, List.mem_singleton] at hv ⊢
        tauto
      -- the new in-degree row after the fold
      have hval' : ∀ v, v < g.V →
          ((g.adj u).foldl kahnStep (inDeg, q')).1.getD v 0
            = inDeg.getD v 0 - (ct (g.adj u) v : Int) := hval
      -- Δ members are fresh
      have hΔfresh : ∀ v ∈ Δ, v ∉ topo ++ u :: q' := by
        intro v hv hc
        have h1 := (hprops v hv).2.1
        have h2 := hN v hc
        omega
      -- the inCountFrom bookkeeping for topo ++ [u]
      have hQnew : ∀ v, v < g.V →
          ((g.adj u).foldl kahnStep (inDeg, q')).1.getD v 0
            = (inCount g v : Int) - (inCountFrom g (topo ++ [u]) v : Int) := by
        intro v hv
        rw [hval' v hv, hQ v hv, inCountFrom_append_single g topo u v hutopo huV]
        push_cast
        ring
      -- all in-edge sources of a Δ member lie in topo ++ [u]
      have hΔsources : ∀ v ∈ Δ, ∀ a, a < g.V → ∀ e ∈ g.adj a, e.1 = v →
          a ∈ topo ++ [u] := by
        intro v hv a ha e he hev
        obtain ⟨hvV, hpos, hbound⟩ := hprops v hv
        have hQv := hQ v hvV
        have hcnteq : inCount g v = inCountFrom g (topo ++ [u]) v := by
          have hle : inCountFrom g (topo ++ [u]) v ≤ inCount g v := inCountFrom_le g _ v
          have : (inCount g v : Int) ≤ (inCountFrom g (topo ++ [u]) v : Int) := by
            rw [inCountFrom_append_single g topo u v hutopo huV]
            push_cast
            omega
          omega
        have hmem : (a, e.1, e.2) ∈ g.edges := mem_edges_of g a e ha he
        have hext := countP_eq_of_imp (g.edges)
          (fun t => decide (t.2.1 = v ∧ t.1 ∈ topo ++ [u]))
          (fun t => decide (t.2.1 = v))
          (fun t _ ht => by
            simp only [decide_eq_true_eq] at ht ⊢
            exact ht.1)
          (by
            have h1 : inCountFrom g (topo ++ [u]) v = inCount g v := hcnteq.symm
            unfold inCountFrom inCount at h1
            exact h1)
          (a, e.1, e.2) hmem (by simp [hev])
        simp only [decide_eq_true_eq] at hext
        exact hext.2
      -- apply the induction hypothesis to the new state
      have hmain := ih (q' ++ Δ) ((g.adj u).foldl kahnStep (inDeg, q')).1 (topo ++ [u])
        hlen1 ?_ ?_ ?_ ?_ ?_ ?_ ?_ ?_
      · exact ⟨hmain.1, hmain.2.1, hmain.2.2.1, hmain.2.2.2.1,
          fun v hv => hmain.2.2.2.2 v (by simp [hv])⟩
      · -- nodup
        have hassoc : (topo ++ [u]) ++ (q' ++ Δ) = ((topo ++ [u]) ++ q') ++ Δ :=
          (List.append_assoc (topo ++ [u]) q' Δ).symm
        rw [hassoc]
        rw [List.nodup_append]
        refine ⟨?_, hndΔ, ?_⟩
        · have : (topo ++ [u]) ++ q' = topo ++ u :: q' := by
            rw [List.append_assoc]
            rfl
          rw [this]
          exact hnd
        · intro v hv hvΔ
          have hv' : v ∈ topo ++ u :: q' := by
            simp only [List.mem_append, List.mem_cons, List.mem_singleton] at hv ⊢
            tauto
          exact hΔfresh v hvΔ hv'
      · -- range
        intro v hv
        simp only [List.mem_append, List.mem_singleton] at hv
        rcases hv with (hv | hv) | (hv | hv)
        · exact hrange v (by simp [hv])
        · exact hv ▸ huV
        · exact hrange v (by simp [hv])
        · exact (hprops v hv).1
      · -- N
        intro v hv
        have hvV : v < g.V := by
          simp only [List.mem_append, List.mem_singleton] at hv
          rcases hv with (hv | hv) | (hv | hv)
          · exact hrange v (by simp [hv])
          · exact hv ▸ huV
          · exact hrange v (by simp [hv])
          · exact (hprops v hv).1
        rw [hval' v hvV]
        have hctnn : (0 : Int) ≤ (ct (g.adj u) v : Int) := by positivity
        simp only [List.mem_append, List.mem_singleton] at hv
        rcases hv with (hv | hv) | (hv | hv)
        · have := hN v (by simp [hv])
          omega
        · have := hN v (by simp [hv])
          omega
        · have := hN v (by simp [hv])
          omega
        · have := (hprops v hv).2.2
          have := (hprops v hv).2.1
          omega
      · -- Z
        intro v hv hzero
        rw [hval' v hv] at hzero
        rcases hz v hv (by rw [hval' v hv]; omega) with h | h
        · exact hmemold v (hZ v hv h)
        · simp only [List.mem_append]
          exact Or.inr (Or.inr h)
      · -- Q
        exact hQnew
      · -- R1
        intro b hb a ha e he hev
        rcases List.mem_append.mp hb with hb' | hb'
        · have := hR1 b (by simp [hb']) a ha e he hev
          exact List.mem_append.mpr (Or.inl this)
        · exact hΔsources b hb' a ha e he hev
      · -- R2
        intro b hb a ha e he hev
        rcases List.mem_append.mp hb with hb' | hb'
        · obtain ⟨h1, h2⟩ := hR2 b hb' a ha e he hev
          exact ⟨List.mem_append.mpr (Or.inl h1), before_append topo [u] a b h2⟩
        · have hbu : b = u := by simpa using hb'
          subst hbu
          have h1 := hR1 b (by simp) a ha e he hev
          exact ⟨List.mem_append.mpr (Or.inl h1), before_snoc topo a b h1⟩
      · -- fuel
        simp only [List.length_append, List.length_singleton]
        omega

theorem countP_ext {α : Type} :
    ∀ (l : List α) (p q : α → Bool), (∀ a ∈ l, p a = q a) →
    l.countP p = l.countP q := by
  intro l
  induction l with
  | nil => intro p q _; rfl
  | cons x t ih =>
    intro p q h
    rw [List.countP_cons, List.countP_cons, h x (by simp),
      ih p q (fun a ha => h a (by simp [ha]))]

theorem estep_source_lt (g : Graph) (hadjlen : g.adjList.length = g.V)
    {a b : Nat} (h : Estep g a b) : a < g.V := by
  by_contra hc
  push_neg at hc
  obtain ⟨w, hw⟩ := h
  have hadj : g.adj a = [] := by
    unfold Graph.adj
    exact List.getD_eq_default _ _ (by omega)
  rw [hadj] at hw
  exact absurd hw (List.not_mem_nil _)

theorem before_trans {l : List Nat} (hnd : l.Nodup) {a b c : Nat}
    (h1 : Before l a b) (h2 : Before l b c) : Before l a c := by
  obtain ⟨i, j, hij, ha, hb⟩ := h1
  obtain ⟨j', k, hjk, hb', hc⟩ := h2
  have hjlen : j < l.length := (List.getElem?_eq_some_iff.mp hb).1
  have hjj : j = j' := List.getElem?_inj hjlen hnd (hb.trans hb'.symm)
  exact ⟨i, k, by omega, ha, hc⟩

theorem before_irrefl {l : List Nat} (hnd : l.Nodup) (v : Nat) :
    ¬ Before l v v := by
  rintro ⟨i, j, hij, ha, hb⟩
  have hilen : i < l.length := (List.getElem?_eq_some_iff.mp ha).1
  have : i = j := List.getElem?_inj hilen hnd (ha.trans hb.symm)
  omega

theorem missing_has_bad_pred (g : Graph) (L : List Nat)
    (hcomp : ∀ v, v < g.V → inCount g v = inCountFrom g L v → v ∈ L)
    (v : Nat) (hv : v < g.V) (hvout : v ∉ L) :
    ∃ a, a < g.V ∧ a ∉ L ∧ Estep g a v := by
  classical
  have hne : inCount g v ≠ inCountFrom g L v := fun h => hvout (hcomp v hv h)
  by_contra hno
  push_neg at hno
  refine hne ?_
  unfold inCount inCountFrom
  refine countP_ext _ _ _ ?_
  intro t ht
  by_cases htv : t.2.1 = v
  · have hmem := mem_edges ht
    have hsrc : t.1 ∈ L := by
      by_contra hsrcL
      have hE : Estep g t.1 v := ⟨t.2.2, by rw [← htv]; exact hmem.2⟩
      exact (hno t.1 hmem.1 hsrcL) hE
    simp [htv, hsrc]
  · simp [htv]

theorem no_cycle_all_in (g : Graph) (L : List Nat)
    (hcomp : ∀ v, v < g.V → inCount g v = inCountFrom g L v → v ∈ L)
    (hnocyc : ¬ ∃ v, Relation.TransGen (Estep g) v v) :
    ∀ v, v < g.V → v ∈ L := by
  classical
  by_contra hc
  push_neg at hc
  obtain ⟨v₀, hv₀V, hv₀L⟩ := hc
  have step : ∀ x : {v : Nat // v < g.V ∧ v ∉ L},
      ∃ a : {v : Nat // v < g.V ∧ v ∉ L}, Estep g a.1 x.1 := by
    intro x
    obtain ⟨a, haV, haL, haE⟩ := missing_has_bad_pred g L hcomp x.1 x.2.1 x.2.2
    exact ⟨⟨a, haV, haL⟩, haE⟩
  let f : {v : Nat // v < g.V ∧ v ∉ L} → {v : Nat // v < g.V ∧ v ∉ L} :=
    fun x => Classical.choose (step x)
  have hf : ∀ x, Estep g (f x).1 x.1 := fun x => Classical.choose_spec (step x)
  let x₀ : {v : Nat // v < g.V ∧ v ∉ L} := ⟨v₀, hv₀V, hv₀L⟩
  have hchain : ∀ d n, 0 < d →
      Relation.TransGen (Estep g) (f^[n + d] x₀).1 (f^[n] x₀).1 := by
    intro d
    induction d with
    | zero => intro n h; omega
    | succ d ih =>
      intro n _
      rcases Nat.eq_zero_or_pos d with rfl | hd
      · have h1 : f^[n + 1] x₀ = f (f^[n] x₀) := Function.iterate_succ_apply' f n x₀
        rw [h1]
        exact Relation.TransGen.single (hf _)
      · have h1 : f^[n + d + 1] x₀ = f (f^[n + d] x₀) :=
          Function.iterate_succ_apply' f (n + d) x₀
        have h2 : n + (d + 1) = n + d + 1 := by omega
        rw [h2, h1]
        exact Relation.TransGen.head (hf _) (ih n hd)
  have hcard : Fintype.card (Fin g.V) < Fintype.card (Fin (g.V + 1)) := by
    simp
  obtain ⟨i, j, hij, heq⟩ := Fintype.exists_ne_map_eq_of_card_lt
    (fun i : Fin (g.V + 1) => (⟨(f^[i.1] x₀).1, (f^[i.1] x₀).2.1⟩ : Fin g.V)) hcard
  have hv : (f^[i.1] x₀).1 = (f^[j.1] x₀).1 := congrArg Fin.val heq
  have key : ∀ a b : Nat, a < b → (f^[a] x₀).1 = (f^[b] x₀).1 → False := by
    intro a b hab hval
    have hd : 0 < b - a := by omega
    have hc := hchain (b - a) a hd
    have hab' : a + (b - a) = b := by omega
    rw [hab', ← hval] at hc
    exact hnocyc ⟨_, hc⟩
  have hijv : i.1 ≠ j.1 := fun h => hij (Fin.ext h)
  rcases Nat.lt_or_ge i.1 j.1 with h | h
  · exact key i.1 j.1 h hv
  · have hji : j.1 < i.1 := by omega
    exact key j.1 i.1 hji hv.symm

theorem transgen_before (g : Graph) (L : List Nat)
    (hadjlen : g.adjList.length = g.V)
    (htgt : ∀ u < g.V, ∀ e ∈ g.adj u, e.1 < g.V)
    (hnd : L.Nodup)
    (hall : ∀ v, v < g.V → v ∈ L)
    (hR2 : ∀ b ∈ L, ∀ a, a < g.V → ∀ e ∈ g.adj a, e.1 = b → a ∈ L ∧ Before L a b)
    {x y : Nat} (h : Relation.TransGen (Estep g) x y) : Before L x y := by
  have hone : ∀ a b : Nat, Estep g a b → Before L a b := by
    intro a b hab
    have haV : a < g.V := estep_source_lt g hadjlen hab
    obtain ⟨w, hw⟩ := hab
    have hbV : b < g.V := htgt a haV (b, w) hw
    exact (hR2 b (hall b hbV) a haV (b, w) hw rfl).2
  induction h with
  | single hstep => exact hone _ _ hstep
  | tail _ hstep ih => exact before_trans hnd ih (hone _ _ hstep)

theorem kahn_initial_spec (g : Graph)
    (htgt : ∀ u < g.V, ∀ e ∈ g.adj u, e.1 < g.V)
    (D : List Int) (hlen : D.length = g.V)
    (hval : ∀ v, v < g.V → D.getD v 0 = (inCount g v : Int)) :
    (kahnLoop g (g.V + 1) ((List.range g.V).filter (fun i => D.getD i 0 = 0)) D []).Nodup ∧
    (∀ v ∈ kahnLoop g (g.V + 1) ((List.range g.V).filter (fun i => D.getD i 0 = 0)) D [],
      v < g.V) ∧
    (∀ b ∈ kahnLoop g (g.V + 1) ((List.range g.V).filter (fun i => D.getD i 0 = 0)) D [],
      ∀ a, a < g.V → ∀ e ∈ g.adj a, e.1 = b →
        a ∈ kahnLoop g (g.V + 1) ((List.range g.V).filter (fun i => D.getD i 0 = 0)) D [] ∧
        Before (kahnLoop g (g.V + 1) ((List.range g.V).filter (fun i => D.getD i 0 = 0)) D []) a b) ∧
    (∀ v, v < g.V →
      inCount g v
        = inCountFrom g (kahnLoop g (g.V + 1) ((List.range g.V).filter (fun i => D.getD i 0 = 0)) D []) v →
      v ∈ kahnLoop g (g.V + 1) ((List.range g.V).filter (fun i => D.getD i 0 = 0)) D []) := by
  have hmem0 : ∀ v ∈ (List.range g.V).filter (fun i => D.getD i 0 = 0),
      v < g.V ∧ D.getD v 0 = 0 := by
    intro v hv
    have h1 := List.mem_filter.mp hv
    refine ⟨List.mem_range.mp h1.1, ?_⟩
    have h2 := h1.2
    simpa using h2
  have hspec := kahnLoop_spec g htgt (g.V + 1)
    ((List.range g.V).filter (fun i => D.getD i 0 = 0)) D [] hlen
    (by
      simp only [List.nil_append]
      exact List.Nodup.filter _ (List.nodup_range g.V))
    (by
      simp only [List.nil_append]
      intro v hv
      exact (hmem0 v hv).1)
    (by
      simp only [List.nil_append]
      intro v hv
      rw [(hmem0 v hv).2])
    (by
      simp only [List.nil_append]
      intro v hv hz
      exact List.mem_filter.mpr ⟨List.mem_range.mpr hv, decide_eq_true hz⟩)
    (by
      intro v hv
      rw [hval v hv, inCountFrom_nil]
      push_cast
      ring)
    (by
      intro b hb a ha e he hev
      exfalso
      have hbV : b < g.V := (hmem0 b hb).1
      have hz : D.getD b 0 = 0 := (hmem0 b hb).2
      have hcnt : (inCount g b : Int) = 0 := by rw [← hval b hbV, hz]
      have hcnt' : inCount g b = 0 := by exact_mod_cast hcnt
      have hedge : (a, e.1, e.2) ∈ g.edges := mem_edges_of g a e ha he
      have hno := List.countP_eq_zero.mp hcnt' (a, e.1, e.2) hedge
      simp only [decide_eq_true_eq] at hno
      exact hno hev)
    (by
      intro b hb
      exact absurd hb (List.not_mem_nil b))
    (by
      simp only [List.length_nil]
      omega)
  exact ⟨hspec.1, hspec.2.1, hspec.2.2.1, hspec.2.2.2.1⟩

/-- C4: for every graph whose adjacency list has exactly `V` rows and whose
targets are in range, `topologicalSort()` returns a permutation of the
vertices `0..V-1` in which every edge's source precedes its target whenever
the graph has no directed cycle, and returns the empty sequence whenever the
graph contains a directed cycle. -/
theorem C4_topologicalSort (g : Graph)
    (hadjlen : g.adjList.length = g.V)
    (htgt : ∀ u < g.V, ∀ e ∈ g.adj u, e.1 < g.V) :
    (¬ (∃ v, Relation.TransGen (Estep g) v v) →
      (topologicalSort g).Perm (List.range g.V) ∧
      ∀ a, a < g.V → ∀ e ∈ g.adj a, Before (topologicalSort g) a e.1) ∧
    ((∃ v, Relation.TransGen (Estep g) v v) → topologicalSort g = []) := by
  classical
  set D := (List.range g.V).foldl
      (fun d u => (g.adj u).foldl (fun d' e => d'.set e.1 (d'.getD e.1 0 + 1)) d)
      (List.replicate g.V (0 : Int)) with hDdef
  set out := kahnLoop g (g.V + 1)
      ((List.range g.V).filter (fun i => D.getD i 0 = 0)) D [] with houtdef
  have htopo : topologicalSort g = if out.length = g.V then out else [] := rfl
  obtain ⟨hDlen, hDval⟩ := inDeg0_spec g htgt
  obtain ⟨hnd, hrange, hR2, hcomp⟩ := kahn_initial_spec g htgt D hDlen hDval
  rw [← houtdef] at hnd hrange hR2 hcomp
  constructor
  · intro hnocyc
    have hall : ∀ v, v < g.V → v ∈ out := no_cycle_all_in g out hcomp hnocyc
    have hlenout : out.length = g.V := by
      have h1 : out.length ≤ g.V := nodup_lt_length_le g.V out hnd hrange
      have h2 : g.V ≤ out.length := by
        have h3 := (List.subperm_of_subset (List.nodup_range g.V)
          (fun x hx => hall x (List.mem_range.mp hx))).length_le
        simpa using h3
      omega
    have htopo2 : topologicalSort g = out := by rw [htopo, if_pos hlenout]
    rw [htopo2]
    constructor
    · have hsub : out ⊆ List.range g.V := fun x hx => List.mem_range.mpr (hrange x hx)
      refine (List.subperm_of_subset hnd hsub).perm_of_length_le ?_
      simp only [List.length_range]
      omega
    · intro a ha e he
      have hbV : e.1 < g.V := htgt a ha e he
      have hb : e.1 ∈ out := hall e.1 hbV
      exact (hR2 e.1 hb a ha e he rfl).2
  · intro hcyc
    by_cases hlenout : out.length = g.V
    · exfalso
      have hall : ∀ v, v < g.V → v ∈ out := by
        intro v hv
        have hsub : out ⊆ List.range g.V := fun x hx => List.mem_range.mpr (hrange x hx)
        have hperm := (List.subperm_of_subset hnd hsub).perm_of_length_le
          (by simp only [List.length_range]; omega)
        exact hperm.mem_iff.mpr (List.mem_range.mpr hv)
      obtain ⟨v, hcycv⟩ := hcyc
      have hbef := transgen_before g out hadjlen htgt hnd hall hR2 hcycv
      exact before_irrefl hnd v hbef
    · rw [htopo, if_neg hlenout]

/-- Witness for C4: the 6-vertex scenario graph satisfies both hypotheses,
and the conclusion holds for it. -/
theorem C4_witness :
    g6.adjList.length = g6.V ∧
    (∀ u < g6.V, ∀ e ∈ g6.adj u, e.1 < g6.V) ∧
    ((¬ (∃ v, Relation.TransGen (Estep g6) v v) →
      (topologicalSort g6).Perm (List.range g6.V) ∧
      ∀ a, a < g6.V → ∀ e ∈ g6.adj a, Before (topologicalSort g6) a e.1) ∧
    ((∃ v, Relation.TransGen (Estep g6) v v) → topologicalSort g6 = [])) :=
  ⟨by decide, by decide, C4_topologicalSort g6 (by decide) (by decide)⟩

theorem wt_append (l1 l2 : List (Nat × Int)) : wt (l1 ++ l2) = wt l1 + wt l2 := by
  unfold wt
  rw [List.map_append, List.sum_append]

theorem isWalk_append {g : Graph} :
    ∀ (l1 : List (Nat × Int)) (s m t : Nat) (l2 : List (Nat × Int)),
    isWalk g s l1 m → isWalk g m l2 t → isWalk g s (l1 ++ l2) t := by
  intro l1
  induction l1 with
  | nil =>
    intro s m t l2 h1 h2
    have hsm : s = m := h1
    rw [List.nil_append, hsm]
    exact h2
  | cons e rest ih =>
    intro s m t l2 h1 h2
    have h1' : e ∈ g.adj s ∧ isWalk g e.1 rest m := h1
    exact ⟨h1'.1, ih e.1 m t l2 h1'.2 h2⟩

theorem isWalk_append_inv {g : Graph} :
    ∀ (l1 : List (Nat × Int)) (s t : Nat) (l2 : List (Nat × Int)),
    isWalk g s (l1 ++ l2) t → ∃ m, isWalk g s l1 m ∧ isWalk g m l2 t := by
  intro l1
  induction l1 with
  | nil =>
    intro s t l2 h
    exact ⟨s, rfl, h⟩
  | cons e rest ih =>
    intro s t l2 h
    have h' : e ∈ g.adj s ∧ isWalk g e.1 (rest ++ l2) t := h
    obtain ⟨m, hm1, hm2⟩ := ih e.1 t l2 h'.2
    exact ⟨m, ⟨h'.1, hm1⟩, hm2⟩

theorem mem_adj_lt (g : Graph) (hadjlen : g.adjList.length = g.V)
    {u : Nat} {e : Nat × Int} (he : e ∈ g.adj u) : u < g.V := by
  by_contra hc
  push_neg at hc
  have hadj : g.adj u = [] := by
    unfold Graph.adj
    exact List.getD_eq_default _ _ (by omega)
  rw [hadj] at he
  exact absurd he (List.not_mem_nil _)

theorem walk_edge_nonneg (g : Graph) (hadjlen : g.adjList.length = g.V)
    (hnn : ∀ u, u < g.V → ∀ e ∈ g.adj u, 0 ≤ e.2) :
    ∀ (l : List (Nat × Int)) (s t : Nat), isWalk g s l t → ∀ p ∈ l, 0 ≤ p.2 := by
  intro l
  induction l with
  | nil => intro s t _ p hp; cases hp
  | cons e rest ih =>
    intro s t h p hp
    have h' : e ∈ g.adj s ∧ isWalk g e.1 rest t := h
    rcases List.mem_cons.mp hp with rfl | hp'
    · exact hnn s (mem_adj_lt g hadjlen h'.1) p h'.1
    · exact ih e.1 t h'.2 p hp'

theorem wt_nonneg_of_all (l : List (Nat × Int)) (h : ∀ p ∈ l, 0 ≤ p.2) : 0 ≤ wt l := by
  unfold wt
  refine List.sum_nonneg ?_
  intro x hx
  obtain ⟨p, hp, rfl⟩ := List.mem_map.mp hx
  exact h p hp

theorem walk_split (g : Graph) :
    ∀ (l : List (Nat × Int)) (i s t : Nat), i ≤ l.length → isWalk g s l t →
    isWalk g s (l.take i) ((wvs s l).getD i 0) ∧
    isWalk g ((wvs s l).getD i 0) (l.drop i) t := by
  intro l
  induction l with
  | nil =>
    intro i s t hi h
    have hi0 : i = 0 := by simpa using hi
    subst hi0
    exact ⟨rfl, h⟩
  | cons e rest ih =>
    intro i s t hi h
    have h' : e ∈ g.adj s ∧ isWalk g e.1 rest t := h
    cases i with
    | zero => exact ⟨rfl, h⟩
    | succ i' =>
      have hi' : i' ≤ rest.length := by simpa using hi
      have hres := ih i' e.1 t hi' h'.2
      have hv : (wvs s (e :: rest)).getD (i' + 1) 0 = (wvs e.1 rest).getD i' 0 := by
        simp [wvs, List.getD_cons_succ]
      constructor
      · rw [hv]
        exact ⟨h'.1, hres.1⟩
      · rw [hv]
        exact hres.2

theorem wvs_lt (g : Graph) (hadjlen : g.adjList.length = g.V)
    (htgt : ∀ u, u < g.V → ∀ e ∈ g.adj u, e.1 < g.V) :
    ∀ (l : List (Nat × Int)) (s t : Nat), s < g.V → isWalk g s l t →
    ∀ v ∈ wvs s l, v < g.V := by
  intro l
  induction l with
  | nil =>
    intro s t hs _ v hv
    have hvs : v = s := by simpa [wvs] using hv
    rw [hvs]
    exact hs
  | cons e rest ih =>
    intro s t hs h v hv
    have h' : e ∈ g.adj s ∧ isWalk g e.1 rest t := h
    have he1 : e.1 < g.V := htgt s hs e h'.1
    have hsplit : v = s ∨ v ∈ wvs e.1 rest := by
      simp only [wvs, List.map_cons, List.mem_cons] at hv ⊢
      tauto
    rcases hsplit with rfl | hv'
    · exact hs
    · exact ih e.1 t he1 h'.2 v hv'

theorem not_nodup_split {α : Type} [DecidableEq α] :
    ∀ (l : List α), ¬ l.Nodup → ∃ a l1 l2 l3, l = l1 ++ a :: l2 ++ a :: l3 := by
  intro l
  induction l with
  | nil => intro h; exact absurd List.nodup_nil h
  | cons x t ih =>
    intro h
    by_cases hx : x ∈ t
    · obtain ⟨l2, l3, rfl⟩ := List.append_of_mem hx
      exact ⟨x, [], l2, l3, rfl⟩
    · have hnt : ¬ t.Nodup := by
        intro hnd
        exact h (List.nodup_cons.mpr ⟨hx, hnd⟩)
      obtain ⟨a, l1, l2, l3, hrest⟩ := ih hnt
      exact ⟨a, x :: l1, l2, l3, by rw [hrest]; rfl⟩

theorem getD_at_len (l1 : List Nat) (a : Nat) (l2 : List Nat) :
    (l1 ++ a :: l2).getD l1.length 0 = a := by
  induction l1 with
  | nil => rfl
  | cons x t ih => simpa [List.getD_cons_succ] using ih

theorem walk_shorten (g : Graph) (hadjlen : g.adjList.length = g.V)
    (htgt : ∀ u, u < g.V → ∀ e ∈ g.adj u, e.1 < g.V)
    (hnn : ∀ u, u < g.V → ∀ e ∈ g.adj u, 0 ≤ e.2)
    (s : Nat) (hs : s < g.V) :
    ∀ (n : Nat) (l : List (Nat × Int)) (t : Nat), l.length ≤ n → isWalk g s l t →
    ∃ l', isWalk g s l' t ∧ l'.length ≤ g.V - 1 ∧ wt l' ≤ wt l := by
  intro n
  induction n with
  | zero =>
    intro l t hl h
    have hnil : l = [] := List.length_eq_zero.mp (by omega)
    subst hnil
    exact ⟨[], h, by omega, le_refl _⟩
  | succ n ih =>
    intro l t hl h
    by_cases hshort : l.length ≤ g.V - 1
    · exact ⟨l, h, hshort, le_refl _⟩
    · push_neg at hshort
      have hvlt : ∀ v ∈ wvs s l, v < g.V := wvs_lt g hadjlen htgt l s t hs h
      have hwvslen : (wvs s l).length = l.length + 1 := by simp [wvs]
      have hnnd : ¬ (wvs s l).Nodup := by
        intro hnd
        have hle := nodup_lt_length_le g.V (wvs s l) hnd hvlt
        omega
      obtain ⟨a, p1, p2, p3, hsplit⟩ := not_nodup_split (wvs s l) hnnd
      have h1 : (p1 ++ a :: p2 ++ a :: p3).length = l.length + 1 := by
        rw [← hsplit, hwvslen]
      simp only [List.length_append, List.length_cons] at h1
      set i := p1.length with hidef
      set j := p1.length + p2.length + 1 with hjdef
      have hij : i < j := by omega
      have hjle : j ≤ l.length := by omega
      have hia : (wvs s l).getD i 0 = a := by
        rw [hsplit, hidef, List.append_assoc, List.cons_append]
        exact getD_at_len p1 a (p2 ++ a :: p3)
      have hlen2 : (p1 ++ a :: p2).length = j := by
        simp only [List.length_append, List.length_cons]
        omega
      have hja : (wvs s l).getD j 0 = a := by
        rw [hsplit, ← hlen2]
        exact getD_at_len (p1 ++ a :: p2) a p3
      obtain ⟨hw1, _⟩ := walk_split g l i s t (by omega) h
      obtain ⟨_, hw4⟩ := walk_split g l j s t hjle h
      rw [hia] at hw1
      rw [hja] at hw4
      have hnew : isWalk g s (l.take i ++ l.drop j) t :=
        isWalk_append (l.take i) s a t (l.drop j) hw1 hw4
      have hdrop : List.drop (j - i) (l.drop i) = l.drop j := by
        rw [List.drop_drop]
        congr 1
        omega
      have hw5 : wt (l.drop i) = wt (List.take (j - i) (l.drop i)) + wt (l.drop j) := by
        conv_lhs => rw [← List.take_append_drop (j - i) (l.drop i)]
        rw [wt_append, hdrop]
      have hw6 : wt l = wt (l.take i) + wt (l.drop i) := by
        conv_lhs => rw [← List.take_append_drop i l]
        rw [wt_append]
      have hmidnn : 0 ≤ wt (List.take (j - i) (l.drop i)) := by
        refine wt_nonneg_of_all _ ?_
        intro p hp
        exact walk_edge_nonneg g hadjlen hnn l s t h p
          (List.mem_of_mem_drop (List.mem_of_mem_take hp))
      have hwnew : wt (l.take i ++ l.drop j) ≤ wt l := by
        rw [wt_append, hw6, hw5]
        omega
      have hlnew : (l.take i ++ l.drop j).length ≤ n := by
        simp only [List.length_append, List.length_take, List.length_drop]
        omega
      obtain ⟨l', hl'1, hl'2, hl'3⟩ := ih (l.take i ++ l.drop j) t hlnew hnew
      exact ⟨l', hl'1, hl'2, le_trans hl'3 hwnew⟩

theorem bfRelax_length (u : Nat) (d : List Int) (e : Nat × Int) :
    (bfRelaxEdge u d e).length = d.length := by
  unfold bfRelaxEdge
  by_cases hg : d.getD u 0 ≠ INF ∧ d.getD u 0 + e.2 < d.getD e.1 0
  · rw [if_pos hg, List.length_set]
  · rw [if_neg hg]

theorem bfRelax_le (u : Nat) (d : List Int) (e : Nat × Int) (v : Nat) :
    (bfRelaxEdge u d e).getD v 0 ≤ d.getD v 0 := by
  by_cases hg : d.getD u 0 ≠ INF ∧ d.getD u 0 + e.2 < d.getD e.1 0
  · have hstep : bfRelaxEdge u d e = d.set e.1 (d.getD u 0 + e.2) := by
      unfold bfRelaxEdge
      rw [if_pos hg]
    rw [hstep]
    by_cases hv : e.1 = v
    · subst hv
      by_cases hlt : e.1 < d.length
      · rw [getD_set_self _ _ hlt]
        have h2 := hg.2
        omega
      · rw [List.set_eq_of_length_le (by omega)]
    · rw [getD_set_ne _ _ hv]
  · have hstep : bfRelaxEdge u d e = d := by
      unfold bfRelaxEdge
      rw [if_neg hg]
    rw [hstep]

theorem bfRelax_keep_u (u : Nat) (d : List Int) (e : Nat × Int) (he2 : 0 ≤ e.2) :
    (bfRelaxEdge u d e).getD u 0 = d.getD u 0 := by
  by_cases hveq : e.1 = u
  · have hstep : bfRelaxEdge u d e = d := by
      unfold bfRelaxEdge
      rw [if_neg]
      intro hg
      have h2 := hg.2
      rw [hveq] at h2
      omega
    rw [hstep]
  · by_cases hg : d.getD u 0 ≠ INF ∧ d.getD u 0 + e.2 < d.getD e.1 0
    · have hstep : bfRelaxEdge u d e = d.set e.1 (d.getD u 0 + e.2) := by
        unfold bfRelaxEdge
        rw [if_pos hg]
      rw [hstep, getD_set_ne _ _ hveq]
    · have hstep : bfRelaxEdge u d e = d := by
        unfold bfRelaxEdge
        rw [if_neg hg]
      rw [hstep]

theorem bfFoldA_le (u : Nat) :
    ∀ (L : List (Nat × Int)) (d : List Int) (v : Nat),
    (L.foldl (bfRelaxEdge u) d).getD v 0 ≤ d.getD v 0 := by
  intro L
  induction L with
  | nil => intro d v; exact le_refl _
  | cons e rest ih =>
    intro d v
    exact le_trans (ih (bfRelaxEdge u d e) v) (bfRelax_le u d e v)

theorem bfFoldA_length (u : Nat) (L : List (Nat × Int)) (d : List Int) :
    (L.foldl (bfRelaxEdge u) d).length = d.length := by
  refine foldl_inv (fun x : List Int => x.length = d.length) _ _ _ rfl ?_
  intro s e _ hP
  rw [bfRelax_length, hP]

theorem bfFoldA_keep_u (u : Nat) :
    ∀ (L : List (Nat × Int)), (∀ e ∈ L, 0 ≤ e.2) → ∀ (d : List Int),
    (L.foldl (bfRelaxEdge u) d).getD u 0 = d.getD u 0 := by
  intro L
  induction L with
  | nil => intro _ d; rfl
  | cons e rest ih =>
    intro hnn d
    rw [List.foldl_cons, ih (fun e' he' => hnn e' (by simp [he'])),
      bfRelax_keep_u u d e (hnn e (by simp))]

theorem bfFoldU_le (g : Graph) :
    ∀ (L : List Nat) (d : List Int) (v : Nat),
    (L.foldl (fun d' u => (g.adj u).foldl (bfRelaxEdge u) d') d).getD v 0 ≤ d.getD v 0 := by
  intro L
  induction L with
  | nil => intro d v; exact le_refl _
  | cons u rest ih =>
    intro d v
    exact le_trans (ih _ v) (bfFoldA_le u (g.adj u) d v)

theorem bfFoldU_length (g : Graph) (L : List Nat) (d : List Int) :
    (L.foldl (fun d' u => (g.adj u).foldl (bfRelaxEdge u) d') d).length = d.length := by
  refine foldl_inv (fun x : List Int => x.length = d.length) _ _ _ rfl ?_
  intro s u _ hP
  rw [bfFoldA_length, hP]

theorem bfPass_le (g : Graph) (d : List Int) (v : Nat) :
    (bfPass g d).getD v 0 ≤ d.getD v 0 := bfFoldU_le g _ d v

theorem bfPass_length (g : Graph) (d : List Int) :
    (bfPass g d).length = d.length := bfFoldU_length g _ d

theorem bfFoldA_edge_bound (u : Nat) (L : List (Nat × Int)) (e : Nat × Int)
    (heL : e ∈ L) (d : List Int) (he1 : e.1 < d.length) (hu : d.getD u 0 < INF) :
    (L.foldl (bfRelaxEdge u) d).getD e.1 0 ≤ d.getD u 0 + e.2 := by
  obtain ⟨L1, L2, hLeq⟩ := List.append_of_mem heL
  subst hLeq
  rw [List.foldl_append, List.foldl_cons]
  have hd1u : (L1.foldl (bfRelaxEdge u) d).getD u 0 ≤ d.getD u 0 := bfFoldA_le u L1 d u
  have hd1len : (L1.foldl (bfRelaxEdge u) d).length = d.length := bfFoldA_length u L1 d
  set d1 := L1.foldl (bfRelaxEdge u) d with hd1def
  have hstep : (bfRelaxEdge u d1 e).getD e.1 0 ≤ d1.getD u 0 + e.2 := by
    by_cases hg : d1.getD u 0 ≠ INF ∧ d1.getD u 0 + e.2 < d1.getD e.1 0
    · have hrw : bfRelaxEdge u d1 e = d1.set e.1 (d1.getD u 0 + e.2) := by
        unfold bfRelaxEdge
        rw [if_pos hg]
      rw [hrw, getD_set_self _ _ (by omega)]
    · rw [not_and_or] at hg
      rcases hg with hg | hg
      · exfalso
        push_neg at hg
        omega
      · push_neg at hg
        have hrw : bfRelaxEdge u d1 e = d1 := by
          unfold bfRelaxEdge
          rw [if_neg]
          intro hc
          exact absurd hc.2 (not_lt.mpr hg)
        rw [hrw]
        exact hg
  have hrest := bfFoldA_le u L2 (bfRelaxEdge u d1 e) e.1
  omega

theorem bfPass_edge_bound (g : Graph) (d : List Int) (hdlen : d.length = g.V)
    (u : Nat) (hu : u < g.V) (e : Nat × Int) (he : e ∈ g.adj u) (he1 : e.1 < g.V)
    (huINF : d.getD u 0 < INF) :
    (bfPass g d).getD e.1 0 ≤ d.getD u 0 + e.2 := by
  unfold bfPass
  obtain ⟨R1, R2, hReq⟩ := List.append_of_mem (List.mem_range.mpr hu)
  rw [hReq, List.foldl_append, List.foldl_cons]
  have hd1u : (R1.foldl (fun d' u' => (g.adj u').foldl (bfRelaxEdge u') d') d).getD u 0
      ≤ d.getD u 0 := bfFoldU_le g R1 d u
  have hd1len : (R1.foldl (fun d' u' => (g.adj u').foldl (bfRelaxEdge u') d') d).length
      = d.length := bfFoldU_length g R1 d
  set d1 := R1.foldl (fun d' u' => (g.adj u').foldl (bfRelaxEdge u') d') d with hd1def
  have hinner : ((g.adj u).foldl (bfRelaxEdge u) d1).getD e.1 0 ≤ d1.getD u 0 + e.2 :=
    bfFoldA_edge_bound u (g.adj u) e he d1 (by omega) (by omega)
  have houter := bfFoldU_le g R2 ((g.adj u).foldl (bfRelaxEdge u) d1) e.1
  omega

theorem bfRelax_sound (g : Graph) (s u : Nat) (hu : u < g.V) (e : Nat × Int)
    (he : e ∈ g.adj u) (d : List Int)
    (hsound : ∀ v, v < g.V → d.getD v 0 = INF ∨ ∃ l, isWalk g s l v ∧ wt l = d.getD v 0) :
    ∀ v, v < g.V → (bfRelaxEdge u d e).getD v 0 = INF ∨
      ∃ l, isWalk g s l v ∧ wt l = (bfRelaxEdge u d e).getD v 0 := by
  intro v hv
  by_cases hg : d.getD u 0 ≠ INF ∧ d.getD u 0 + e.2 < d.getD e.1 0
  · have hrw : bfRelaxEdge u d e = d.set e.1 (d.getD u 0 + e.2) := by
      unfold bfRelaxEdge
      rw [if_pos hg]
    rw [hrw]
    by_cases hveq : e.1 = v
    · subst hveq
      by_cases hlt : e.1 < d.length
      · rw [getD_set_self _ _ hlt]
        right
        rcases hsound u hu with hinf | ⟨l, hl, hwl⟩
        · exact absurd hinf hg.1
        · refine ⟨l ++ [(e.1, e.2)], ?_, ?_⟩
          · refine isWalk_append l s u e.1 [(e.1, e.2)] hl ?_
            exact ⟨he, rfl⟩
          · rw [wt_append, hwl]
            simp [wt]
      · rw [List.set_eq_of_length_le (by omega)]
        exact hsound e.1 hv
    · rw [getD_set_ne _ _ hveq]
      exact hsound v hv
  · have hrw : bfRelaxEdge u d e = d := by
      unfold bfRelaxEdge
      rw [if_neg hg]
    rw [hrw]
    exact hsound v hv

theorem bfPass_sound (g : Graph) (s : Nat) (d : List Int)
    (hsound : ∀ v, v < g.V → d.getD v 0 = INF ∨ ∃ l, isWalk g s l v ∧ wt l = d.getD v 0) :
    ∀ v, v < g.V → (bfPass g d).getD v 0 = INF ∨
      ∃ l, isWalk g s l v ∧ wt l = (bfPass g d).getD v 0 := by
  unfold bfPass
  refine foldl_inv (fun x : List Int =>
    ∀ v, v < g.V → x.getD v 0 = INF ∨ ∃ l, isWalk g s l v ∧ wt l = x.getD v 0)
    _ _ _ hsound ?_
  intro dcur u hu hP
  refine foldl_inv (fun x : List Int =>
    ∀ v, v < g.V → x.getD v 0 = INF ∨ ∃ l, isWalk g s l v ∧ wt l = x.getD v 0)
    _ _ _ hP ?_
  intro dcur2 e he hP2
  exact bfRelax_sound g s u (List.mem_range.mp hu) e he dcur2 hP2

theorem foldl_const_iterate {α : Type} (f : α → α) :
    ∀ (n : Nat) (d : α), (List.range n).foldl (fun x _ => f x) d = f^[n] d := by
  intro n
  induction n with
  | zero => intro d; rfl
  | succ n ih =>
    intro d
    rw [List.range_succ, List.foldl_append, ih, List.foldl_cons, List.foldl_nil,
      Function.iterate_succ_apply']

theorem bellmanFord_dist (g : Graph) (start : Nat) :
    (bellmanFord g start).1
      = (bfPass g)^[g.V - 1] ((List.replicate g.V INF).set start 0) := by
  have h1 : (bellmanFord g start).1
      = (List.range (g.V - 1)).foldl (fun x _ => bfPass g x)
        ((List.replicate g.V INF).set start 0) := rfl
  rw [h1, foldl_const_iterate]

theorem bfIter_le_start (g : Graph) (d : List Int) (v : Nat) :
    ∀ k, ((bfPass g)^[k] d).getD v 0 ≤ d.getD v 0 := by
  intro k
  induction k with
  | zero => exact le_refl _
  | succ k ih =>
    rw [Function.iterate_succ_apply']
    exact le_trans (bfPass_le g _ v) ih

theorem bfIter_length (g : Graph) (d : List Int) :
    ∀ k, ((bfPass g)^[k] d).length = d.length := by
  intro k
  induction k with
  | zero => rfl
  | succ k ih =>
    rw [Function.iterate_succ_apply', bfPass_length, ih]

theorem bfIter_sound (g : Graph) (s : Nat) (d : List Int)
    (hsound : ∀ v, v < g.V → d.getD v 0 = INF ∨ ∃ l, isWalk g s l v ∧ wt l = d.getD v 0) :
    ∀ k, ∀ v, v < g.V → ((bfPass g)^[k] d).getD v 0 = INF ∨
      ∃ l, isWalk g s l v ∧ wt l = ((bfPass g)^[k] d).getD v 0 := by
  intro k
  induction k with
  | zero => exact hsound
  | succ k ih =>
    intro v hv
    rw [Function.iterate_succ_apply']
    exact bfPass_sound g s _ ih v hv

theorem dist0_getD_start (V s : Nat) (hs : s < V) :
    ((List.replicate V INF).set s 0).getD s 0 = 0 :=
  getD_set_self _ _ (by simpa using hs)

theorem dist0_getD_le (V s v : Nat) :
    ((List.replicate V INF).set s 0).getD v 0 ≤ INF := by
  by_cases hveq : s = v
  · subst hveq
    by_cases hs : s < V
    · rw [dist0_getD_start V s hs]
      unfold INF
      omega
    · rw [List.set_eq_of_length_le (by simpa using not_lt.mp hs)]
      by_cases hv' : s < V
      · omega
      · rw [List.getD_eq_default _ _ (by simpa using not_lt.mp hs)]
        unfold INF
        omega
  · rw [getD_set_ne _ _ hveq]
    by_cases hv : v < V
    · rw [List.getD_eq_getElem _ _ (by simpa using hv), List.getElem_replicate]
    · rw [List.getD_eq_default _ _ (by simpa using not_lt.mp hv)]
      unfold INF
      omega

theorem dist0_sound (g : Graph) (s : Nat) (hs : s < g.V) :
    ∀ v, v < g.V → ((List.replicate g.V INF).set s 0).getD v 0 = INF ∨
      ∃ l, isWalk g s l v ∧ wt l = ((List.replicate g.V INF).set s 0).getD v 0 := by
  intro v hv
  by_cases hveq : s = v
  · subst hveq
    right
    exact ⟨[], rfl, by rw [dist0_getD_start g.V s hs]; rfl⟩
  · left
    rw [getD_set_ne _ _ hveq, List.getD_eq_getElem _ _ (by simpa using hv),
      List.getElem_replicate]

theorem bf_complete (g : Graph) (hadjlen : g.adjList.length = g.V)
    (htgt : ∀ u, u < g.V → ∀ e ∈ g.adj u, e.1 < g.V)
    (hnn : ∀ u, u < g.V → ∀ e ∈ g.adj u, 0 ≤ e.2)
    (start : Nat) (hstart : start < g.V) :
    ∀ (k : Nat) (l : List (Nat × Int)) (t : Nat), isWalk g start l t → l.length ≤ k →
    wt l < INF →
    ((bfPass g)^[k] ((List.replicate g.V INF).set start 0)).getD t 0 ≤ wt l := by
  intro k
  induction k with
  | zero =>
    intro l t h hl hw
    have hnil : l = [] := List.length_eq_zero.mp (by omega)
    subst hnil
    have hst : start = t := h
    subst hst
    rw [Function.iterate_zero_apply, dist0_getD_start g.V start hstart]
    exact le_refl _
  | succ k ih =>
    intro l t h hl hw
    rw [Function.iterate_succ_apply']
    by_cases hshort : l.length ≤ k
    · exact le_trans (bfPass_le g _ t) (ih l t h hshort hw)
    · rcases List.eq_nil_or_concat l with rfl | ⟨l', e, hconc⟩
      · simp at hshort
      · rw [List.concat_eq_append] at hconc
        subst hconc
        obtain ⟨m, hm1, hm2⟩ := isWalk_append_inv l' start t [e] h
        have hm2' : e ∈ g.adj m ∧ isWalk g e.1 [] t := hm2
        have het : e.1 = t := hm2'.2
        have hmV : m < g.V := mem_adj_lt g hadjlen hm2'.1
        have he2 : 0 ≤ e.2 := hnn m hmV e hm2'.1
        have hwl : wt (l' ++ [e]) = wt l' + e.2 := by
          rw [wt_append]
          simp [wt]
        have hwl' : wt l' < INF := by omega
        have hihm := ih l' m hm1 (by simp at hl ⊢; omega) hwl'
        have hklen : ((bfPass g)^[k] ((List.replicate g.V INF).set start 0)).length = g.V := by
          rw [bfIter_length]
          simp
        have hmINF : ((bfPass g)^[k] ((List.replicate g.V INF).set start 0)).getD m 0 < INF := by
          omega
        have hbound := bfPass_edge_bound g _ hklen m hmV e hm2'.1
          (htgt m hmV e hm2'.1) hmINF
        rw [het] at hbound
        omega

theorem dijkstraRelax_fst (u : Nat) (st : List Int × List (Int × Nat)) (e : Nat × Int) :
    (Graph.dijkstraRelax u st e).1 = bfRelaxEdge u st.1 e := by
  unfold Graph.dijkstraRelax bfRelaxEdge
  by_cases hg : st.1.getD u 0 ≠ INF ∧ st.1.getD u 0 + e.2 < st.1.getD e.1 0
  · rw [if_pos hg, if_pos hg]
  · rw [if_neg hg, if_neg hg]

theorem dijkstraFold_fst (u : Nat) :
    ∀ (L : List (Nat × Int)) (st : List Int × List (Int × Nat)),
    (L.foldl (Graph.dijkstraRelax u) st).1 = L.foldl (bfRelaxEdge u) st.1 := by
  intro L
  induction L with
  | nil => intro st; rfl
  | cons e rest ih =>
    intro st
    rw [List.foldl_cons, List.foldl_cons, ih, dijkstraRelax_fst]

theorem sum_toNat_set :
    ∀ (d : List Int) (i : Nat), i < d.length → ∀ (x : Int),
    ((d.set i x).map Int.toNat).sum + (d.getD i 0).toNat
      = (d.map Int.toNat).sum + x.toNat := by
  intro d
  induction d with
  | nil => intro i h; simp at h
  | cons a rest ih =>
    intro i h x
    cases i with
    | zero =>
      simp only [List.set_cons_zero, List.map_cons, List.sum_cons, List.getD_cons_zero]
      omega
    | succ i' =>
      simp only [List.set_cons_succ, List.map_cons, List.sum_cons, List.getD_cons_succ]
      have hih := ih i' (by simpa using h) x
      omega

theorem findMin_mem : ∀ (pq : List (Int × Nat)) (m : Int × Nat),
    Graph.findMin pq = some m → m ∈ pq := by
  intro pq
  induction pq with
  | nil => intro m h; cases h
  | cons x xs ih =>
    intro m h
    have hstep : Graph.findMin (x :: xs) = match Graph.findMin xs with
      | none => some x
      | some m' => if Graph.pairLe x m' then some x else some m' := rfl
    rw [hstep] at h
    cases hfm : Graph.findMin xs with
    | none =>
      rw [hfm] at h
      have hx := Option.some.inj h
      rw [← hx]
      exact List.mem_cons_self x xs
    | some m' =>
      rw [hfm] at h
      have h2 : (if Graph.pairLe x m' then some x else some m') = some m := h
      by_cases hle : Graph.pairLe x m'
      · rw [if_pos hle] at h2
        have hx := Option.some.inj h2
        rw [← hx]
        exact List.mem_cons_self x xs
      · rw [if_neg hle] at h2
        have hx := Option.some.inj h2
        rw [← hx]
        exact List.mem_cons_of_mem x (ih m' hfm)

theorem findMin_cons_isSome (x : Int × Nat) (xs : List (Int × Nat)) :
    ∃ m, Graph.findMin (x :: xs) = some m := by
  have hstep : Graph.findMin (x :: xs) = match Graph.findMin xs with
    | none => some x
    | some m' => if Graph.pairLe x m' then some x else some m' := rfl
  rw [hstep]
  cases hfm : Graph.findMin xs with
  | none => exact ⟨x, rfl⟩
  | some m' =>
    by_cases hle : Graph.pairLe x m'
    · refine ⟨x, ?_⟩
      show (if Graph.pairLe x m' then some x else some m') = some x
      rw [if_pos hle]
    · refine ⟨m', ?_⟩
      show (if Graph.pairLe x m' then some x else some m') = some m'
      rw [if_neg hle]

theorem popMin_none {pq : List (Int × Nat)} (h : Graph.popMin pq = none) : pq = [] := by
  cases pq with
  | nil => rfl
  | cons x xs =>
    exfalso
    obtain ⟨m, hm⟩ := findMin_cons_isSome x xs
    unfold Graph.popMin at h
    rw [hm] at h
    cases h

theorem popMin_some {pq : List (Int × Nat)} {m : Int × Nat} {pq' : List (Int × Nat)}
    (h : Graph.popMin pq = some (m, pq')) : m ∈ pq ∧ pq' = pq.erase m := by
  unfold Graph.popMin at h
  cases hfm : Graph.findMin pq with
  | none => rw [hfm] at h; cases h
  | some m0 =>
    rw [hfm] at h
    have h' := Option.some.inj h
    rw [Prod.mk.injEq] at h'
    obtain ⟨h1, h2⟩ := h'
    subst h1
    exact ⟨findMin_mem pq m0 hfm, h2.symm⟩

theorem dRelax_step (g : Graph) (s u : Nat) (st : List Int × List (Int × Nat))
    (e : Nat × Int) (hu : u < g.V) (he1 : e.1 < g.V) (he2 : 0 ≤ e.2)
    (he : e ∈ g.adj u) (hcore : DCore g s st) :
    DCore g s (Graph.dijkstraRelax u st e) ∧
    (∀ x, EAt g st x → EAt g (Graph.dijkstraRelax u st e) x) ∧
    dMeasure (Graph.dijkstraRelax u st e) ≤ dMeasure st := by
  obtain ⟨hlen, hbnd, hs0, hsound, hpq⟩ := hcore
  by_cases hg : st.1.getD u 0 ≠ INF ∧ st.1.getD u 0 + e.2 < st.1.getD e.1 0
  case neg =>
    have hrw : Graph.dijkstraRelax u st e = st := by
      unfold Graph.dijkstraRelax
      rw [if_neg hg]
    rw [hrw]
    exact ⟨⟨hlen, hbnd, hs0, hsound, hpq⟩, fun x hx => hx, le_refl _⟩
  case pos =>
    have hrw : Graph.dijkstraRelax u st e
        = (st.1.set e.1 (st.1.getD u 0 + e.2), st.2 ++ [(st.1.getD u 0 + e.2, e.1)]) := by
      unfold Graph.dijkstraRelax
      rw [if_pos hg]
    have he1len : e.1 < st.1.length := by omega
    have hnew0 : 0 ≤ st.1.getD u 0 + e.2 := by
      have hb := (hbnd u hu).1
      omega
    have hnewlt : st.1.getD u 0 + e.2 < st.1.getD e.1 0 := hg.2
    have he1INF : st.1.getD e.1 0 ≤ INF := (hbnd e.1 he1).2
    rw [hrw]
    refine ⟨⟨?_, ?_, ?_, ?_, ?_⟩, ?_, ?_⟩
    · simp only [List.length_set]
      exact hlen
    · intro v hv
      by_cases hveq : e.1 = v
      · subst hveq
        rw [getD_set_self _ _ he1len]
        omega
      · rw [getD_set_ne _ _ hveq]
        exact hbnd v hv
    · by_cases hveq : e.1 = s
      · exfalso
        rw [hveq] at hnewlt
        omega
      · rw [getD_set_ne _ _ hveq]
        exact hs0
    · intro v hv
      by_cases hveq : e.1 = v
      · subst hveq
        rw [getD_set_self _ _ he1len]
        right
        rcases hsound u hu with hinf | ⟨l, hl, hwl⟩
        · exact absurd hinf hg.1
        · refine ⟨l ++ [(e.1, e.2)],
            isWalk_append l s u e.1 [(e.1, e.2)] hl ⟨he, rfl⟩, ?_⟩
          rw [wt_append, hwl]
          simp [wt]
      · rw [getD_set_ne _ _ hveq]
        exact hsound v hv
    · intro p hp
      rcases List.mem_append.mp hp with hp' | hp'
      · obtain ⟨hplt, hple⟩ := hpq p hp'
        refine ⟨hplt, ?_⟩
        by_cases hveq : e.1 = p.2
        · rw [← hveq] at hple ⊢
          rw [getD_set_self _ _ he1len]
          omega
        · rw [getD_set_ne _ _ hveq]
          exact hple
      · have hp2 : p = (st.1.getD u 0 + e.2, e.1) := by simpa using hp'
        subst hp2
        refine ⟨he1, ?_⟩
        show (st.1.set e.1 (st.1.getD u 0 + e.2)).getD e.1 0 ≤ st.1.getD u 0 + e.2
        rw [getD_set_self _ _ he1len]
    · intro x hx
      by_cases hveq : e.1 = x
      · subst hveq
        right
        left
        show ((st.1.set e.1 (st.1.getD u 0 + e.2)).getD e.1 0, e.1)
            ∈ st.2 ++ [(st.1.getD u 0 + e.2, e.1)]
        rw [getD_set_self _ _ he1len]
        exact List.mem_append.mpr (Or.inr (by simp))
      · rcases hx with hx | hx | hx
        · left
          show (st.1.set e.1 (st.1.getD u 0 + e.2)).getD x 0 = INF
          rw [getD_set_ne _ _ hveq]
          exact hx
        · right
          left
          show ((st.1.set e.1 (st.1.getD u 0 + e.2)).getD x 0, x)
              ∈ st.2 ++ [(st.1.getD u 0 + e.2, e.1)]
          rw [getD_set_ne _ _ hveq]
          exact List.mem_append.mpr (Or.inl hx)
        · right
          right
          intro e' he'
          show (st.1.set e.1 (st.1.getD u 0 + e.2)).getD e'.1 0
              ≤ (st.1.set e.1 (st.1.getD u 0 + e.2)).getD x 0 + e'.2
          rw [getD_set_ne _ _ hveq]
          have hstep := hx e' he'
          by_cases hveq' : e.1 = e'.1
          · have hstep' := hstep
            rw [← hveq'] at hstep'
            rw [← hveq', getD_set_self _ _ he1len]
            omega
          · rw [getD_set_ne _ _ hveq']
            exact hstep
    · have hsum := sum_toNat_set st.1 e.1 he1len (st.1.getD u 0 + e.2)
      have htn : (st.1.getD u 0 + e.2).toNat < (st.1.getD e.1 0).toNat :=
        (Int.toNat_lt_toNat (by omega)).mpr hnewlt
      show 2 * (((st.1.set e.1 (st.1.getD u 0 + e.2)).map Int.toNat).sum)
          + (st.2 ++ [(st.1.getD u 0 + e.2, e.1)]).length
        ≤ 2 * ((st.1.map Int.toNat).sum) + st.2.length
      simp only [List.length_append, List.length_singleton]
      omega

theorem dFold_step (g : Graph) (s u : Nat)
    (htgt : ∀ u', u' < g.V → ∀ e ∈ g.adj u', e.1 < g.V)
    (hnn : ∀ u', u' < g.V → ∀ e ∈ g.adj u', 0 ≤ e.2)
    (hu : u < g.V) (st : List Int × List (Int × Nat)) (hcore : DCore g s st) :
    DCore g s ((g.adj u).foldl (Graph.dijkstraRelax u) st) ∧
    (∀ x, EAt g st x → EAt g ((g.adj u).foldl (Graph.dijkstraRelax u) st) x) ∧
    dMeasure ((g.adj u).foldl (Graph.dijkstraRelax u) st) ≤ dMeasure st := by
  refine foldl_inv (fun st' : List Int × List (Int × Nat) =>
    DCore g s st' ∧ (∀ x, EAt g st x → EAt g st' x) ∧ dMeasure st' ≤ dMeasure st)
    _ _ _ ⟨hcore, fun x hx => hx, le_refl _⟩ ?_
  intro st' e he hP
  obtain ⟨hc', hE', hm'⟩ := hP
  obtain ⟨hc2, hE2, hm2⟩ := dRelax_step g s u st' e hu (htgt u hu e he) (hnn u hu e he) he hc'
  exact ⟨hc2, fun x hx => hE2 x (hE' x hx), le_trans hm2 hm'⟩

theorem dijkstraLoop_spec (g : Graph)
    (htgt : ∀ u', u' < g.V → ∀ e ∈ g.adj u', e.1 < g.V)
    (hnn : ∀ u', u' < g.V → ∀ e ∈ g.adj u', 0 ≤ e.2)
    (s : Nat) :
    ∀ (fuel : Nat) (dist : List Int) (pq : List (Int × Nat)),
    DCore g s (dist, pq) → (∀ x, x < g.V → EAt g (dist, pq) x) →
    dMeasure (dist, pq) < fuel →
    DCore g s (Graph.dijkstraLoop g fuel dist pq, []) ∧
    (∀ x, x < g.V → EAt g (Graph.dijkstraLoop g fuel dist pq, ([] : List (Int × Nat))) x) := by
  intro fuel
  induction fuel with
  | zero =>
    intro dist pq _ _ hm
    omega
  | succ fuel ih =>
    intro dist pq hcore hEAt hm
    have hstep : Graph.dijkstraLoop g (fuel + 1) dist pq
        = (match Graph.popMin pq with
           | none => dist
           | some ((d', u'), pq'') =>
             if d' > dist.getD u' 0 then Graph.dijkstraLoop g fuel dist pq''
             else
               Graph.dijkstraLoop g fuel
                 ((g.adj u').foldl (Graph.dijkstraRelax u') (dist, pq'')).1
                 ((g.adj u').foldl (Graph.dijkstraRelax u') (dist, pq'')).2) := rfl
    cases hpm : Graph.popMin pq with
    | none =>
      have hpq : pq = [] := popMin_none hpm
      subst hpq
      have hres : Graph.dijkstraLoop g (fuel + 1) dist [] = dist := by
        rw [hstep, hpm]
      rw [hres]
      exact ⟨hcore, hEAt⟩
    | some mp =>
      obtain ⟨⟨d, u⟩, pq'⟩ := mp
      obtain ⟨hmem, hpq'⟩ := popMin_some hpm
      obtain ⟨hlen, hbnd, hs0, hsound, hpqb⟩ := hcore
      have huV : u < g.V := (hpqb (d, u) hmem).1
      have hdu : dist.getD u 0 ≤ d := (hpqb (d, u) hmem).2
      have hcore' : DCore g s (dist, pq') := by
        refine ⟨hlen, hbnd, hs0, hsound, ?_⟩
        intro p hp
        refine hpqb p ?_
        have hp2 : p ∈ pq.erase (d, u) := by
          rw [← hpq']
          exact hp
        exact (List.erase_sublist _ _).subset hp2
      have hmlen : pq'.length + 1 = pq.length := by
        have hel := List.length_erase_of_mem hmem
        have hpos : 0 < pq.length := List.length_pos.mpr (List.ne_nil_of_mem hmem)
        rw [hpq', hel]
        omega
      have hm1 : dMeasure (dist, pq) = 2 * (dist.map Int.toNat).sum + pq.length := rfl
      have hm2 : dMeasure (dist, pq') = 2 * (dist.map Int.toNat).sum + pq'.length := rfl
      by_cases hstale : d > dist.getD u 0
      · have hres : Graph.dijkstraLoop g (fuel + 1) dist pq
            = Graph.dijkstraLoop g fuel dist pq' := by
          rw [hstep, hpm]
          show (if d > dist.getD u 0 then Graph.dijkstraLoop g fuel dist pq'
            else Graph.dijkstraLoop g fuel
              ((g.adj u).foldl (Graph.dijkstraRelax u) (dist, pq')).1
              ((g.adj u).foldl (Graph.dijkstraRelax u) (dist, pq')).2)
            = Graph.dijkstraLoop g fuel dist pq'
          rw [if_pos hstale]
        rw [hres]
        have hEAt' : ∀ x, x < g.V → EAt g (dist, pq') x := by
          intro x hx
          rcases hEAt x hx with h1 | h1 | h1
          · exact Or.inl h1
          · right
            left
            show (dist.getD x 0, x) ∈ pq'
            rw [hpq']
            refine (List.mem_erase_of_ne ?_).mpr h1
            intro hc
            rw [Prod.mk.injEq] at hc
            obtain ⟨hc1, hc2⟩ := hc
            rw [hc2] at hc1
            omega
          · exact Or.inr (Or.inr h1)
        refine ih dist pq' hcore' hEAt' ?_
        rw [hm2]
        rw [hm1] at hm
        omega
      · have hle : d ≤ dist.getD u 0 := not_lt.mp hstale
        have hdeq : d = dist.getD u 0 := le_antisymm hle hdu
        have hres : Graph.dijkstraLoop g (fuel + 1) dist pq
            = Graph.dijkstraLoop g fuel
              ((g.adj u).foldl (Graph.dijkstraRelax u) (dist, pq')).1
              ((g.adj u).foldl (Graph.dijkstraRelax u) (dist, pq')).2 := by
          rw [hstep, hpm]
          show (if d > dist.getD u 0 then Graph.dijkstraLoop g fuel dist pq'
            else Graph.dijkstraLoop g fuel
              ((g.adj u).foldl (Graph.dijkstraRelax u) (dist, pq')).1
              ((g.adj u).foldl (Graph.dijkstraRelax u) (dist, pq')).2)
            = Graph.dijkstraLoop g fuel
              ((g.adj u).foldl (Graph.dijkstraRelax u) (dist, pq')).1
              ((g.adj u).foldl (Graph.dijkstraRelax u) (dist, pq')).2
          rw [if_neg hstale]
        rw [hres]
        obtain ⟨hcfold, hEfold, hmfold⟩ := dFold_step g s u htgt hnn huV (dist, pq') hcore'
        have hkeepu : ((g.adj u).foldl (Graph.dijkstraRelax u) (dist, pq')).1.getD u 0
            = dist.getD u 0 := by
          rw [dijkstraFold_fst]
          exact bfFoldA_keep_u u (g.adj u) (fun e he => hnn u huV e he) dist
        have hEAtnew : ∀ x, x < g.V →
            EAt g ((g.adj u).foldl (Graph.dijkstraRelax u) (dist, pq')) x := by
          intro x hx
          by_cases hxu : x = u
          · subst hxu
            by_cases hINF : dist.getD x 0 = INF
            · left
              show ((g.adj x).foldl (Graph.dijkstraRelax x) (dist, pq')).1.getD x 0 = INF
              rw [hkeepu]
              exact hINF
            · right
              right
              intro e' he'
              show ((g.adj x).foldl (Graph.dijkstraRelax x) (dist, pq')).1.getD e'.1 0
                ≤ ((g.adj x).foldl (Graph.dijkstraRelax x) (dist, pq')).1.getD x 0 + e'.2
              rw [hkeepu]
              have hxINF : dist.getD x 0 < INF :=
                lt_of_le_of_ne ((hbnd x hx).2) hINF
              have hbound : ((g.adj x).foldl (Graph.dijkstraRelax x) (dist, pq')).1.getD e'.1 0
                  ≤ dist.getD x 0 + e'.2 := by
                rw [dijkstraFold_fst]
                have hlenD : dist.length = g.V := hlen
                exact bfFoldA_edge_bound x (g.adj x) e' he' dist
                  (by have := htgt x hx e' he'; omega) hxINF
              exact hbound
          · have hE0 : EAt g (dist, pq') x := by
              rcases hEAt x hx with h1 | h1 | h1
              · exact Or.inl h1
              · right
                left
                show (dist.getD x 0, x) ∈ pq'
                rw [hpq']
                refine (List.mem_erase_of_ne ?_).mpr h1
                intro hc
                rw [Prod.mk.injEq] at hc
                exact hxu hc.2
              · exact Or.inr (Or.inr h1)
            exact hEfold x hE0
        refine ih _ _ hcfold hEAtnew ?_
        have hm3 : dMeasure ((g.adj u).foldl (Graph.dijkstraRelax u) (dist, pq')) < fuel := by
          rw [hm2] at hmfold
          rw [hm1] at hm
          omega
        exact hm3

theorem dist0_getD_ge (V s v : Nat) :
    0 ≤ ((List.replicate V INF).set s 0).getD v 0 := by
  by_cases hveq : s = v
  · subst hveq
    by_cases hs : s < V
    · rw [dist0_getD_start V s hs]
    · rw [List.set_eq_of_length_le (by simpa using not_lt.mp hs)]
      rw [List.getD_eq_default _ _ (by simpa using not_lt.mp hs)]
  · rw [getD_set_ne _ _ hveq]
    by_cases hv : v < V
    · rw [List.getD_eq_getElem _ _ (by simpa using hv), List.getElem_replicate]
      unfold INF
      omega
    · rw [List.getD_eq_default _ _ (by simpa using not_lt.mp hv)]

theorem dist0_sum (V s : Nat) (hs : s < V) :
    (((List.replicate V INF).set s 0).map Int.toNat).sum + INF.toNat
      = V * INF.toNat := by
  have h1 := sum_toNat_set (List.replicate V INF) s (by simpa using hs) 0
  have h2 : (List.replicate V INF).getD s 0 = INF := by
    rw [List.getD_eq_getElem _ _ (by simpa using hs), List.getElem_replicate]
  rw [h2] at h1
  have h3 : ((List.replicate V INF).map Int.toNat).sum = V * INF.toNat := by
    rw [List.map_replicate, List.sum_replicate, smul_eq_mul]
  rw [h3] at h1
  simpa using h1

theorem dijkstra_spec (g : Graph)
    (htgt : ∀ u', u' < g.V → ∀ e ∈ g.adj u', e.1 < g.V)
    (hnn : ∀ u', u' < g.V → ∀ e ∈ g.adj u', 0 ≤ e.2)
    (start : Nat) (hstart : start < g.V) :
    DCore g start (g.dijkstra start, []) ∧
    (∀ x, x < g.V → EAt g (g.dijkstra start, ([] : List (Int × Nat))) x) := by
  have hd : g.dijkstra start
      = Graph.dijkstraLoop g (2 * g.V * INF.toNat + 2)
        ((List.replicate g.V INF).set start 0) [(0, start)] := rfl
  rw [hd]
  refine dijkstraLoop_spec g htgt hnn start _ _ _ ⟨?_, ?_, ?_, ?_, ?_⟩ ?_ ?_
  · show ((List.replicate g.V INF).set start 0).length = g.V
    simp
  · intro v hv
    exact ⟨dist0_getD_ge g.V start v, dist0_getD_le g.V start v⟩
  · show ((List.replicate g.V INF).set start 0).getD start 0 ≤ 0
    rw [dist0_getD_start g.V start hstart]
  · exact dist0_sound g start hstart
  · intro p hp
    have hp2 : p = ((0 : Int), start) := by simpa using hp
    subst hp2
    refine ⟨hstart, ?_⟩
    show ((List.replicate g.V INF).set start 0).getD start 0 ≤ 0
    rw [dist0_getD_start g.V start hstart]
  · intro x hx
    by_cases hxs : x = start
    · subst hxs
      right
      left
      show (((List.replicate g.V INF).set x 0).getD x 0, x) ∈ [((0 : Int), x)]
      rw [dist0_getD_start g.V x hx]
      simp
    · left
      show ((List.replicate g.V INF).set start 0).getD x 0 = INF
      rw [getD_set_ne _ _ (fun hc => hxs hc.symm),
        List.getD_eq_getElem _ _ (by simpa using hx), List.getElem_replicate]
  · have hm : dMeasure ((List.replicate g.V INF).set start 0, [((0 : Int), start)])
        = 2 * (((List.replicate g.V INF).set start 0).map Int.toNat).sum + 1 := rfl
    rw [hm]
    have hsum := dist0_sum g.V start hstart
    have hmul : 2 * g.V * INF.toNat = 2 * (g.V * INF.toNat) := by ring
    rw [hmul]
    omega

theorem stable_walk_bound (g : Graph) (hadjlen : g.adjList.length = g.V)
    (hnn : ∀ u, u < g.V → ∀ e ∈ g.adj u, 0 ≤ e.2)
    (s : Nat) (d : List Int)
    (hstab : ∀ u, u < g.V → d.getD u 0 = INF ∨
      ∀ e ∈ g.adj u, d.getD e.1 0 ≤ d.getD u 0 + e.2)
    (hs0 : d.getD s 0 ≤ 0) :
    ∀ (n : Nat) (l : List (Nat × Int)) (t : Nat), l.length ≤ n → isWalk g s l t →
    wt l < INF → d.getD t 0 ≤ wt l := by
  intro n
  induction n with
  | zero =>
    intro l t hl h _
    have hnil : l = [] := List.length_eq_zero.mp (by omega)
    subst hnil
    have hst : s = t := h
    subst hst
    have hwt : wt ([] : List (Nat × Int)) = 0 := rfl
    rw [hwt]
    exact hs0
  | succ n ih =>
    intro l t hl h hw
    by_cases hshort : l.length ≤ n
    · exact ih l t hshort h hw
    · rcases List.eq_nil_or_concat l with rfl | ⟨l', e, hconc⟩
      · simp at hshort
      · rw [List.concat_eq_append] at hconc
        subst hconc
        obtain ⟨m, hm1, hm2⟩ := isWalk_append_inv l' s t [e] h
        have hm2' : e ∈ g.adj m ∧ isWalk g e.1 [] t := hm2
        have het : e.1 = t := hm2'.2
        have hmV : m < g.V := mem_adj_lt g hadjlen hm2'.1
        have he2 : 0 ≤ e.2 := hnn m hmV e hm2'.1
        have hwl : wt (l' ++ [e]) = wt l' + e.2 := by
          rw [wt_append]
          simp [wt]
        have hwl' : wt l' < INF := by omega
        have hihm := ih l' m (by simp at hl; omega) hm1 hwl'
        rcases hstab m hmV with hINF | hstab'
        · exfalso
          omega
        · have hlast := hstab' e hm2'.1
          rw [het] at hlast
          rw [hwl]
          omega

/-- C3: on every graph with `adjList.size() == V`, in-range targets and
non-negative edge weights, and for every start vertex in `[0, V)`, the
distance vector returned by `dijkstra(start)` equals, entry for entry, the
distance vector returned by `bellmanFord(start)`. -/
theorem C3_dijkstra_eq_bellmanFord (g : Graph)
    (hadjlen : g.adjList.length = g.V)
    (htgt : ∀ u, u < g.V → ∀ e ∈ g.adj u, e.1 < g.V)
    (hnn : ∀ u, u < g.V → ∀ e ∈ g.adj u, 0 ≤ e.2)
    (start : Nat) (hstart : start < g.V) :
    g.dijkstra start = (bellmanFord g start).1 := by
  obtain ⟨⟨hdlen, hdbnd, hds0, hdsound, _⟩, hdE⟩ := dijkstra_spec g htgt hnn start hstart
  have hdlen' : (g.dijkstra start).length = g.V := hdlen
  have hblen : (bellmanFord g start).1.length = g.V := by
    rw [bellmanFord_dist, bfIter_length]
    simp
  have hbeq : (bellmanFord g start).1
      = (bfPass g)^[g.V - 1] ((List.replicate g.V INF).set start 0) :=
    bellmanFord_dist g start
  have hstab : ∀ u, u < g.V → (g.dijkstra start).getD u 0 = INF ∨
      ∀ e ∈ g.adj u,
        (g.dijkstra start).getD e.1 0 ≤ (g.dijkstra start).getD u 0 + e.2 := by
    intro u hu
    rcases hdE u hu with h1 | h1 | h1
    · exact Or.inl h1
    · exact absurd h1 (List.not_mem_nil _)
    · exact Or.inr h1
  refine List.ext_getElem (by omega) ?_
  intro v h1 h2
  have hvV : v < g.V := by omega
  rw [← List.getD_eq_getElem _ 0 h1, ← List.getD_eq_getElem _ 0 h2]
  have haINF : (g.dijkstra start).getD v 0 ≤ INF := (hdbnd v hvV).2
  have hbINF : (bellmanFord g start).1.getD v 0 ≤ INF := by
    rw [hbeq]
    exact le_trans (bfIter_le_start g _ v _) (dist0_getD_le g.V start v)
  have hbsound : (bellmanFord g start).1.getD v 0 = INF ∨
      ∃ l, isWalk g start l v ∧ wt l = (bellmanFord g start).1.getD v 0 := by
    rw [hbeq]
    exact bfIter_sound g start _ (dist0_sound g start hstart) (g.V - 1) v hvV
  have hab : (g.dijkstra start).getD v 0 ≤ (bellmanFord g start).1.getD v 0 := by
    rcases hbsound with hb1 | ⟨l, hl, hwl⟩
    · rw [hb1]
      exact haINF
    · by_cases hbI : (bellmanFord g start).1.getD v 0 = INF
      · rw [hbI]
        exact haINF
      · have hwlt : wt l < INF := by omega
        have hsb := stable_walk_bound g hadjlen hnn start (g.dijkstra start)
          hstab hds0 l.length l v (le_refl _) hl hwlt
        omega
  have hba : (bellmanFord g start).1.getD v 0 ≤ (g.dijkstra start).getD v 0 := by
    rcases hdsound v hvV with ha1 | ⟨l, hl, hwl⟩
    · have ha1' : (g.dijkstra start).getD v 0 = INF := ha1
      rw [ha1']
      exact hbINF
    · have hwl' : wt l = (g.dijkstra start).getD v 0 := hwl
      by_cases haI : (g.dijkstra start).getD v 0 = INF
      · rw [haI]
        exact hbINF
      · have hwlt : wt l < INF := by omega
        obtain ⟨l', hl'1, hl'2, hl'3⟩ :=
          walk_shorten g hadjlen htgt hnn start hstart l.length l v (le_refl _) hl
        have hwl't : wt l' < INF := by omega
        have hcomp := bf_complete g hadjlen htgt hnn start hstart (g.V - 1)
          l' v hl'1 hl'2 hwl't
        rw [hbeq]
        omega
  omega

/-- Witness for C3: the 6-vertex scenario graph with start vertex 0
satisfies all hypotheses, and the two distance vectors coincide on it. -/
theorem C3_witness :
    g6.adjList.length = g6.V ∧
    (∀ u, u < g6.V → ∀ e ∈ g6.adj u, e.1 < g6.V) ∧
    (∀ u, u < g6.V → ∀ e ∈ g6.adj u, 0 ≤ e.2) ∧
    0 < g6.V ∧
    g6.dijkstra 0 = (bellmanFord g6 0).1 :=
  ⟨by decide, by decide, by decide, by decide,
    C3_dijkstra_eq_bellmanFord g6 (by decide) (by decide) (by decide) 0 (by decide)⟩

theorem reachW_refl (g : Graph) (u : Nat) : ReachW g u u := ⟨[], rfl⟩

theorem reachW_trans {g : Graph} {a b c : Nat} (h1 : ReachW g a b) (h2 : ReachW g b c) :
    ReachW g a c := by
  obtain ⟨l1, hw1⟩ := h1
  obtain ⟨l2, hw2⟩ := h2
  exact ⟨l1 ++ l2, isWalk_append l1 a b c l2 hw1 hw2⟩

theorem reachW_edge {g : Graph} {u : Nat} {e : Nat × Int} (he : e ∈ g.adj u) :
    ReachW g u e.1 := ⟨[e], ⟨he, rfl⟩⟩

theorem visSet_set_self {vis : List Bool} {i : Nat} (h : i < vis.length) :
    visSet (vis.set i true) i := by
  unfold visSet
  rw [getD_set_self _ _ h]

theorem visSet_set_ne {vis : List Bool} {i v : Nat} (h : i ≠ v) :
    visSet (vis.set i true) v ↔ visSet vis v := by
  unfold visSet
  rw [getD_set_ne _ _ h]

theorem visSet_mono_set {vis : List Bool} {v : Nat} (i : Nat) (h : visSet vis v) :
    visSet (vis.set i true) v := by
  by_cases hiv : i = v
  · subst hiv
    by_cases hl : i < vis.length
    · exact visSet_set_self hl
    · unfold visSet at h ⊢
      rw [List.set_eq_of_length_le (by omega)]
      exact h
  · exact (visSet_set_ne hiv).mpr h

theorem visSet_set_cases {vis : List Bool} {i v : Nat}
    (h : visSet (vis.set i true) v) : v = i ∨ visSet vis v := by
  by_cases hiv : i = v
  · exact Or.inl hiv.symm
  · exact Or.inr ((visSet_set_ne hiv).mp h)

theorem count_false_pos {vis : List Bool} {u : Nat} (hu : u < vis.length)
    (hf : vis.getD u false = false) : 0 < vis.countP (fun b => !b) := by
  rw [List.getD_eq_getElem _ _ hu] at hf
  have hmem : vis[u] ∈ vis := List.getElem_mem hu
  refine List.countP_pos_iff.mpr ?_
  exact ⟨vis[u], hmem, by rw [hf]; rfl⟩

theorem count_false_set :
    ∀ (vis : List Bool) (i : Nat), i < vis.length → vis.getD i false = false →
    (vis.set i true).countP (fun b => !b) + 1 = vis.countP (fun b => !b) := by
  intro vis
  induction vis with
  | nil => intro i h; simp at h
  | cons a rest ih =>
    intro i hlen hf
    cases i with
    | zero =>
      simp only [List.getD_cons_zero] at hf
      subst hf
      simp only [List.set_cons_zero, List.countP_cons]
      have h1 : ((fun b => !b) true = true) = False := by simp
      simp
    | succ i' =>
      simp only [List.getD_cons_succ] at hf
      simp only [List.set_cons_succ, List.countP_cons]
      have hih := ih i' (by simpa using hlen) hf
      omega

theorem wstack_nil (g : Graph) : Wstack g [] := by
  intro S1 r S2 heq
  exact absurd heq (by simp)

theorem isWalk_stepIn {g : Graph} (A : Nat → Prop) :
    ∀ (l : List (Nat × Int)) (u v : Nat), isWalk g u l v → (∀ x ∈ wvs u l, A x) →
    Relation.ReflTransGen (StepIn g A) u v := by
  intro l
  induction l with
  | nil =>
    intro u v h _
    have huv : u = v := h
    subst huv
    exact Relation.ReflTransGen.refl
  | cons e rest ih =>
    intro u v h hA
    have h' : e ∈ g.adj u ∧ isWalk g e.1 rest v := h
    refine Relation.ReflTransGen.head ⟨⟨e.2, h'.1⟩, hA e.1 (by simp [wvs])⟩ ?_
    refine ih e.1 v h'.2 ?_
    intro x hx
    refine hA x ?_
    simp only [wvs, List.map_cons, List.mem_cons] at hx ⊢
    tauto

theorem stepIn_isWalk {g : Graph} (A : Nat → Prop) {u v : Nat}
    (h : Relation.ReflTransGen (StepIn g A) u v) (hu : A u) :
    ∃ l, isWalk g u l v ∧ ∀ x ∈ wvs u l, A x := by
  induction h with
  | refl =>
    refine ⟨[], rfl, ?_⟩
    intro x hx
    have hx' : x = u := by simpa [wvs] using hx
    subst hx'
    exact hu
  | tail _ hbc ih =>
    obtain ⟨l, hl, hA⟩ := ih
    obtain ⟨⟨w, hw⟩, hAc⟩ := hbc
    refine ⟨l ++ [(_, w)], isWalk_append l u _ _ [(_, w)] hl ⟨hw, rfl⟩, ?_⟩
    intro x hx
    simp only [wvs, List.map_append, List.map_cons, List.map_nil, List.mem_cons,
      List.mem_append] at hx
    rcases hx with hx | hx | hx
    · exact hx ▸ hA u (by simp [wvs])
    · exact hA x (by simp [wvs, hx])
    · rcases hx with hx | hx
      · exact hx ▸ hAc
      · cases hx

theorem dfsFillOrder_spec (g : Graph)
    (htgt : ∀ u, u < g.V → ∀ e ∈ g.adj u, e.1 < g.V) :
    ∀ (fuel : Nat) (u : Nat) (vis : List Bool) (stk : List Nat),
    vis.length = g.V → u < g.V → vis.getD u false = false →
    vis.countP (fun b => !b) ≤ fuel →
    (∀ x ∈ stk, ∀ e ∈ g.adj x, visSet vis e.1) →
    (∀ x ∈ stk, visSet vis x) →
    stk.Nodup →
    Wstack g stk →
    ∃ P,
      (dfsFillOrder g fuel u vis stk).2 = P ++ stk ∧
      (dfsFillOrder g fuel u vis stk).1.length = g.V ∧
      (∀ v, visSet vis v → visSet (dfsFillOrder g fuel u vis stk).1 v) ∧
      (∀ w, w ∈ P ↔ visSet (dfsFillOrder g fuel u vis stk).1 w ∧ ¬ visSet vis w) ∧
      u ∈ P ∧
      (∀ w ∈ P, ReachW g u w ∧ w < g.V) ∧
      (∀ x ∈ P ++ stk, ∀ e ∈ g.adj x, visSet (dfsFillOrder g fuel u vis stk).1 e.1) ∧
      (∀ x ∈ P ++ stk, visSet (dfsFillOrder g fuel u vis stk).1 x) ∧
      (P ++ stk).Nodup ∧
      Wstack g (P ++ stk) ∧
      (dfsFillOrder g fuel u vis stk).1.countP (fun b => !b) + P.length
        = vis.countP (fun b => !b) := by
  intro fuel
  induction fuel with
  | zero =>
    intro u vis stk hlen huV hu0 hcnt _ _ _ _
    exfalso
    have hpos := count_false_pos (by omega : u < vis.length) hu0
    omega
  | succ fuel ih =>
    intro u vis stk hlen huV hu0 hcnt H5 H6 H7 H8
    have hulen : u < vis.length := by omega
    have hcnt1 : (vis.set u true).countP (fun b => !b) + 1 = vis.countP (fun b => !b) :=
      count_false_set vis u hulen hu0
    have hnvu : ¬ visSet vis u := by
      unfold visSet
      rw [hu0]
      simp
    have heq : dfsFillOrder g (fuel + 1) u vis stk
        = (((g.adj u).foldl
            (fun st e => if st.1.getD e.1 false then st
              else dfsFillOrder g fuel e.1 st.1 st.2)
            (vis.set u true, stk)).1,
           u :: ((g.adj u).foldl
            (fun st e => if st.1.getD e.1 false then st
              else dfsFillOrder g fuel e.1 st.1 st.2)
            (vis.set u true, stk)).2) := rfl
    have hfold : ∀ (l : List (Nat × Int)), (∀ e ∈ l, e ∈ g.adj u) →
        ∀ (st : List Bool × List Nat) (Q : List Nat),
        st.2 = Q ++ stk →
        st.1.length = g.V →
        (∀ v, visSet (vis.set u true) v → visSet st.1 v) →
        (∀ w, w ∈ Q ↔ visSet st.1 w ∧ ¬ visSet (vis.set u true) w) →
        (∀ w ∈ Q, ReachW g u w ∧ w < g.V) →
        (∀ x ∈ Q ++ stk, ∀ e ∈ g.adj x, visSet st.1 e.1) →
        (∀ x ∈ Q ++ stk, visSet st.1 x) →
        (Q ++ stk).Nodup →
        Wstack g (Q ++ stk) →
        st.1.countP (fun b => !b) + Q.length = (vis.set u true).countP (fun b => !b) →
        ∃ Q',
          (l.foldl (fun st e => if st.1.getD e.1 false then st
            else dfsFillOrder g fuel e.1 st.1 st.2) st).2 = Q' ++ stk ∧
          (l.foldl (fun st e => if st.1.getD e.1 false then st
            else dfsFillOrder g fuel e.1 st.1 st.2) st).1.length = g.V ∧
          (∀ v, visSet st.1 v → visSet (l.foldl (fun st e => if st.1.getD e.1 false then st
            else dfsFillOrder g fuel e.1 st.1 st.2) st).1 v) ∧
          (∀ w, w ∈ Q' ↔ visSet (l.foldl (fun st e => if st.1.getD e.1 false then st
            else dfsFillOrder g fuel e.1 st.1 st.2) st).1 w ∧ ¬ visSet (vis.set u true) w) ∧
          (∀ w ∈ Q', ReachW g u w ∧ w < g.V) ∧
          (∀ x ∈ Q' ++ stk, ∀ e ∈ g.adj x,
            visSet (l.foldl (fun st e => if st.1.getD e.1 false then st
              else dfsFillOrder g fuel e.1 st.1 st.2) st).1 e.1) ∧
          (∀ x ∈ Q' ++ stk, visSet (l.foldl (fun st e => if st.1.getD e.1 false then st
            else dfsFillOrder g fuel e.1 st.1 st.2) st).1 x) ∧
          (Q' ++ stk).Nodup ∧
          Wstack g (Q' ++ stk) ∧
          (l.foldl (fun st e => if st.1.getD e.1 false then st
            else dfsFillOrder g fuel e.1 st.1 st.2) st).1.countP (fun b => !b) + Q'.length
            = (vis.set u true).countP (fun b => !b) ∧
          (∀ e ∈ l, visSet (l.foldl (fun st e => if st.1.getD e.1 false then st
            else dfsFillOrder g fuel e.1 st.1 st.2) st).1 e.1) := by
      intro l
      induction l with
      | nil =>
        intro _ st Q h1 h2 h3 h4 h5 h6 h7 h8 h9 h10
        exact ⟨Q, h1, h2, fun v hv => hv, h4, h5, h6, h7, h8, h9, h10,
          by intro e he; cases he⟩
      | cons e l' ihl =>
        intro hl st Q h1 h2 h3 h4 h5 h6 h7 h8 h9 h10
        have heu : e ∈ g.adj u := hl e (by simp)
        have he1V : e.1 < g.V := htgt u huV e heu
        rw [List.foldl_cons]
        by_cases hvis : st.1.getD e.1 false = true
        · have hstep : (if st.1.getD e.1 false then st
              else dfsFillOrder g fuel e.1 st.1 st.2) = st := by
            rw [if_pos hvis]
          rw [hstep]
          obtain ⟨Q', hA1, hA2, hA3, hA4, hA5, hA6, hA7, hA8, hA9, hA10, hA11⟩ :=
            ihl (fun e' he' => hl e' (by simp [he'])) st Q h1 h2 h3 h4 h5 h6 h7 h8 h9 h10
          refine ⟨Q', hA1, hA2, hA3, hA4, hA5, hA6, hA7, hA8, hA9, hA10, ?_⟩
          intro e2 he2
          rcases List.mem_cons.mp he2 with rfl | he2'
          · exact hA3 e2.1 hvis
          · exact hA11 e2 he2'
        · have hf0 : st.1.getD e.1 false = false := by
            cases hx : st.1.getD e.1 false
            · rfl
            · exact absurd hx hvis
          have hstep : (if st.1.getD e.1 false then st
              else dfsFillOrder g fuel e.1 st.1 st.2)
              = dfsFillOrder g fuel e.1 st.1 st.2 := by
            rw [if_neg hvis]
          rw [hstep]
          have hstcnt : st.1.countP (fun b => !b) ≤ fuel := by omega
          obtain ⟨P, hB1, hB2, hB3, hB4, hB5, hB6, hB7, hB8, hB9, hB10, hB11⟩ :=
            ih e.1 st.1 st.2 h2 he1V hf0 hstcnt
              (by rw [h1]; exact h6) (by rw [h1]; exact h7)
              (by rw [h1]; exact h8) (by rw [h1]; exact h9)
          have happ : P ++ st.2 = (P ++ Q) ++ stk := by
            rw [h1, ← List.append_assoc]
          obtain ⟨Q', hC1, hC2, hC3, hC4, hC5, hC6, hC7, hC8, hC9, hC10, hC11⟩ :=
            ihl (fun e' he' => hl e' (by simp [he']))
              (dfsFillOrder g fuel e.1 st.1 st.2) (P ++ Q)
              (by rw [hB1, happ])
              hB2
              (fun v hv => hB3 v (h3 v hv))
              (by
                intro w
                constructor
                · intro hw
                  rcases List.mem_append.mp hw with hw' | hw'
                  · obtain ⟨hw1, hw2⟩ := (hB4 w).mp hw'
                    exact ⟨hw1, fun hc => hw2 (h3 w hc)⟩
                  · obtain ⟨hw1, hw2⟩ := (h4 w).mp hw'
                    exact ⟨hB3 w hw1, hw2⟩
                · intro ⟨hw1, hw2⟩
                  by_cases hst : visSet st.1 w
                  · exact List.mem_append.mpr (Or.inr ((h4 w).mpr ⟨hst, hw2⟩))
                  · exact List.mem_append.mpr (Or.inl ((hB4 w).mpr ⟨hw1, hst⟩)))
              (by
                intro w hw
                rcases List.mem_append.mp hw with hw' | hw'
                · obtain ⟨hr, hb⟩ := hB6 w hw'
                  exact ⟨reachW_trans (reachW_edge heu) hr, hb⟩
                · exact h5 w hw')
              (by
                intro x hx
                refine hB7 x ?_
                rw [happ]
                exact hx)
              (by
                intro x hx
                refine hB8 x ?_
                rw [happ]
                exact hx)
              (by rw [← happ]; exact hB9)
              (by rw [← happ]; exact hB10)
              (by
                simp only [List.length_append]
                omega)
          refine ⟨Q', hC1, hC2, fun v hv => hC3 v (hB3 v hv), hC4, hC5, hC6, hC7,
            hC8, hC9, hC10, ?_⟩
          intro e2 he2
          rcases List.mem_cons.mp he2 with rfl | he2'
          · refine hC3 e2.1 ?_
            refine hB8 e2.1 ?_
            exact List.mem_append.mpr (Or.inl hB5)
          · exact hC11 e2 he2'
    obtain ⟨Qf, hD1, hD2, hD3, hD4, hD5, hD6, hD7, hD8, hD9, hD10, hD11⟩ :=
      hfold (g.adj u) (fun e he => he) (vis.set u true, stk) []
        (by simp)
        (by simp [hlen])
        (fun v hv => hv)
        (by
          intro w
          constructor
          · intro hw
            cases hw
          · intro hw
            exact absurd hw.1 hw.2)
        (by intro w hw; cases hw)
        (by
          intro x hx e he
          simp only [List.nil_append] at hx
          exact visSet_mono_set u (H5 x hx e he))
        (by
          intro x hx
          simp only [List.nil_append] at hx
          exact visSet_mono_set u (H6 x hx))
        (by simpa using H7)
        (by simpa using H8)
        (by simp)
    rw [heq]
    have hvu1 : visSet (vis.set u true) u := visSet_set_self hulen
    have hsu : visSet ((g.adj u).foldl
        (fun st e => if st.1.getD e.1 false then st
          else dfsFillOrder g fuel e.1 st.1 st.2)
        (vis.set u true, stk)).1 u := hD3 u hvu1
    have hunotQf : u ∉ Qf := by
      intro hc
      exact ((hD4 u).mp hc).2 hvu1
    refine ⟨u :: Qf, ?_, hD2, ?_, ?_, by simp, ?_, ?_, ?_, ?_, ?_, ?_⟩
    · show u :: ((g.adj u).foldl
        (fun st e => if st.1.getD e.1 false then st
          else dfsFillOrder g fuel e.1 st.1 st.2)
        (vis.set u true, stk)).2 = (u :: Qf) ++ stk
      rw [hD1, List.cons_append]
    · intro v hv
      exact hD3 v (visSet_mono_set u hv)
    · intro w
      constructor
      · intro hw
        rcases List.mem_cons.mp hw with rfl | hw'
        · exact ⟨hsu, hnvu⟩
        · obtain ⟨hw1, hw2⟩ := (hD4 w).mp hw'
          exact ⟨hw1, fun hc => hw2 (visSet_mono_set u hc)⟩
      · intro ⟨hw1, hw2⟩
        by_cases hwu : w = u
        · simp [hwu]
        · refine List.mem_cons.mpr (Or.inr ((hD4 w).mpr ⟨hw1, ?_⟩))
          rw [visSet_set_ne (fun hc => hwu hc.symm)]
          exact hw2
    · intro w hw
      rcases List.mem_cons.mp hw with rfl | hw'
      · exact ⟨reachW_refl g w, huV⟩
      · exact hD5 w hw'
    · intro x hx e he
      rw [List.cons_append] at hx
      rcases List.mem_cons.mp hx with rfl | hx'
      · exact hD11 e he
      · exact hD6 x hx' e he
    · intro x hx
      rw [List.cons_append] at hx
      rcases List.mem_cons.mp hx with rfl | hx'
      · exact hsu
      · exact hD7 x hx'
    · rw [List.cons_append]
      refine List.nodup_cons.mpr ⟨?_, hD8⟩
      intro hc
      rcases List.mem_append.mp hc with hc' | hc'
      · exact hunotQf hc'
      · exact hnvu (H6 u hc')
    · -- Wstack for the new stack
      intro S1 r S2 hsplit v hv hpath
      rw [List.cons_append] at hsplit
      cases S1 with
      | cons a S1' =>
        rw [List.cons_append] at hsplit
        injection hsplit with hau hrest
        exact hD9 S1' r S2 hrest v hv hpath
      | nil =>
        rw [List.nil_append] at hsplit
        injection hsplit with hru hS2
        subst hru
        subst hS2
        have hblock : ∀ x, Relation.ReflTransGen
            (StepIn g (fun y => y ∈ u :: (Qf ++ stk))) x u →
            x ∈ u :: (Qf ++ stk) → x ∈ u :: Qf := by
          intro x hp
          induction hp using Relation.ReflTransGen.head_induction_on with
          | refl => intro _; simp
          | head hstep htail ihp =>
            intro hxa
            have hbP := ihp hstep.2
            rcases List.mem_cons.mp hxa with rfl | hxa'
            · simp
            · rcases List.mem_append.mp hxa' with hxa2 | hxa2
              · exact List.mem_cons.mpr (Or.inr hxa2)
              · exfalso
                obtain ⟨w2, hw2⟩ := hstep.1
                have hvb := H5 _ hxa2 _ hw2
                rcases List.mem_cons.mp hbP with hbu | hbQf
                · rw [hbu] at hvb
                  exact hnvu hvb
                · exact ((hD4 _).mp hbQf).2 (visSet_mono_set u hvb)
        have hvP : v ∈ u :: Qf := hblock v hpath hv
        rcases List.mem_cons.mp hvP with rfl | hvQf
        · exact reachW_refl g v
        · exact (hD5 v hvQf).1
    · show ((g.adj u).foldl
        (fun st e => if st.1.getD e.1 false then st
          else dfsFillOrder g fuel e.1 st.1 st.2)
        (vis.set u true, stk)).1.countP (fun b => !b) + (u :: Qf).length
        = vis.countP (fun b => !b)
      simp only [List.length_cons]
      omega

theorem visSet_lt {vis : List Bool} {x : Nat} (h : visSet vis x) : x < vis.length := by
  by_contra hc
  push_neg at hc
  unfold visSet at h
  rw [List.getD_eq_default _ _ hc] at h
  cases h

theorem visSet_replicate (n x : Nat) : ¬ visSet (List.replicate n false) x := by
  intro h
  have hlt := visSet_lt h
  unfold visSet at h
  rw [List.getD_eq_getElem _ _ hlt, List.getElem_replicate] at h
  cases h

theorem fillOrderAll_spec (g : Graph)
    (htgt : ∀ u, u < g.V → ∀ e ∈ g.adj u, e.1 < g.V) :
    (fillOrderAll g).2.Nodup ∧
    (∀ v, v ∈ (fillOrderAll g).2 ↔ v < g.V) ∧
    Wstack g (fillOrderAll g).2 := by
  have hmain : ∀ (L : List Nat), (∀ i ∈ L, i < g.V) →
      ∀ (st : List Bool × List Nat),
      st.1.length = g.V →
      (∀ x, x ∈ st.2 ↔ visSet st.1 x) →
      st.2.Nodup →
      Wstack g st.2 →
      (∀ x ∈ st.2, ∀ e ∈ g.adj x, visSet st.1 e.1) →
      (L.foldl (fun st i => if st.1.getD i false then st
        else dfsFillOrder g g.V i st.1 st.2) st).1.length = g.V ∧
      (∀ x, x ∈ (L.foldl (fun st i => if st.1.getD i false then st
        else dfsFillOrder g g.V i st.1 st.2) st).2 ↔
        visSet (L.foldl (fun st i => if st.1.getD i false then st
          else dfsFillOrder g g.V i st.1 st.2) st).1 x) ∧
      (L.foldl (fun st i => if st.1.getD i false then st
        else dfsFillOrder g g.V i st.1 st.2) st).2.Nodup ∧
      Wstack g (L.foldl (fun st i => if st.1.getD i false then st
        else dfsFillOrder g g.V i st.1 st.2) st).2 ∧
      (∀ x ∈ (L.foldl (fun st i => if st.1.getD i false then st
        else dfsFillOrder g g.V i st.1 st.2) st).2, ∀ e ∈ g.adj x,
        visSet (L.foldl (fun st i => if st.1.getD i false then st
          else dfsFillOrder g g.V i st.1 st.2) st).1 e.1) ∧
      (∀ v, visSet st.1 v → visSet (L.foldl (fun st i => if st.1.getD i false then st
        else dfsFillOrder g g.V i st.1 st.2) st).1 v) ∧
      (∀ i ∈ L, visSet (L.foldl (fun st i => if st.1.getD i false then st
        else dfsFillOrder g g.V i st.1 st.2) st).1 i) := by
    intro L
    induction L with
    | nil =>
      intro _ st h1 h2 h3 h4 h5
      exact ⟨h1, h2, h3, h4, h5, fun v hv => hv, by intro i hi; cases hi⟩
    | cons i L' ihL =>
      intro hL st h1 h2 h3 h4 h5
      have hiV : i < g.V := hL i (by simp)
      rw [List.foldl_cons]
      by_cases hvis : st.1.getD i false = true
      · have hstep : (if st.1.getD i false then st
            else dfsFillOrder g g.V i st.1 st.2) = st := by
          rw [if_pos hvis]
        rw [hstep]
        obtain ⟨hA1, hA2, hA3, hA4, hA5, hA6, hA7⟩ :=
          ihL (fun j hj => hL j (by simp [hj])) st h1 h2 h3 h4 h5
        refine ⟨hA1, hA2, hA3, hA4, hA5, hA6, ?_⟩
        intro j hj
        rcases List.mem_cons.mp hj with rfl | hj'
        · exact hA6 j hvis
        · exact hA7 j hj'
      · have hf0 : st.1.getD i false = false := by
          cases hx : st.1.getD i false
          · rfl
          · exact absurd hx hvis
        have hstep : (if st.1.getD i false then st
            else dfsFillOrder g g.V i st.1 st.2) = dfsFillOrder g g.V i st.1 st.2 := by
          rw [if_neg hvis]
        rw [hstep]
        have hcnt : st.1.countP (fun b => !b) ≤ g.V := by
          have hcl : st.1.countP (fun b => !b) ≤ st.1.length :=
            List.countP_le_length _
          omega
        obtain ⟨P, hB1, hB2, hB3, hB4, hB5, hB6, hB7, hB8, hB9, hB10, hB11⟩ :=
          dfsFillOrder_spec g htgt g.V i st.1 st.2 h1 hiV hf0 hcnt
            h5 (fun x hx => (h2 x).mp hx) h3 h4
        obtain ⟨hA1, hA2, hA3, hA4, hA5, hA6, hA7⟩ :=
          ihL (fun j hj => hL j (by simp [hj])) (dfsFillOrder g g.V i st.1 st.2)
            hB2
            (by
              intro x
              rw [hB1]
              constructor
              · intro hx
                rcases List.mem_append.mp hx with hx' | hx'
                · exact ((hB4 x).mp hx').1
                · exact hB3 x ((h2 x).mp hx')
              · intro hx
                by_cases hst : visSet st.1 x
                · exact List.mem_append.mpr (Or.inr ((h2 x).mpr hst))
                · exact List.mem_append.mpr (Or.inl ((hB4 x).mpr ⟨hx, hst⟩)))
            (by rw [hB1]; exact hB9)
            (by rw [hB1]; exact hB10)
            (by rw [hB1]; exact hB7)
        refine ⟨hA1, hA2, hA3, hA4, hA5, fun v hv => hA6 v (hB3 v hv), ?_⟩
        intro j hj
        rcases List.mem_cons.mp hj with rfl | hj'
        · refine hA6 j (hB8 j ?_)
          exact List.mem_append.mpr (Or.inl hB5)
        · exact hA7 j hj'
  obtain ⟨h1, h2, h3, h4, h5, h6, h7⟩ := hmain (List.range g.V)
    (fun i hi => List.mem_range.mp hi)
    (List.replicate g.V false, [])
    (by simp)
    (by
      intro x
      constructor
      · intro hx
        cases hx
      · intro hx
        exact absurd hx (visSet_replicate g.V x))
    List.nodup_nil
    (wstack_nil g)
    (by intro x hx; cases hx)
  refine ⟨h3, ?_, h4⟩
  intro v
  constructor
  · intro hv
    have := (h2 v).mp hv
    have hlt := visSet_lt this
    omega
  · intro hv
    exact (h2 v).mpr (h7 v (List.mem_range.mpr hv))

theorem transpose_adj_mem (g : Graph)
    (htgt : ∀ u, u < g.V → ∀ e ∈ g.adj u, e.1 < g.V)
    (a b : Nat) (w : Int) (ha : a < g.V) (hb : b < g.V) :
    (b, w) ∈ g.getTranspose.adj a ↔ (a, w) ∈ g.adj b := by
  have hperm := edges_transpose_perm g htgt
  constructor
  · intro h
    have hedge : (a, b, w) ∈ g.getTranspose.edges :=
      mem_edges_of g.getTranspose a (b, w) (by rw [getTranspose_V]; exact ha) h
    have h2 : (a, b, w) ∈ (g.edges).map swapT := hperm.subset hedge
    obtain ⟨t, ht, hteq⟩ := List.mem_map.mp h2
    have h3 : t = (b, a, w) := by
      obtain ⟨t1, t2, t3⟩ := t
      unfold swapT at hteq
      simp only [Prod.mk.injEq] at hteq ⊢
      exact ⟨hteq.2.1, hteq.1, hteq.2.2⟩
    rw [h3] at ht
    exact (mem_edges ht).2
  · intro h
    have hedge : (b, a, w) ∈ g.edges := mem_edges_of g b (a, w) hb h
    have h2 : (a, b, w) ∈ (g.edges).map swapT :=
      List.mem_map.mpr ⟨(b, a, w), hedge, rfl⟩
    have h3 : (a, b, w) ∈ g.getTranspose.edges := hperm.symm.subset h2
    exact (mem_edges h3).2

theorem transpose_walk (g : Graph)
    (htgt : ∀ u, u < g.V → ∀ e ∈ g.adj u, e.1 < g.V) :
    ∀ (l : List (Nat × Int)) (a b : Nat), a < g.V →
    isWalk g.getTranspose a l b →
    ∃ l', isWalk g b l' a ∧ (∀ x, x ∈ wvs b l' ↔ x ∈ wvs a l) := by
  intro l
  induction l with
  | nil =>
    intro a b _ h
    have hab : a = b := h
    subst hab
    exact ⟨[], rfl, fun x => Iff.rfl⟩
  | cons e rest ih =>
    intro a b ha h
    have h' : e ∈ g.getTranspose.adj a ∧ isWalk g.getTranspose e.1 rest b := h
    have he1V : e.1 < g.V := by
      have := getTranspose_targets g htgt a (by rw [getTranspose_V]; exact ha) e h'.1
      rw [getTranspose_V] at this
      exact this
    obtain ⟨l'', hw'', hiff⟩ := ih e.1 b he1V h'.2
    have hadjmem : (a, e.2) ∈ g.adj e.1 := by
      refine (transpose_adj_mem g htgt a e.1 e.2 ha he1V).mp ?_
      exact h'.1
    refine ⟨l'' ++ [(a, e.2)], isWalk_append l'' b e.1 a [(a, e.2)] hw'' ⟨hadjmem, rfl⟩, ?_⟩
    intro x
    have h1 := hiff x
    simp only [wvs, List.map_append, List.map_cons, List.map_nil, List.mem_cons,
      List.mem_append] at h1 ⊢
    tauto

theorem walk_end_mem_wvs {g : Graph} :
    ∀ (l : List (Nat × Int)) (u v : Nat), isWalk g u l v → v ∈ wvs u l := by
  intro l
  induction l with
  | nil =>
    intro u v h
    have huv : u = v := h
    subst huv
    simp [wvs]
  | cons e rest ih =>
    intro u v h
    have h' : e ∈ g.adj u ∧ isWalk g e.1 rest v := h
    have := ih e.1 v h'.2
    simp only [wvs, List.map_cons, List.mem_cons] at this ⊢
    tauto

theorem reachW_lt (g : Graph) (hadjlen : g.adjList.length = g.V)
    (htgt : ∀ u, u < g.V → ∀ e ∈ g.adj u, e.1 < g.V)
    {u v : Nat} (hu : u < g.V) (h : ReachW g u v) : v < g.V := by
  obtain ⟨l, hl⟩ := h
  exact wvs_lt g hadjlen htgt l u v hu hl v (walk_end_mem_wvs l u v hl)

theorem scc_internal_walk (g : Graph) {r v : Nat}
    (h : ReachW g v r) :
    ∃ l, isWalk g v l r ∧ ∀ x ∈ wvs v l, ReachW g v x ∧ ReachW g x r := by
  obtain ⟨l, hl⟩ := h
  refine ⟨l, hl, ?_⟩
  intro x hx
  obtain ⟨i, hi, hxi⟩ := List.mem_iff_getElem.mp hx
  have hwlen : (wvs v l).length = l.length + 1 := by simp [wvs]
  have hile : i ≤ l.length := by omega
  obtain ⟨hw1, hw2⟩ := walk_split g l i v r hile hl
  have hgd : (wvs v l).getD i 0 = x := by
    rw [List.getD_eq_getElem _ _ hi]
    exact hxi
  rw [hgd] at hw1 hw2
  exact ⟨⟨l.take i, hw1⟩, ⟨l.drop i, hw2⟩⟩

theorem getNeighbors_lt (t : Graph) (x : Nat) (hx : x < t.V) :
    t.getNeighbors x = (t.adj x).map (·.1) := by
  unfold Graph.getNeighbors
  rw [if_neg (by omega)]

theorem dfsCollect_spec (t : Graph)
    (htgtT : ∀ u, u < t.V → ∀ e ∈ t.adj u, e.1 < t.V) :
    ∀ (fuel : Nat) (u : Nat) (vis : List Bool) (comp : List Nat),
    vis.length = t.V → u < t.V → vis.getD u false = false →
    vis.countP (fun b => !b) ≤ fuel →
    ∃ Q,
      (dfsCollect t fuel u vis comp).2 = comp ++ Q ∧
      (dfsCollect t fuel u vis comp).1.length = t.V ∧
      (∀ v, visSet vis v → visSet (dfsCollect t fuel u vis comp).1 v) ∧
      (∀ w, w ∈ Q ↔ visSet (dfsCollect t fuel u vis comp).1 w ∧ ¬ visSet vis w) ∧
      u ∈ Q ∧
      Q.Nodup ∧
      (∀ w ∈ Q, w < t.V ∧ ∃ lw, isWalk t u lw w ∧ ∀ x ∈ wvs u lw, ¬ visSet vis x) ∧
      (∀ x ∈ Q, ∀ e ∈ t.adj x, visSet (dfsCollect t fuel u vis comp).1 e.1) ∧
      (dfsCollect t fuel u vis comp).1.countP (fun b => !b) + Q.length
        = vis.countP (fun b => !b) := by
  intro fuel
  induction fuel with
  | zero =>
    intro u vis comp hlen huV hu0 hcnt
    exfalso
    have hpos := count_false_pos (by omega : u < vis.length) hu0
    omega
  | succ fuel ih =>
    intro u vis comp hlen huV hu0 hcnt
    have hulen : u < vis.length := by omega
    have hcnt1 : (vis.set u true).countP (fun b => !b) + 1 = vis.countP (fun b => !b) :=
      count_false_set vis u hulen hu0
    have hnvu : ¬ visSet vis u := by
      unfold visSet
      rw [hu0]
      simp
    have heq : dfsCollect t (fuel + 1) u vis comp
        = (t.getNeighbors u).foldl
            (fun st v => if st.1.getD v false then st
              else dfsCollect t fuel v st.1 st.2)
            (vis.set u true, comp ++ [u]) := rfl
    have hfold : ∀ (l : List Nat), (∀ v ∈ l, v ∈ t.getNeighbors u) →
        ∀ (st : List Bool × List Nat) (Q : List Nat),
        st.2 = (comp ++ [u]) ++ Q →
        st.1.length = t.V →
        (∀ v, visSet (vis.set u true) v → visSet st.1 v) →
        (∀ w, w ∈ Q ↔ visSet st.1 w ∧ ¬ visSet (vis.set u true) w) →
        Q.Nodup →
        (∀ w ∈ Q, w < t.V ∧ ∃ lw, isWalk t u lw w ∧ ∀ x ∈ wvs u lw, ¬ visSet vis x) →
        (∀ x ∈ Q, ∀ e ∈ t.adj x, visSet st.1 e.1) →
        st.1.countP (fun b => !b) + Q.length = (vis.set u true).countP (fun b => !b) →
        ∃ Q',
          (l.foldl (fun st v => if st.1.getD v false then st
            else dfsCollect t fuel v st.1 st.2) st).2 = (comp ++ [u]) ++ Q' ∧
          (l.foldl (fun st v => if st.1.getD v false then st
            else dfsCollect t fuel v st.1 st.2) st).1.length = t.V ∧
          (∀ v, visSet st.1 v → visSet (l.foldl (fun st v => if st.1.getD v false then st
            else dfsCollect t fuel v st.1 st.2) st).1 v) ∧
          (∀ w, w ∈ Q' ↔ visSet (l.foldl (fun st v => if st.1.getD v false then st
            else dfsCollect t fuel v st.1 st.2) st).1 w ∧ ¬ visSet (vis.set u true) w) ∧
          Q'.Nodup ∧
          (∀ w ∈ Q', w < t.V ∧ ∃ lw, isWalk t u lw w ∧ ∀ x ∈ wvs u lw, ¬ visSet vis x) ∧
          (∀ x ∈ Q', ∀ e ∈ t.adj x, visSet (l.foldl (fun st v => if st.1.getD v false then st
            else dfsCollect t fuel v st.1 st.2) st).1 e.1) ∧
          (l.foldl (fun st v => if st.1.getD v false then st
            else dfsCollect t fuel v st.1 st.2) st).1.countP (fun b => !b) + Q'.length
            = (vis.set u true).countP (fun b => !b) ∧
          (∀ v ∈ l, visSet (l.foldl (fun st v => if st.1.getD v false then st
            else dfsCollect t fuel v st.1 st.2) st).1 v) := by
      intro l
      induction l with
      | nil =>
        intro _ st Q h1 h2 h3 h4 h5 h6 h7 h8
        exact ⟨Q, h1, h2, fun v hv => hv, h4, h5, h6, h7, h8,
          by intro v hv; cases hv⟩
      | cons v' l' ihl =>
        intro hl st Q h1 h2 h3 h4 h5 h6 h7 h8
        have hv'N : v' ∈ t.getNeighbors u := hl v' (by simp)
        have hv'V : v' < t.V := by
          rw [getNeighbors_lt t u huV] at hv'N
          obtain ⟨e, he, heq'⟩ := List.mem_map.mp hv'N
          rw [← heq']
          exact htgtT u huV e he
        obtain ⟨e0, he0, he0eq⟩ := by
          rw [getNeighbors_lt t u huV] at hv'N
          exact List.mem_map.mp hv'N
        rw [List.foldl_cons]
        by_cases hvis : st.1.getD v' false = true
        · have hstep : (if st.1.getD v' false then st
              else dfsCollect t fuel v' st.1 st.2) = st := by
            rw [if_pos hvis]
          rw [hstep]
          obtain ⟨Q', hA1, hA2, hA3, hA4, hA5, hA6, hA7, hA8, hA9⟩ :=
            ihl (fun w hw => hl w (by simp [hw])) st Q h1 h2 h3 h4 h5 h6 h7 h8
          refine ⟨Q', hA1, hA2, hA3, hA4, hA5, hA6, hA7, hA8, ?_⟩
          intro w hw
          rcases List.mem_cons.mp hw with rfl | hw'
          · exact hA3 w hvis
          · exact hA9 w hw'
        · have hf0 : st.1.getD v' false = false := by
            cases hx : st.1.getD v' false
            · rfl
            · exact absurd hx hvis
          have hstep : (if st.1.getD v' false then st
              else dfsCollect t fuel v' st.1 st.2)
              = dfsCollect t fuel v' st.1 st.2 := by
            rw [if_neg hvis]
          rw [hstep]
          have hstcnt : st.1.countP (fun b => !b) ≤ fuel := by omega
          obtain ⟨P, hB1, hB2, hB3, hB4, hB5, hB6, hB7, hB8, hB9⟩ :=
            ih v' st.1 st.2 h2 hv'V hf0 hstcnt
          have happ : st.2 ++ P = (comp ++ [u]) ++ (Q ++ P) := by
            rw [h1, List.append_assoc]
          obtain ⟨Q', hC1, hC2, hC3, hC4, hC5, hC6, hC7, hC8, hC9⟩ :=
            ihl (fun w hw => hl w (by simp [hw]))
              (dfsCollect t fuel v' st.1 st.2) (Q ++ P)
              (by rw [hB1, happ])
              hB2
              (fun v hv => hB3 v (h3 v hv))
              (by
                intro w
                constructor
                · intro hw
                  rcases List.mem_append.mp hw with hw' | hw'
                  · obtain ⟨hw1, hw2⟩ := (h4 w).mp hw'
                    exact ⟨hB3 w hw1, hw2⟩
                  · obtain ⟨hw1, hw2⟩ := (hB4 w).mp hw'
                    exact ⟨hw1, fun hc => hw2 (h3 w hc)⟩
                · intro ⟨hw1, hw2⟩
                  by_cases hst : visSet st.1 w
                  · exact List.mem_append.mpr (Or.inl ((h4 w).mpr ⟨hst, hw2⟩))
                  · exact List.mem_append.mpr (Or.inr ((hB4 w).mpr ⟨hw1, hst⟩)))
              (by
                rw [List.nodup_append]
                refine ⟨h5, hB6, ?_⟩
                intro w hwQ hwP
                have h1' := (h4 w).mp hwQ
                have h2' := (hB4 w).mp hwP
                exact h2'.2 (h1'.1))
              (by
                intro w hw
                rcases List.mem_append.mp hw with hw' | hw'
                · exact h6 w hw'
                · obtain ⟨hwV, lw, hlw, havoid⟩ := hB7 w hw'
                  refine ⟨hwV, e0 :: lw, ?_, ?_⟩
                  · show e0 ∈ t.adj u ∧ isWalk t e0.1 lw w
                    rw [he0eq]
                    exact ⟨he0, hlw⟩
                  · intro x hx
                    simp only [wvs, List.map_cons, List.mem_cons] at hx
                    rcases hx with rfl | hx'
                    · exact hnvu
                    · rw [he0eq] at hx'
                      have havx := havoid x (by
                        simp only [wvs, List.mem_cons]
                        exact hx')
                      intro hc
                      exact havx (h3 x (visSet_mono_set u hc)))
              (by
                intro x hx e he
                rcases List.mem_append.mp hx with hx' | hx'
                · exact hB3 e.1 (h7 x hx' e he)
                · exact hB8 x hx' e he)
              (by
                simp only [List.length_append]
                omega)
          refine ⟨Q', hC1, hC2, fun v hv => hC3 v (hB3 v hv), hC4, hC5, hC6, hC7,
            hC8, ?_⟩
          intro w hw
          rcases List.mem_cons.mp hw with rfl | hw'
          · refine hC3 w ?_
            exact ((hB4 w).mp hB5).1
          · exact hC9 w hw'
    obtain ⟨Qf, hD1, hD2, hD3, hD4, hD5, hD6, hD7, hD8, hD9⟩ :=
      hfold (t.getNeighbors u) (fun v hv => hv) (vis.set u true, comp ++ [u]) []
        (by simp)
        (by simp [hlen])
        (fun v hv => hv)
        (by
          intro w
          constructor
          · intro hw
            cases hw
          · intro hw
            exact absurd hw.1 hw.2)
        List.nodup_nil
        (by intro w hw; cases hw)
        (by intro x hx; cases hx)
        (by simp)
    rw [heq]
    have hvu1 : visSet (vis.set u true) u := visSet_set_self hulen
    have hsu : visSet ((t.getNeighbors u).foldl
        (fun st v => if st.1.getD v false then st
          else dfsCollect t fuel v st.1 st.2)
        (vis.set u true, comp ++ [u])).1 u := hD3 u hvu1
    have hunotQf : u ∉ Qf := by
      intro hc
      exact ((hD4 u).mp hc).2 hvu1
    refine ⟨u :: Qf, ?_, hD2, ?_, ?_, by simp, ?_, ?_, ?_, ?_⟩
    · rw [hD1, List.append_assoc]
      rfl
    · intro v hv
      exact hD3 v (visSet_mono_set u hv)
    · intro w
      constructor
      · intro hw
        rcases List.mem_cons.mp hw with rfl | hw'
        · exact ⟨hsu, hnvu⟩
        · obtain ⟨hw1, hw2⟩ := (hD4 w).mp hw'
          exact ⟨hw1, fun hc => hw2 (visSet_mono_set u hc)⟩
      · intro ⟨hw1, hw2⟩
        by_cases hwu : w = u
        · simp [hwu]
        · refine List.mem_cons.mpr (Or.inr ((hD4 w).mpr ⟨hw1, ?_⟩))
          rw [visSet_set_ne (fun hc => hwu hc.symm)]
          exact hw2
    · exact List.nodup_cons.mpr ⟨hunotQf, hD5⟩
    · intro w hw
      rcases List.mem_cons.mp hw with rfl | hw'
      · refine ⟨huV, [], rfl, ?_⟩
        intro x hx
        have hxu : x = w := by simpa [wvs] using hx
        rw [hxu]
        exact hnvu
      · exact hD6 w hw'
    · intro x hx e he
      rcases List.mem_cons.mp hx with rfl | hx'
      · refine hD9 e.1 ?_
        rw [getNeighbors_lt t x huV]
        exact List.mem_map.mpr ⟨e, he, rfl⟩
      · exact hD7 x hx' e he
    · show ((t.getNeighbors u).foldl
        (fun st v => if st.1.getD v false then st
          else dfsCollect t fuel v st.1 st.2)
        (vis.set u true, comp ++ [u])).1.countP (fun b => !b) + (u :: Qf).length
        = vis.countP (fun b => !b)
      simp only [List.length_cons]
      omega

theorem walk_to_transpose (g : Graph)
    (htgt : ∀ u, u < g.V → ∀ e ∈ g.adj u, e.1 < g.V) :
    ∀ (l : List (Nat × Int)) (a b : Nat), a < g.V →
    isWalk g a l b →
    ∃ l', isWalk g.getTranspose b l' a ∧ (∀ x, x ∈ wvs b l' ↔ x ∈ wvs a l) := by
  intro l
  induction l with
  | nil =>
    intro a b _ h
    have hab : a = b := h
    subst hab
    exact ⟨[], rfl, fun x => Iff.rfl⟩
  | cons e rest ih =>
    intro a b ha h
    have h' : e ∈ g.adj a ∧ isWalk g e.1 rest b := h
    have he1V : e.1 < g.V := htgt a ha e h'.1
    obtain ⟨l'', hw'', hiff⟩ := ih e.1 b he1V h'.2
    have hadjmem : (a, e.2) ∈ g.getTranspose.adj e.1 := by
      refine (transpose_adj_mem g htgt e.1 a e.2 he1V ha).mpr ?_
      exact h'.1
    refine ⟨l'' ++ [(a, e.2)],
      isWalk_append l'' b e.1 a [(a, e.2)] hw'' ⟨hadjmem, rfl⟩, ?_⟩
    intro x
    have h1 := hiff x
    simp only [wvs, List.map_append, List.map_cons, List.map_nil, List.mem_cons,
      List.mem_append] at h1 ⊢
    tauto

theorem collect_complete (t : Graph) (vis vis' : List Bool) (Q : List Nat)
    (hiff : ∀ w, w ∈ Q ↔ visSet vis' w ∧ ¬ visSet vis w)
    (hnb : ∀ x ∈ Q, ∀ e ∈ t.adj x, visSet vis' e.1) :
    ∀ (l : List (Nat × Int)) (u : Nat), u ∈ Q → ∀ (w : Nat), isWalk t u l w →
    (∀ x ∈ wvs u l, ¬ visSet vis x) → w ∈ Q := by
  intro l
  induction l with
  | nil =>
    intro u hu w h _
    have huw : u = w := h
    rw [← huw]
    exact hu
  | cons e rest ihw =>
    intro u hu w h havoid
    have h' : e ∈ t.adj u ∧ isWalk t e.1 rest w := h
    have hv1 : visSet vis' e.1 := hnb u hu e h'.1
    have hnv : ¬ visSet vis e.1 := havoid e.1 (by simp [wvs])
    have he1Q : e.1 ∈ Q := (hiff e.1).mpr ⟨hv1, hnv⟩
    refine ihw e.1 he1Q w h'.2 ?_
    intro x hx
    refine havoid x ?_
    simp only [wvs, List.map_cons, List.mem_cons] at hx ⊢
    tauto

theorem sameSCC_refl (g : Graph) (u : Nat) : SameSCC g u u :=
  ⟨reachW_refl g u, reachW_refl g u⟩

theorem sameSCC_symm {g : Graph} {u v : Nat} (h : SameSCC g u v) : SameSCC g v u :=
  ⟨h.2, h.1⟩

theorem sameSCC_trans {g : Graph} {u v w : Nat}
    (h1 : SameSCC g u v) (h2 : SameSCC g v w) : SameSCC g u w :=
  ⟨reachW_trans h1.1 h2.1, reachW_trans h2.2 h1.2⟩

theorem phase2_spec (g : Graph)
    (hadjlen : g.adjList.length = g.V)
    (htgt : ∀ u, u < g.V → ∀ e ∈ g.adj u, e.1 < g.V) :
    ∀ (S L1 : List Nat), (fillOrderAll g).2 = L1 ++ S →
    ∀ (acc : List Bool × List (List Nat)),
    acc.1.length = g.V →
    (∀ x ∈ L1, visSet acc.1 x) →
    (∀ v, visSet acc.1 v ↔ v ∈ acc.2.flatten) →
    acc.2.flatten.Nodup →
    (∀ c ∈ acc.2, ∃ r, r ∈ c ∧ r < g.V ∧ ∀ v, v ∈ c ↔ SameSCC g r v) →
    (S.foldl (fun acc u => if acc.1.getD u false then acc
      else ((dfsCollect g.getTranspose g.V u acc.1 []).1,
            acc.2 ++ [(dfsCollect g.getTranspose g.V u acc.1 []).2])) acc).1.length = g.V ∧
    (∀ v, visSet (S.foldl (fun acc u => if acc.1.getD u false then acc
      else ((dfsCollect g.getTranspose g.V u acc.1 []).1,
            acc.2 ++ [(dfsCollect g.getTranspose g.V u acc.1 []).2])) acc).1 v ↔
      v ∈ (S.foldl (fun acc u => if acc.1.getD u false then acc
        else ((dfsCollect g.getTranspose g.V u acc.1 []).1,
              acc.2 ++ [(dfsCollect g.getTranspose g.V u acc.1 []).2])) acc).2.flatten) ∧
    (S.foldl (fun acc u => if acc.1.getD u false then acc
      else ((dfsCollect g.getTranspose g.V u acc.1 []).1,
            acc.2 ++ [(dfsCollect g.getTranspose g.V u acc.1 []).2])) acc).2.flatten.Nodup ∧
    (∀ c ∈ (S.foldl (fun acc u => if acc.1.getD u false then acc
      else ((dfsCollect g.getTranspose g.V u acc.1 []).1,
            acc.2 ++ [(dfsCollect g.getTranspose g.V u acc.1 []).2])) acc).2,
      ∃ r, r ∈ c ∧ r < g.V ∧ ∀ v, v ∈ c ↔ SameSCC g r v) ∧
    (∀ v, visSet acc.1 v → visSet (S.foldl (fun acc u => if acc.1.getD u false then acc
      else ((dfsCollect g.getTranspose g.V u acc.1 []).1,
            acc.2 ++ [(dfsCollect g.getTranspose g.V u acc.1 []).2])) acc).1 v) ∧
    (∀ x ∈ S, visSet (S.foldl (fun acc u => if acc.1.getD u false then acc
      else ((dfsCollect g.getTranspose g.V u acc.1 []).1,
            acc.2 ++ [(dfsCollect g.getTranspose g.V u acc.1 []).2])) acc).1 x) := by
  obtain ⟨hLnd, hLmem, hWst⟩ := fillOrderAll_spec g htgt
  have hTV := getTranspose_V g
  have htgtT' := getTranspose_targets g htgt
  intro S
  induction S with
  | nil =>
    intro L1 _ acc h1 _ h2 h3 h4
    exact ⟨h1, h2, h3, h4, fun v hv => hv, by intro x hx; cases hx⟩
  | cons u S' ihS =>
    intro L1 hsplit acc hΦ1 hpre hΦ2 hΦ3 hΦ4
    rw [List.foldl_cons]
    by_cases hvis : acc.1.getD u false = true
    · have hstep : (if acc.1.getD u false then acc
          else ((dfsCollect g.getTranspose g.V u acc.1 []).1,
                acc.2 ++ [(dfsCollect g.getTranspose g.V u acc.1 []).2])) = acc := by
        rw [if_pos hvis]
      rw [hstep]
      have hsplit' : (fillOrderAll g).2 = (L1 ++ [u]) ++ S' := by
        rw [hsplit, List.append_assoc]
        rfl
      obtain ⟨hR1, hR2, hR3, hR4, hR5, hR6⟩ := ihS (L1 ++ [u]) hsplit' acc hΦ1
        (by
          intro x hx
          rcases List.mem_append.mp hx with hx' | hx'
          · exact hpre x hx'
          · have hxu : x = u := by simpa using hx'
            rw [hxu]
            exact hvis)
        hΦ2 hΦ3 hΦ4
      refine ⟨hR1, hR2, hR3, hR4, hR5, ?_⟩
      intro x hx
      rcases List.mem_cons.mp hx with rfl | hx'
      · exact hR5 x hvis
      · exact hR6 x hx'
    · have hf0 : acc.1.getD u false = false := by
        cases hx : acc.1.getD u false
        · rfl
        · exact absurd hx hvis
      have huL : u ∈ (fillOrderAll g).2 := by
        rw [hsplit]
        exact List.mem_append.mpr (Or.inr (by simp))
      have huV : u < g.V := (hLmem u).mp huL
      obtain ⟨Q, hE1, hE2, hE3, hE4, hE5, hE6, hE7, hE8, _⟩ :=
        dfsCollect_spec g.getTranspose htgtT' g.V u acc.1 []
          (by rw [hTV]; exact hΦ1) (by rw [hTV]; exact huV) hf0
          (by
            have hc : acc.1.countP (fun b => !b) ≤ acc.1.length :=
              List.countP_le_length _
            omega)
      rw [List.nil_append] at hE1
      have hK1 : ∀ w ∈ Q, SameSCC g u w := by
        intro w hw
        obtain ⟨hwV, lw, hlw, havoid⟩ := hE7 w hw
        have hwV' : w < g.V := by rw [← hTV]; exact hwV
        obtain ⟨l', hl', hiffv⟩ := transpose_walk g htgt lw u w huV hlw
        have hback : ReachW g w u := ⟨l', hl'⟩
        have hvin : ∀ x ∈ wvs w l', x ∈ u :: S' := by
          intro x hx
          have hx2 : x ∈ wvs u lw := (hiffv x).mp hx
          have hnx : ¬ visSet acc.1 x := havoid x hx2
          have hxV : x < g.V := wvs_lt g hadjlen htgt l' w u hwV' hl' x hx
          have hxL : x ∈ (fillOrderAll g).2 := (hLmem x).mpr hxV
          rw [hsplit] at hxL
          rcases List.mem_append.mp hxL with hxL1 | hxL2
          · exact absurd (hpre x hxL1) hnx
          · exact hxL2
        have hrtg := isWalk_stepIn (fun y => y ∈ u :: S') l' w u hl' hvin
        have hfwd : ReachW g u w := hWst L1 u S' hsplit w
          (hvin w (by simp [wvs])) hrtg
        exact ⟨hfwd, hback⟩
      have hSCCavoid : ∀ x, SameSCC g u x → ¬ visSet acc.1 x := by
        intro x hscc hvx
        have hxflat : x ∈ acc.2.flatten := (hΦ2 x).mp hvx
        obtain ⟨c, hc, hxc⟩ := List.mem_flatten.mp hxflat
        obtain ⟨r, hrc, hrV, hciff⟩ := hΦ4 c hc
        have hrx : SameSCC g r x := (hciff x).mp hxc
        have hru : SameSCC g r u := sameSCC_trans hrx (sameSCC_symm hscc)
        have huc : u ∈ c := (hciff u).mpr hru
        have huflat : u ∈ acc.2.flatten := List.mem_flatten.mpr ⟨c, hc, huc⟩
        have hvu := (hΦ2 u).mpr huflat
        unfold visSet at hvu
        rw [hf0] at hvu
        cases hvu
      have hK2 : ∀ w, SameSCC g u w → w ∈ Q := by
        intro w hscc
        have hwV : w < g.V := reachW_lt g hadjlen htgt huV hscc.1
        obtain ⟨l, hl, hallx⟩ := scc_internal_walk g hscc.2
        have hva : ∀ x ∈ wvs w l, ¬ visSet acc.1 x := by
          intro x hx
          obtain ⟨hwx, hxu⟩ := hallx x hx
          exact hSCCavoid x ⟨reachW_trans hscc.1 hwx, hxu⟩
        obtain ⟨l', hl', hiffv⟩ := walk_to_transpose g htgt l w u hwV hl
        have hva' : ∀ x ∈ wvs u l', ¬ visSet acc.1 x := by
          intro x hx
          exact hva x ((hiffv x).mp hx)
        exact collect_complete g.getTranspose acc.1
          (dfsCollect g.getTranspose g.V u acc.1 []).1 Q hE4 hE8 l' u hE5 w hl' hva'
      have hiffQ : ∀ w, w ∈ Q ↔ SameSCC g u w := fun w => ⟨hK1 w, hK2 w⟩
      have hstep : (if acc.1.getD u false then acc
          else ((dfsCollect g.getTranspose g.V u acc.1 []).1,
                acc.2 ++ [(dfsCollect g.getTranspose g.V u acc.1 []).2]))
          = ((dfsCollect g.getTranspose g.V u acc.1 []).1,
             acc.2 ++ [(dfsCollect g.getTranspose g.V u acc.1 []).2]) := by
        rw [if_neg hvis]
      rw [hstep, hE1]
      have hsplit' : (fillOrderAll g).2 = (L1 ++ [u]) ++ S' := by
        rw [hsplit, List.append_assoc]
        rfl
      obtain ⟨hR1, hR2, hR3, hR4, hR5, hR6⟩ := ihS (L1 ++ [u]) hsplit'
        ((dfsCollect g.getTranspose g.V u acc.1 []).1, acc.2 ++ [Q])
        (by
          show (dfsCollect g.getTranspose g.V u acc.1 []).1.length = g.V
          conv_rhs => rw [← hTV]
          exact hE2)
        (by
          intro x hx
          rcases List.mem_append.mp hx with hx' | hx'
          · exact hE3 x (hpre x hx')
          · have hxu : x = u := by simpa using hx'
            rw [hxu]
            exact ((hE4 u).mp hE5).1)
        (by
          intro v
          show visSet (dfsCollect g.getTranspose g.V u acc.1 []).1 v ↔
            v ∈ (acc.2 ++ [Q]).flatten
          rw [List.flatten_append]
          constructor
          · intro hv
            by_cases hav : visSet acc.1 v
            · exact List.mem_append.mpr (Or.inl ((hΦ2 v).mp hav))
            · refine List.mem_append.mpr (Or.inr ?_)
              simp only [List.flatten, List.append_nil]
              exact (hE4 v).mpr ⟨hv, hav⟩
          · intro hv
            rcases List.mem_append.mp hv with hv' | hv'
            · exact hE3 v ((hΦ2 v).mpr hv')
            · simp only [List.flatten, List.append_nil] at hv'
              exact ((hE4 v).mp hv').1)
        (by
          show ((acc.2 ++ [Q]).flatten).Nodup
          rw [List.flatten_append]
          simp only [List.flatten, List.append_nil]
          rw [List.nodup_append]
          refine ⟨hΦ3, hE6, ?_⟩
          intro x hx1 hx2
          have hvx : visSet acc.1 x := (hΦ2 x).mpr hx1
          exact ((hE4 x).mp hx2).2 hvx)
        (by
          intro c hc
          rcases List.mem_append.mp hc with hc' | hc'
          · exact hΦ4 c hc'
          · have hcQ : c = Q := by simpa using hc'
            rw [hcQ]
            exact ⟨u, hE5, huV, hiffQ⟩)
      refine ⟨hR1, hR2, hR3, hR4, ?_, ?_⟩
      · intro v hv
        exact hR5 v (hE3 v hv)
      · intro x hx
        rcases List.mem_cons.mp hx with rfl | hx'
        · exact hR5 x ((hE4 x).mp hE5).1
        · exact hR6 x hx'

/-- C1: for every graph with `adjList.size() == V` and in-range targets,
`getSCCs()` partitions the vertices `0..V-1` (each vertex appears exactly
once across the components), any two vertices of one component are mutually
reachable, and no two vertices of different components are mutually
reachable. -/
theorem C1_getSCCs (g : Graph)
    (hadjlen : g.adjList.length = g.V)
    (htgt : ∀ u, u < g.V → ∀ e ∈ g.adj u, e.1 < g.V) :
    (g.getSCCs.flatten).Perm (List.range g.V) ∧
    (∀ c ∈ g.getSCCs, ∀ u ∈ c, ∀ v ∈ c, ReachW g u v ∧ ReachW g v u) ∧
    (∀ c ∈ g.getSCCs, ∀ c' ∈ g.getSCCs, c ≠ c' → ∀ u ∈ c, ∀ v ∈ c',
      ¬ (ReachW g u v ∧ ReachW g v u)) := by
  obtain ⟨hLnd, hLmem, hWst⟩ := fillOrderAll_spec g htgt
  obtain ⟨hR1, hR2, hR3, hR4, hR5, hR6⟩ := phase2_spec g hadjlen htgt
    (fillOrderAll g).2 [] rfl
    (List.replicate g.V false, [])
    (by simp)
    (by intro x hx; cases hx)
    (by
      intro v
      constructor
      · intro hv
        exact absurd hv (visSet_replicate g.V v)
      · intro hv
        cases hv)
    (by simp)
    (by intro c hc; cases hc)
  have hgs : g.getSCCs = ((fillOrderAll g).2.foldl
      (fun acc u => if acc.1.getD u false then acc
        else ((dfsCollect g.getTranspose g.V u acc.1 []).1,
              acc.2 ++ [(dfsCollect g.getTranspose g.V u acc.1 []).2]))
      (List.replicate g.V false, ([] : List (List Nat)))).2 := rfl
  have hmemflat : ∀ v, v ∈ g.getSCCs.flatten ↔ v < g.V := by
    intro v
    rw [hgs]
    constructor
    · intro hv
      have hvv := (hR2 v).mpr hv
      have hlt := visSet_lt hvv
      omega
    · intro hv
      have hvL : v ∈ (fillOrderAll g).2 := (hLmem v).mpr hv
      exact (hR2 v).mp (hR6 v hvL)
  have hflatnd : g.getSCCs.flatten.Nodup := by
    rw [hgs]
    exact hR3
  have hcomps : ∀ c ∈ g.getSCCs, ∃ r, r ∈ c ∧ r < g.V ∧
      ∀ v, v ∈ c ↔ SameSCC g r v := by
    rw [hgs]
    exact hR4
  refine ⟨?_, ?_, ?_⟩
  · have hsub : g.getSCCs.flatten ⊆ List.range g.V := by
      intro x hx
      exact List.mem_range.mpr ((hmemflat x).mp hx)
    have hsub2 : List.range g.V ⊆ g.getSCCs.flatten := by
      intro x hx
      exact (hmemflat x).mpr (List.mem_range.mp hx)
    refine (List.subperm_of_subset hflatnd hsub).perm_of_length_le ?_
    have hl2 := (List.subperm_of_subset (List.nodup_range g.V) hsub2).length_le
    simpa using hl2
  · intro c hc u hu v hv
    obtain ⟨r, hrc, hrV, hciff⟩ := hcomps c hc
    have h1 := (hciff u).mp hu
    have h2 := (hciff v).mp hv
    have h3 := sameSCC_trans (sameSCC_symm h1) h2
    exact ⟨h3.1, h3.2⟩
  · intro c hc c' hc' hne u hu v hv hcon
    obtain ⟨r, hrc, hrV, hciff⟩ := hcomps c hc
    have h1 := (hciff u).mp hu
    have hrv : SameSCC g r v := sameSCC_trans h1 ⟨hcon.1, hcon.2⟩
    have hvc : v ∈ c := (hciff v).mpr hrv
    obtain ⟨A, B, hAB⟩ := List.append_of_mem hc
    have hc'in : c' ∈ A ∨ c' ∈ B := by
      rw [hAB] at hc'
      rcases List.mem_append.mp hc' with h | h
      · exact Or.inl h
      · rcases List.mem_cons.mp h with h | h
        · exact absurd h.symm hne
        · exact Or.inr h
    have hflat2 : (g.getSCCs).flatten = A.flatten ++ (c ++ B.flatten) := by
      rw [hAB, List.flatten_append, List.flatten_cons]
    rw [hflat2] at hflatnd
    rcases hc'in with hcA | hcB
    · have hv1 : v ∈ A.flatten := List.mem_flatten.mpr ⟨c', hcA, hv⟩
      have hv2 : v ∈ c ++ B.flatten := List.mem_append.mpr (Or.inl hvc)
      exact List.disjoint_of_nodup_append hflatnd hv1 hv2
    · have hnd2 : (c ++ B.flatten).Nodup := List.Nodup.of_append_right hflatnd
      have hv1 : v ∈ B.flatten := List.mem_flatten.mpr ⟨c', hcB, hv⟩
      exact List.disjoint_of_nodup_append hnd2 hvc hv1

/-- Witness for C1: the 6-vertex scenario graph satisfies both hypotheses,
and the conclusion holds for it. -/
theorem C1_witness :
    g6.adjList.length = g6.V ∧
    (∀ u, u < g6.V → ∀ e ∈ g6.adj u, e.1 < g6.V) ∧
    ((g6.getSCCs.flatten).Perm (List.range g6.V) ∧
    (∀ c ∈ g6.getSCCs, ∀ u ∈ c, ∀ v ∈ c, ReachW g6 u v ∧ ReachW g6 v u) ∧
    (∀ c ∈ g6.getSCCs, ∀ c' ∈ g6.getSCCs, c ≠ c' → ∀ u ∈ c, ∀ v ∈ c',
      ¬ (ReachW g6 u v ∧ ReachW g6 v u))) :=
  ⟨by decide, by decide, C1_getSCCs g6 (by decide) (by decide)⟩
